import Mathlib

/-!
Flow networks: Edmonds-Karp solver and random network generator.

A shallow embedding of `src/flowNetworks/max_flow_generator.c` and
`src/flowNetworks/flow_network_generator.c`.

Conventions of the embedding

* `adjmatrix_t` is a vertex count together with the flat row-major array
  `matrix`, a `List Nat`; `matrix[(u * vertices) + v]` is read with `getD _ 0`
  and written with `List.set`.
* `unsigned int` arithmetic is arithmetic on `Nat` reduced modulo `2 ^ 32`.
* The linked-list "queue" is a `List Nat` whose head is the node `*queue`
  points to: `push` conses, `pop` removes the head.
* `while` loops take a fuel argument and return `none` when the fuel runs out
  before the loop condition fails; `for` loops over `0 .. n-1` are folds over
  `List.range n`.
-/

namespace FlowNetworks

/-- Word size of `unsigned int`. -/
def UINT : Nat := 2 ^ 32

/-- An adjacency matrix (`adjmatrix_t`). -/
structure adjmatrix where
  vertices : Nat
  matrix : List Nat
deriving DecidableEq, Repr

/-- Read of `m->matrix[(u * m->vertices) + v]`. -/
def adjmatrix.at (m : adjmatrix) (u v : Nat) : Nat :=
  m.matrix.getD (u * m.vertices + v) 0

/-- Write of `m->matrix[(u * m->vertices) + v] = x`. -/
def adjmatrix.put (m : adjmatrix) (u v x : Nat) : adjmatrix :=
  { m with matrix := m.matrix.set (u * m.vertices + v) x }

/-- Queue helper `push`: the new node becomes the head of the list. -/
def push (queue : List Nat) (val : Nat) : List Nat := val :: queue

/-- Queue helper `isEmpty`. -/
def isEmpty (queue : List Nat) : Bool := queue.isEmpty

/-- Local state of `breadthFirstSearch`: the flag set, the parent list and the
queue. -/
structure bfsState where
  visited : List Bool
  p : List Nat
  queue : List Nat
deriving DecidableEq, Repr

/-- Body of the `for` loop of `breadthFirstSearch` for one index `i`. -/
def bfsVisit (g : adjmatrix) (vertex : Nat) (s : bfsState) (i : Nat) : bfsState :=
  if g.at vertex i ≠ 0 ∧ s.visited.getD i false = false then
    { visited := s.visited.set i true
      queue := push s.queue i
      p := s.p.set i vertex }
  else s

/-- The `for` loop of `breadthFirstSearch`: all `i` from `0` to `vertices - 1`. -/
def bfsScan (g : adjmatrix) (vertex : Nat) (s : bfsState) : bfsState :=
  (List.range g.vertices).foldl (bfsVisit g vertex) s

/-- The `while(!isEmpty(queue))` loop of `breadthFirstSearch`; `pop` takes the
head of the list. -/
def bfsLoop (g : adjmatrix) : Nat → bfsState → Option bfsState
  | fuel, s =>
    match s.queue with
    | [] => some s
    | vertex :: rest =>
      match fuel with
      | 0 => none
      | fuel + 1 => bfsLoop g fuel (bfsScan g vertex { s with queue := rest })

/-- State of `breadthFirstSearch` when the traversal starts: cleared flags and
parents, the source pushed and flagged. -/
def bfsInit (g : adjmatrix) : bfsState :=
  { visited := (List.replicate g.vertices false).set 0 true
    p := List.replicate g.vertices 0
    queue := push [] 0 }

/-- Function `breadthFirstSearch(g, p)`: the returned flag and the parent list
it leaves in `p`. -/
def breadthFirstSearch (fuel : Nat) (g : adjmatrix) : Option (Bool × List Nat) :=
  match bfsLoop g fuel (bfsInit g) with
  | none => none
  | some s => some (s.visited.getD (g.vertices - 1) false, s.p)

/-- The `while(vertex != 0)` loop of `pathCapacity`. -/
def pathCapacityLoop (g : adjmatrix) (p : List Nat) : Nat → Nat → Nat → Option Nat
  | fuel, vertex, pathCap =>
    if vertex = 0 then some pathCap
    else
      match fuel with
      | 0 => none
      | fuel + 1 =>
        let edgeCost := g.at (p.getD vertex 0) vertex
        pathCapacityLoop g p fuel (p.getD vertex 0)
          (if edgeCost < pathCap then edgeCost else pathCap)

/-- Function `pathCapacity(g, p)`; `pathCap` starts with every byte `0xFF`. -/
def pathCapacity (fuel : Nat) (g : adjmatrix) (p : List Nat) : Option Nat :=
  pathCapacityLoop g p fuel (g.vertices - 1) (UINT - 1)

/-- One pass of the body of the residualize/augment loop of `edmondsKarp`. -/
def augmentStep (p : List Nat) (pathCap : Nat) (vertex : Nat) (g f : adjmatrix) :
    adjmatrix × adjmatrix :=
  let u := p.getD vertex 0
  let g1 := g.put u vertex ((g.at u vertex + UINT - pathCap) % UINT)
  let g2 := g1.put vertex u ((g1.at vertex u + pathCap) % UINT)
  let f1 := f.put u vertex ((f.at u vertex + pathCap) % UINT)
  (g2, f1)

/-- The inner `while(vertex != 0)` loop of `edmondsKarp`. -/
def augmentLoop (p : List Nat) (pathCap : Nat) :
    Nat → Nat → adjmatrix → adjmatrix → Option (adjmatrix × adjmatrix)
  | fuel, vertex, g, f =>
    if vertex = 0 then some (g, f)
    else
      match fuel with
      | 0 => none
      | fuel + 1 =>
        augmentLoop p pathCap fuel (p.getD vertex 0)
          (augmentStep p pathCap vertex g f).1 (augmentStep p pathCap vertex g f).2

/-- Result of `edmondsKarp`: the returned value, the residual graph left in `g`,
the flow graph left in `f`, and the number of times the body of the outer loop
ran (a ghost counter, not a variable of the source). -/
structure ekResult where
  maxFlow : Nat
  g : adjmatrix
  f : adjmatrix
  iterations : Nat
deriving DecidableEq, Repr

/-- The outer `while(breadthFirstSearch(g, p))` loop of `edmondsKarp`. The
inner loops run with the budget `inner`. -/
def edmondsKarpLoop (inner : Nat) : Nat → ekResult → Option ekResult
  | fuel, s =>
    match breadthFirstSearch inner s.g with
    | none => none
    | some (false, _) => some s
    | some (true, p) =>
      match fuel with
      | 0 => none
      | fuel + 1 =>
        match pathCapacity inner s.g p with
        | none => none
        | some pathCap =>
          match augmentLoop p pathCap inner (s.g.vertices - 1) s.g s.f with
          | none => none
          | some (g1, f1) =>
            edmondsKarpLoop inner fuel
              { maxFlow := (s.maxFlow + pathCap) % UINT
                g := g1
                f := f1
                iterations := s.iterations + 1 }

/-- Function `edmondsKarp(g, f)`. -/
def edmondsKarp (fuel : Nat) (g f : adjmatrix) : Option ekResult :=
  edmondsKarpLoop fuel fuel { maxFlow := 0, g := g, f := f, iterations := 0 }

/-- A zero-filled `n x n` matrix, as `calloc` leaves it. -/
def zeroMatrix (n : Nat) : adjmatrix :=
  { vertices := n, matrix := List.replicate (n * n) 0 }

/-! ### The network generator (`flow_network_generator.c`) -/

/-- Percent probability of a forward edge being placed. -/
def FORWARD_EDGE_PROBABILITY : Nat := 40

/-- Percent probability of a back edge being placed. -/
def BACK_EDGE_PROBABILITY : Nat := 10

/-- Maximum edge capacity. -/
def MAX_EDGE_CAPACITY : Nat := 20

/-- Number of attempts before the generator adds an edge from source to sink. -/
def COP_OUT_LIMIT : Nat := 5

/-- State of `generate_flow`: the matrix being filled, the number of calls of
`rand()` made so far (the values themselves are the stream `rand : Nat → Nat`,
call number `k` returning `rand k`), and the edge counter `e` of the current
attempt. -/
structure genState where
  flownet : adjmatrix
  calls : Nat
  e : Nat
deriving DecidableEq, Repr

/-- Body of the two nested placement loops of `generate_flow` for the cell
`(i, j)`. The conditions short-circuit: `rand()` is called for the test only
when `i < j` (first branch) or, that branch not taken, when `i > j`; a second
call draws the capacity when an edge is placed. -/
def placeCell (rand : Nat → Nat) (i : Nat) (s : genState) (j : Nat) : genState :=
  if i < j then
    if rand s.calls % 100 < FORWARD_EDGE_PROBABILITY then
      { flownet := s.flownet.put i j (rand (s.calls + 1) % MAX_EDGE_CAPACITY + 1)
        calls := s.calls + 2
        e := s.e + 1 }
    else { s with calls := s.calls + 1 }
  else if i > j then
    if rand s.calls % 100 < BACK_EDGE_PROBABILITY then
      { flownet := s.flownet.put i j (rand (s.calls + 1) % MAX_EDGE_CAPACITY + 1)
        calls := s.calls + 2
        e := s.e + 1 }
    else { s with calls := s.calls + 1 }
  else s

/-- The placement loops: `i` from `0` to `vertices - 2`, `j` from `1` to
`vertices - 1`. -/
def placeEdges (rand : Nat → Nat) (s : genState) : genState :=
  (List.range (s.flownet.vertices - 1)).foldl
    (fun s i => (List.range' 1 (s.flownet.vertices - 1)).foldl (placeCell rand i) s) s

/-- The scan of row `i` that leaves `addEdge` true when no entry is positive. -/
def rowEmpty (m : adjmatrix) (i : Nat) : Bool :=
  (List.range m.vertices).all fun j => !(decide (m.at i j > 0))

/-- Body of the repair loop for row `i`: a row without an edge gets one to the
column `rand() % (vertices - 1) + 1`. The index is taken from the first of the
two calls of `rand()` in the assignment, the capacity from the second. -/
def forceRow (rand : Nat → Nat) (s : genState) (i : Nat) : genState :=
  if rowEmpty s.flownet i then
    { s with
      flownet := s.flownet.put i (rand s.calls % (s.flownet.vertices - 1) + 1)
        (rand (s.calls + 1) % MAX_EDGE_CAPACITY + 1)
      calls := s.calls + 2 }
  else s

/-- The repair step: runs when fewer than `vertices - 1` edges were placed in
this attempt. -/
def forceEdges (rand : Nat → Nat) (s : genState) : genState :=
  if s.e < s.flownet.vertices - 1 then
    (List.range (s.flownet.vertices - 1)).foldl (forceRow rand) s
  else s

/-- Function `recursiveBFS(vertex, flownet, reachable)`: the returned flag and
the flag array it leaves. The `for` loop is a fold that stops working once the
function has returned `true`; the fuel bounds the recursion depth. -/
def recursiveBFS (flownet : adjmatrix) : Nat → Nat → List Bool → Option (Bool × List Bool)
  | 0, _, _ => none
  | fuel + 1, vertex, reachable =>
    (List.range flownet.vertices).foldl
      (fun acc i =>
        match acc with
        | none => none
        | some (true, r) => some (true, r)
        | some (false, r) =>
          if flownet.at vertex i ≠ 0 then
            if i = flownet.vertices - 1 then some (true, r)
            else if r.getD i false = false then recursiveBFS flownet fuel i r
            else some (false, r)
          else some (false, r))
      (some (false, reachable.set vertex true))

/-- The `do ... while(++z < COP_OUT_LIMIT)` loop of `generate_flow` followed by
the fallback edge from source to sink. -/
def generateLoop (rand : Nat → Nat) (depth : Nat) : Nat → Nat → genState → Option genState
  | fuel, z, s =>
    let s1 := forceEdges rand (placeEdges rand { s with e := 0 })
    match recursiveBFS s1.flownet depth 0 (List.replicate s1.flownet.vertices false) with
    | none => none
    | some (true, _) => some s1
    | some (false, _) =>
      if z + 1 < COP_OUT_LIMIT then
        match fuel with
        | 0 => none
        | fuel + 1 => generateLoop rand depth fuel (z + 1) s1
      else
        some { s1 with
          flownet := { s1.flownet with
            matrix := s1.flownet.matrix.set (s1.flownet.vertices - 1)
              (rand s1.calls % MAX_EDGE_CAPACITY + 1) }
          calls := s1.calls + 1 }

/-- Function `generate_flow(flownet)` run with the values `rand` of `rand()`:
the matrix it leaves. -/
def generate_flow (rand : Nat → Nat) (fuel : Nat) (flownet : adjmatrix) : Option adjmatrix :=
  (generateLoop rand fuel fuel 0 { flownet := flownet, calls := 0, e := 0 }).map
    fun s => s.flownet

/-! ### Sample networks -/

/-- The four-vertex example: `0→1 (3)`, `0→2 (2)`, `1→3 (2)`, `2→3 (3)`. -/
def exampleNet : adjmatrix :=
  { vertices := 4
    matrix := [0, 3, 2, 0,
               0, 0, 0, 2,
               0, 0, 0, 3,
               0, 0, 0, 0] }

/-- A six-vertex network with the opposite edges `2→4 (1)` and `4→2 (3)`. -/
def net6 : adjmatrix :=
  { vertices := 6
    matrix := [0, 0, 0, 3, 2, 3,
               0, 0, 3, 0, 1, 2,
               0, 0, 0, 2, 1, 2,
               0, 0, 2, 0, 0, 0,
               0, 2, 3, 0, 0, 0,
               0, 0, 0, 0, 0, 0] }

/-- A six-vertex network with eight edges on which the second augmenting path
runs against the edge `4→3`. -/
def crossNet : adjmatrix :=
  { vertices := 6
    matrix := [0, 0, 2, 0, 1, 0,
               0, 0, 0, 2, 0, 1,
               0, 0, 0, 2, 0, 0,
               0, 0, 0, 0, 0, 1,
               0, 1, 0, 2, 0, 0,
               0, 0, 0, 0, 0, 0] }

/-- Flow entering `v` along the original edges (the entries the solver emits). -/
def inflow (cap f : adjmatrix) (v : Nat) : Nat :=
  ((List.range cap.vertices).map fun u => if cap.at u v > 0 then f.at u v else 0).sum

/-- Flow leaving `v` along the original edges. -/
def outflow (cap f : adjmatrix) (v : Nat) : Nat :=
  ((List.range cap.vertices).map fun w => if cap.at v w > 0 then f.at v w else 0).sum

/-- Edge relation of a matrix: a nonzero entry between two of its vertices. -/
def adjmatrix.edge (g : adjmatrix) (u v : Nat) : Prop :=
  u < g.vertices ∧ v < g.vertices ∧ g.at u v ≠ 0

/-- A directed path of nonzero entries from `a` to `b`, given by the list of
its vertices. -/
def adjmatrix.hasPath (g : adjmatrix) (a b : Nat) : Prop :=
  ∃ l : List Nat, l.head? = some a ∧ l.getLast? = some b ∧ l.Chain' g.edge

/-- A source/sink cut of `n` vertices: a vertex set holding the source `0` and
not the sink `n - 1`. -/
def isCut (n : Nat) (S : Nat → Bool) : Prop :=
  S 0 = true ∧ S (n - 1) = false

/-- Capacity of a cut: the sum of the entries leading from `S` to its
complement. -/
def cutCapacity (cap : adjmatrix) (S : Nat → Bool) : Nat :=
  Finset.sum (Finset.range cap.vertices) fun u =>
    Finset.sum (Finset.range cap.vertices) fun v =>
      if S u = true ∧ S v = false then cap.at u v else 0

/-- Shape of a matrix the programs allocate: `vertices * vertices` cells. -/
def adjmatrix.wellFormed (m : adjmatrix) : Prop :=
  m.matrix.length = m.vertices * m.vertices

/-- Parent list and flag set describe a tree rooted at the source: every
flagged vertex but the source has a flagged parent, joined to it by an edge,
that was flagged earlier (`rank` records the order). -/
def treeOK (g : adjmatrix) (visited : List Bool) (p : List Nat) (rank : Nat → Nat) : Prop :=
  ∀ v, v < g.vertices → visited.getD v false = true →
    rank v + visited.count false < g.vertices ∧
    (v ≠ 0 → p.getD v 0 < g.vertices ∧ visited.getD (p.getD v 0) false = true ∧
      g.at (p.getD v 0) v ≠ 0 ∧ rank (p.getD v 0) < rank v)

/-- Invariant of the traversal while the row of `vertex` has been scanned up
to column `k`. -/
structure BfsInv (g : adjmatrix) (s : bfsState) (vertex k : Nat) : Prop where
  lenV : s.visited.length = g.vertices
  lenP : s.p.length = g.vertices
  src : s.visited.getD 0 false = true
  queueOK : ∀ q ∈ s.queue, q < g.vertices ∧ s.visited.getD q false = true
  reach : ∀ v, v < g.vertices → s.visited.getD v false = true →
    Relation.ReflTransGen g.edge 0 v
  closed : ∀ u, u < g.vertices → s.visited.getD u false = true →
    u ∈ s.queue ∨ (u = vertex ∧ ∀ i, i < k → g.at u i ≠ 0 → s.visited.getD i false = true) ∨
      (∀ i, i < g.vertices → g.at u i ≠ 0 → s.visited.getD i false = true)
  cur : vertex < g.vertices ∧ s.visited.getD vertex false = true
  tree : ∃ rank, treeOK g s.visited s.p rank

/-- Number of loop passes still possible: unflagged vertices plus queued ones. -/
def bfsMeasure (s : bfsState) : Nat := s.visited.count false + s.queue.length

/-- Facts about the flag set a finished traversal leaves behind, the returned
flag `b` and the parent list `p`. -/
structure BfsPost (g : adjmatrix) (b : Bool) (p : List Nat) (visited : List Bool) : Prop where
  lenV : visited.length = g.vertices
  lenP : p.length = g.vertices
  src : visited.getD 0 false = true
  sink : b = visited.getD (g.vertices - 1) false
  reach : ∀ v, v < g.vertices → visited.getD v false = true →
    Relation.ReflTransGen g.edge 0 v
  closed : ∀ u, u < g.vertices → visited.getD u false = true →
    ∀ i, i < g.vertices → g.at u i ≠ 0 → visited.getD i false = true
  tree : ∃ rank, treeOK g visited p rank

/-- Vertices met when following the parent list from `v` towards the source. -/
inductive OnWalk (p : List Nat) : Nat → Nat → Prop
  | here (v : Nat) : OnWalk p v v
  | step {v w : Nat} : v ≠ 0 → OnWalk p (p.getD v 0) w → OnWalk p v w

/-- Net amount pushed from `u` to `v`: what the residual lost against the
capacity (negative when the residual gained). -/
def net (cap g : adjmatrix) (u v : Nat) : Int :=
  (cap.at u v : Int) - (g.at u v : Int)

/-- Net amount leaving vertex `v`. -/
def excess (cap g : adjmatrix) (v : Nat) : Int :=
  Finset.sum (Finset.range cap.vertices) fun u => net cap g v u

/-- Sum of row `u` of a matrix. -/
def rowSum (m : adjmatrix) (u : Nat) : Nat :=
  Finset.sum (Finset.range m.vertices) fun v => m.at u v

/-- Shape of a residual graph relative to the capacities it started from. -/
structure ResInv (cap g : adjmatrix) : Prop where
  verts : g.vertices = cap.vertices
  wf : g.wellFormed
  pair : ∀ u v, u < cap.vertices → v < cap.vertices →
    g.at u v + g.at v u = cap.at u v + cap.at v u

/-- Invariant of the residualize/augment walk standing at vertex `w`, started
from the residual `g0` with bottleneck `x`. -/
structure AugInv (cap g0 : adjmatrix) (p : List Nat) (visited : List Bool) (rank : Nat → Nat)
    (x w : Nat) (g : adjmatrix) : Prop where
  res : ResInv cap g
  exc : ∀ v, v < cap.vertices → excess cap g v =
    excess cap g0 v + (if v = w then (x : Int) else 0)
      - (if v = cap.vertices - 1 then (x : Int) else 0)
  keep : ∀ y, y < cap.vertices → visited.getD y false = true → y ≠ 0 → rank y ≤ rank w →
    g.at (p.getD y 0) y = g0.at (p.getD y 0) y

/-- Invariant of the outer loop of `edmondsKarp` for the capacities `cap`. -/
structure EkInv (cap : adjmatrix) (s : ekResult) : Prop where
  res : ResInv cap s.g
  cons : ∀ v, v < cap.vertices → v ≠ 0 → v ≠ cap.vertices - 1 → excess cap s.g v = 0
  value : excess cap s.g 0 = (s.maxFlow : Int)
  count : s.iterations ≤ s.maxFlow

/-- Shape of the flow matrix relative to the residual graph: the difference of
two opposite entries is the net amount pushed, and no entry exceeds the value
`mf` accumulated so far. -/
structure FlowInv (cap g f : adjmatrix) (mf : Nat) : Prop where
  verts : f.vertices = cap.vertices
  wf : f.wellFormed
  netEq : ∀ i j, i < cap.vertices → j < cap.vertices →
    (f.at i j : Int) - (f.at j i : Int) = net cap g i j
  le : ∀ i j, i < cap.vertices → j < cap.vertices → f.at i j ≤ mf

/-- Invariant of the flow matrix during the residualize/augment walk standing
at vertex `w`, started from the flow `f0`. -/
structure AugFlow (cap f0 : adjmatrix) (p : List Nat) (visited : List Bool) (rank : Nat → Nat)
    (x w mf : Nat) (g f : adjmatrix) : Prop where
  verts : f.vertices = cap.vertices
  wf : f.wellFormed
  netEq : ∀ i j, i < cap.vertices → j < cap.vertices →
    (f.at i j : Int) - (f.at j i : Int) = net cap g i j
  le : ∀ i j, i < cap.vertices → j < cap.vertices → f.at i j ≤ mf + x
  keep : ∀ y, y < cap.vertices → visited.getD y false = true → y ≠ 0 → rank y ≤ rank w →
    f.at (p.getD y 0) y = f0.at (p.getD y 0) y

end FlowNetworks

/-!
Generator output and solver input.

The vertex count the generator's `main` picks, the edge statements it emits,
and the loop of the solver's `main` that rebuilds a matrix from edge statements.
The text of a `.dot` line is abstracted to the triple `(source, destination,
capacity)` that `snprintf` writes and `sscanf` reads back.
-/

namespace FlowNetworks

/-- Vertex count the generator's `main` takes from a value `r` of `rand()`:
`(rand() % 10) + 5`. -/
def chooseVertices (r : Nat) : Nat := r % 10 + 5

/-- Edge statements the generator's `main` writes: for `i`, then `j`, from `0`
to `vertices - 1`, one triple `(i + 1, j + 1, capacity)` per nonzero entry. -/
def emitEdges (m : adjmatrix) : List (Nat × Nat × Nat) :=
  (List.range m.vertices).flatMap fun i =>
    (List.range m.vertices).filterMap fun j =>
      if m.at i j ≠ 0 then some (i + 1, j + 1, m.at i j) else none

/-- The `memcpy` of row `i` into the new array: `vertices` cells from
`matrix[i * vertices]` to `newMatrix[i * newVertices]`; the product
`i * newVertices` is an `unsigned int` product. -/
def copyRow (flownet : adjmatrix) (newVertices : Nat) (newMatrix : List Nat) (i : Nat) :
    List Nat :=
  (List.range flownet.vertices).foldl
    (fun acc k =>
      acc.set ((i * newVertices) % UINT + k) (flownet.matrix.getD (i * flownet.vertices + k) 0))
    newMatrix

/-- Resizing of the solver's matrix: a zero-filled array of
`newVertices * newVertices` cells (an `unsigned int` product) receives the old
rows one by one. -/
def growMatrix (flownet : adjmatrix) (newVertices : Nat) : adjmatrix :=
  { vertices := newVertices
    matrix := (List.range flownet.vertices).foldl (copyRow flownet newVertices)
      (List.replicate ((newVertices * newVertices) % UINT) 0) }

/-- Size the solver resizes to: `(edgeSource > edgeDest) ? edgeSource :
((edgeDest > vertices) ? edgeDest : edgeSource)`. -/
def newVertices (vertices edgeSource edgeDest : Nat) : Nat :=
  if edgeSource > edgeDest then edgeSource
  else if edgeDest > vertices then edgeDest else edgeSource

/-- Body of the solver's reading loop for one edge statement: resize when an
index exceeds the vertex count, then store the capacity at
`matrix[((edgeSource - 1) * vertices) + (edgeDest - 1)]`; the two subtractions
are `unsigned int` subtractions. -/
def parseEdge (flownet : adjmatrix) (e : Nat × Nat × Nat) : adjmatrix :=
  let flownet1 :=
    if e.1 > flownet.vertices ∨ e.2.1 > flownet.vertices then
      growMatrix flownet (newVertices flownet.vertices e.1 e.2.1)
    else flownet
  flownet1.put ((e.1 + UINT - 1) % UINT) ((e.2.1 + UINT - 1) % UINT) e.2.2

/-- The solver's reading loop over the edge statements of its input, started
on the 5 x 5 zero matrix `main` allocates. -/
def parseEdges (edges : List (Nat × Nat × Nat)) : adjmatrix :=
  edges.foldl parseEdge (zeroMatrix 5)

/-- Largest vertex index an edge list mentions (0 for the empty list). -/
def maxIndex (edges : List (Nat × Nat × Nat)) : Nat :=
  edges.foldl (fun acc e => max acc (max e.1 e.2.1)) 0

/-- Number of nonzero entries of a matrix. -/
def edgeCount (m : adjmatrix) : Nat := m.matrix.countP fun x => decide (x ≠ 0)

/-- One pass of the `for` loop of `recursiveBFS` at `vertex`, the recursive
call abstracted to `call`; `recursiveBFS` with fuel `k + 1` is the fold of this
step with `call := recursiveBFS flownet k`. -/
def rbfsStep (flownet : adjmatrix) (call : Nat → List Bool → Option (Bool × List Bool))
    (vertex : Nat) (acc : Option (Bool × List Bool)) (i : Nat) : Option (Bool × List Bool) :=
  match acc with
  | none => none
  | some (true, r) => some (true, r)
  | some (false, r) =>
    if flownet.at vertex i ≠ 0 then
      if i = flownet.vertices - 1 then some (true, r)
      else if r.getD i false = false then call i r
      else some (false, r)
    else some (false, r)

/-- The matrices `generate_flow` can reach from `m`: each write goes to a cell
in a row other than the sink's and a column other than the source's, with a
value from 1 to 20. -/
inductive GenWrites (n : Nat) (m : adjmatrix) : adjmatrix → Prop
  | refl : GenWrites n m m
  | step {m' : adjmatrix} (i j v : Nat) : GenWrites n m m' → i + 1 < n → 1 ≤ j → j < n →
      1 ≤ v → v ≤ MAX_EDGE_CAPACITY → GenWrites n m (m'.put i j v)

/-- Invariant of the placement loops standing at cell `(i, j)` in a pass that
began on an all-zero matrix: the cells still to come are zero and every edge
counted by `e` is a nonzero entry. -/
structure PlaceInv (n i j : Nat) (s : genState) : Prop where
  verts : s.flownet.vertices = n
  wf : s.flownet.wellFormed
  count : s.e ≤ edgeCount s.flownet
  zero : ∀ i' j', i' < n → j' < n → (i < i' ∨ (i' = i ∧ j ≤ j')) → s.flownet.at i' j' = 0

end FlowNetworks

/-!
Edit distance (`editDistance.c`).

A string is the list of its character codes up to the terminating NUL. Values
of type `int` are integers kept in range by `toInt`, the two's-complement
reduction to 32 bits.
-/

namespace EditDistance

/-- Reduction of an integer to the range of `int`. -/
def toInt (x : Int) : Int := (x + 2 ^ 31) % 2 ^ 32 - 2 ^ 31

/-- Body of the inner loop of `editDistance` for column `j` of row `i`: the
three costs and the store of the smallest into `curRow[j + 1]`. -/
def cellStep (s1 s2 : List Nat) (i : Nat) (prevRow curRow : List Int) (j : Nat) : List Int :=
  let costDel := toInt (prevRow.getD (j + 1) 0 + 1)
  let costIns := toInt (curRow.getD j 0 + 1)
  let costSub :=
    if s1.getD i 0 = s2.getD j 0 then prevRow.getD j 0 else toInt (prevRow.getD j 0 + 1)
  curRow.set (j + 1)
    (if costDel < costIns then (if costDel < costSub then costDel else costSub)
     else (if costIns < costSub then costIns else costSub))

/-- Body of the outer loop of `editDistance` for row `i` on the pair
`(prevRow, curRow)`: `*curRow = i + 1`, the inner loop over `j < len2`, then
the pointer swap. -/
def rowStep (s1 s2 : List Nat) (len2 : Int) (rows : List Int × List Int) (i : Nat) :
    List Int × List Int :=
  let curRow := (List.range len2.toNat).foldl (cellStep s1 s2 i rows.1)
    (rows.2.set 0 (toInt ((i : Int) + 1)))
  (curRow, rows.1)

/-- Function `editDistance(s1, s2, silent)` with `silent` true (the flag only
switches printing). The lengths are `strlen` results stored in an `int`; both
rows have `len2 + 1` cells; `curRow` comes from `malloc` and every cell of it is
written before it is read, so its cells start here as 0. -/
def editDistance (s1 s2 : List Nat) : Int :=
  let len1 := toInt s1.length
  let len2 := toInt s2.length
  let prevRow := (List.range (len2 + 1).toNat).map fun (i : Nat) => toInt (i : Int)
  let curRow := List.replicate (len2 + 1).toNat (0 : Int)
  let rows := (List.range len1.toNat).foldl (rowStep s1 s2 len2) (prevRow, curRow)
  rows.1.getD len2.toNat 0

/-- One row of the standard recurrence: the distances from `a :: s` to every
suffix `t`, given the distances `prev` from `s` and the length of `s`. -/
def levenshteinRow (a : Nat) (prev : List Nat → Nat) (slen : Nat) : List Nat → Nat
  | [] => slen + 1
  | b :: t =>
    min (prev (b :: t) + 1)
      (min (levenshteinRow a prev slen t + 1) (prev t + if a = b then 0 else 1))

/-- Levenshtein distance by the standard recurrence: `lev([], t) = |t|`,
`lev(s, []) = |s|`, and `lev(a :: s, b :: t)` the least of
`lev(s, b :: t) + 1` (deletion), `lev(a :: s, t) + 1` (insertion) and
`lev(s, t) + [a ≠ b]` (substitution, free when the characters agree). -/
def levenshteinSpec : List Nat → List Nat → Nat
  | [] => fun t => t.length
  | a :: s => levenshteinRow a (levenshteinSpec s) s.length

/-- One row of the table of prefix distances: entry `j` of row `i1`, given row
`i1 - 1` as `prev` and the character `a` that the row adds. -/
def prefixRow (a : Nat) (t : List Nat) (prev : Nat → Nat) (i1 : Nat) : Nat → Nat
  | 0 => i1
  | j + 1 =>
    min (prev (j + 1) + 1)
      (min (prefixRow a t prev i1 j + 1) (prev j + if a = t.getD j 0 then 0 else 1))

/-- Table of prefix distances: `prefixDistance s t i j` is the entry for the
first `i` characters of `s` and the first `j` characters of `t`. -/
def prefixDistance (s t : List Nat) : Nat → Nat → Nat
  | 0 => fun j => j
  | i + 1 => prefixRow (s.getD i 0) t (prefixDistance s t i) (i + 1)

end EditDistance

/-!
String matching (`stringMatchStats.c`).

A text or pattern is the list of its bytes; a read past the end of a list
yields 0, the byte that ends a pattern line and that no pattern character
equals. Each matcher is modelled by the list of positions it prints between the
brackets, in the order it prints them; the statistics counters are left out.
-/

namespace StringMatching

/-- Number of values of an `unsigned int`. -/
def UINT : Nat := 2 ^ 32

/-- Number of values of a `size_t`. -/
def SIZE : Nat := 2 ^ 64

/-- Inner loop of `naiveMatch` at text position `i`: `match` stays true when
`text[i + j] == pattern[j]` for every `j < patternLength`. -/
def matchAt (text pattern : List Nat) (i : Nat) : Bool :=
  (List.range pattern.length).all fun j => text.getD (i + j) 0 == pattern.getD j 0

/-- Function `naiveMatch`: the positions `i < textLength` at which the inner
loop leaves `match` true. -/
def naiveMatch (text pattern : List Nat) : List Nat :=
  (List.range text.length).filter fun i => matchAt text pattern i

/-- Helper `isSuffix(p, k, q, c)`: whether the first `k` characters of `p` end
the first `q` characters of `p` followed by `c`. -/
def isSuffix (p : List Nat) (k q c : Nat) : Bool :=
  let q1 := (q + 1) % UINT
  if k > q1 then false
  else if k = 0 then true
  else if (List.range (k - 1)).all fun i => p.getD i 0 == p.getD (q1 - k + i) 0 then
    p.getD (k - 1) 0 == c
  else false

/-- Loop `while(!isSuffix(pattern, k, q, c)) k--;` started at `k`: it stops at
`k = 0` at the latest, where `isSuffix` is true. -/
def findK (p : List Nat) (q c : Nat) : Nat → Nat
  | 0 => 0
  | k + 1 => if isSuffix p (k + 1) q c then k + 1 else findK p q c k

/-- Body of the table loops of `DFAMatch` for state `q` and symbol `c`: the
store `transitionFunction[q][c - 1] = k` into the table, kept as one row-major
list of `255` cells per state. -/
def tableCell (pattern : List Nat) (q : Nat) (table : List Nat) (c : Nat) : List Nat :=
  let k0 := if pattern.length + 1 < (q + 2) % UINT then (pattern.length + 1) % UINT
    else (q + 2) % UINT
  table.set (q * 255 + (c - 1)) (findK pattern q c k0)

/-- The transition table of `DFAMatch`: for `q` from `0` to `patternLength`,
for `c` from `255` down to `1`. -/
def transitionFunction (pattern : List Nat) : List Nat :=
  (List.range (pattern.length % UINT + 1)).foldl
    (fun table q => ((List.range 255).map fun d => 255 - d).foldl (tableCell pattern q) table)
    (List.replicate ((pattern.length + 1) * 255) 0)

/-- Value of a byte read through a `char`: bytes from 128 up are negative. -/
def charValue (b : Nat) : Int := if b < 128 then (b : Int) else (b : Int) - 256

/-- Body of the run loop of `DFAMatch` at text position `i` on the pair of the
state and the positions printed so far: the table lookup at
`[state][text[i] - 1]`, and the print of `i - (patternLength - 1)` when the
state reached is `patternLength`. -/
def dfaStep (table text : List Nat) (patternLength : Nat) (acc : Nat × List Nat) (i : Nat) :
    Nat × List Nat :=
  let state := table.getD (((acc.1 : Int) * 255 + (charValue (text.getD i 0) - 1)).toNat) 0
  (state,
    if state = patternLength then acc.2 ++ [(i + SIZE - (patternLength - 1)) % SIZE]
    else acc.2)

/-- Function `DFAMatch`: the positions it prints. -/
def DFAMatch (text pattern : List Nat) : List Nat :=
  ((List.range text.length).foldl (dfaStep (transitionFunction pattern) text pattern.length)
    (0, [])).2

/-- Loops `while(k > 0 && pattern[k] != c) k = prefixFunction[k - 1];` of
`KMPMatch` (one in the prefix computation with `c = pattern[q]`, one in the
matcher with `c = text[i]`), with fuel for the number of passes. -/
def fallBack (pattern prefixFunction : List Nat) (c : Nat) : Nat → Nat → Option Nat
  | 0, _ => none
  | fuel + 1, k =>
    if k > 0 ∧ pattern.getD k 0 ≠ c then
      fallBack pattern prefixFunction c fuel (prefixFunction.getD (k - 1) 0)
    else some k

/-- Body of the prefix loop of `KMPMatch` for index `q` on the pair of the
array and `k`. -/
def prefixStep (fuel : Nat) (pattern : List Nat) (acc : Option (List Nat × Nat)) (q : Nat) :
    Option (List Nat × Nat) :=
  match acc with
  | none => none
  | some (prefixFunction, k) =>
    match fallBack pattern prefixFunction (pattern.getD q 0) fuel k with
    | none => none
    | some k1 =>
      let k2 := if pattern.getD k1 0 = pattern.getD q 0 then (k1 + 1) % UINT else k1
      some (prefixFunction.set q k2, k2)

/-- The prefix function of `KMPMatch`: `prefixFunction[0] = 0`, then the loop
over `q` from `1` below `(unsigned int) patternLength`. -/
def computePrefix (fuel : Nat) (pattern : List Nat) : Option (List Nat) :=
  (((List.range (pattern.length % UINT - 1)).map fun q => q + 1).foldl (prefixStep fuel pattern)
    (some ((List.replicate pattern.length 0).set 0 0, 0))).map fun acc => acc.1

/-- Body of the matcher loop of `KMPMatch` at text position `i` on the pair of
`q` and the positions printed so far. -/
def kmpStep (fuel : Nat) (text pattern prefixFunction : List Nat)
    (acc : Option (Nat × List Nat)) (i : Nat) : Option (Nat × List Nat) :=
  match acc with
  | none => none
  | some (q, out) =>
    match fallBack pattern prefixFunction (text.getD i 0) fuel q with
    | none => none
    | some q1 =>
      let q2 := if pattern.getD q1 0 = text.getD i 0 then (q1 + 1) % UINT else q1
      if q2 = pattern.length then
        some (prefixFunction.getD (q2 - 1) 0,
          out ++ [((i + 1) % UINT + UINT - pattern.length % UINT) % UINT])
      else some (q2, out)

/-- Function `KMPMatch`: the positions it prints; the matcher loop runs over
`i` below `(unsigned int) textLength`. -/
def KMPMatch (fuel : Nat) (text pattern : List Nat) : Option (List Nat) :=
  match computePrefix fuel pattern with
  | none => none
  | some prefixFunction =>
    ((List.range (text.length % UINT)).foldl (kmpStep fuel text pattern prefixFunction)
      (some (0, []))).map fun acc => acc.2

/-- The occurrences of the pattern in the text: the indices `i` with
`i + patternLength <= textLength` and `text[i .. i + patternLength)` equal to
the pattern, each once and in increasing order. -/
def occurrences (text pattern : List Nat) : List Nat :=
  (List.range (text.length + 1 - pattern.length)).filter fun i =>
    (text.drop i).take pattern.length == pattern

/-- The first `k` characters of `P` are the `k` characters of `T` that end at
position `i`: `P[0 .. k) = T[i - k .. i)`. -/
def sufAt (P T : List Nat) (k i : Nat) : Prop :=
  k ≤ i ∧ ∀ j, j < k → P.getD j 0 = T.getD (i - k + j) 0

/-- Number `q` is the largest `k <= bound` with `P[0 .. k) = T[i - k .. i)`. -/
def longestAt (P T : List Nat) (bound i q : Nat) : Prop :=
  q ≤ bound ∧ sufAt P T q i ∧ ∀ x, x ≤ bound → sufAt P T x i → x ≤ q

/-- The array holds the prefix function for the lengths `1 .. K`: entry `r - 1`
is the length of the longest proper border of the first `r` characters. -/
def PrefixOK (P prefixFunction : List Nat) (K : Nat) : Prop :=
  ∀ r, 1 ≤ r → r ≤ K → longestAt P P (r - 1) r (prefixFunction.getD (r - 1) 0)

end StringMatching

/-!
Walks along the parent list, instrumented loops, and the word table.

The parent walk is the loop shape shared by `pathCapacity` and the
residualize/augment loop of `edmondsKarp`; the lists of attempts and of text
reads are ghost data recorded next to the loops of the source.
-/

namespace FlowNetworks

/-- A five-vertex network with the edges `0→1`, `0→2`, `1→4`, `2→3`, `3→4`,
all of capacity 1. -/
def stackNet : adjmatrix :=
  { vertices := 5
    matrix := [0, 1, 1, 0, 0,
               0, 0, 0, 0, 1,
               0, 0, 0, 1, 0,
               0, 0, 0, 0, 1,
               0, 0, 0, 0, 0] }

/-- The vertices met by the loop `while(vertex != 0) { ...; vertex = p[vertex]; }`
of `pathCapacity` and of `edmondsKarp`, started at `vertex`, the source
included. -/
def parentWalk (p : List Nat) : Nat → Nat → Option (List Nat)
  | fuel, vertex =>
    if vertex = 0 then some [0]
    else
      match fuel with
      | 0 => none
      | fuel + 1 => (parentWalk p fuel (p.getD vertex 0)).map fun l => vertex :: l

/-- The residual graphs the residualize/augment loop of `edmondsKarp` leaves
after each pass of its body, in order (ghost data: the loop is `augmentLoop`). -/
def augmentTrace (p : List Nat) (pathCap : Nat) :
    Nat → Nat → adjmatrix → adjmatrix → Option (List adjmatrix)
  | fuel, vertex, g, f =>
    if vertex = 0 then some []
    else
      match fuel with
      | 0 => none
      | fuel + 1 =>
        (augmentTrace p pathCap fuel (p.getD vertex 0)
          (augmentStep p pathCap vertex g f).1 (augmentStep p pathCap vertex g f).2).map
          fun t => (augmentStep p pathCap vertex g f).1 :: t

/-- The residual graphs a run of the outer loop of `edmondsKarp` passes
through, one per pass of the body of the residualize/augment loop, in order
(ghost data: the loop is `edmondsKarpLoop`). -/
def edmondsKarpTrace (inner : Nat) : Nat → ekResult → Option (List adjmatrix)
  | fuel, s =>
    match breadthFirstSearch inner s.g with
    | none => none
    | some (false, _) => some []
    | some (true, p) =>
      match fuel with
      | 0 => none
      | fuel + 1 =>
        match pathCapacity inner s.g p with
        | none => none
        | some pathCap =>
          match augmentLoop p pathCap inner (s.g.vertices - 1) s.g s.f,
            augmentTrace p pathCap inner (s.g.vertices - 1) s.g s.f with
          | some (g1, f1), some t =>
            (edmondsKarpTrace inner fuel
              { maxFlow := (s.maxFlow + pathCap) % UINT
                g := g1
                f := f1
                iterations := s.iterations + 1 }).map fun rest => t ++ rest
          | _, _ => none

/-- The matrices `generate_flow` holds at the end of each pass of the body of
its `do ... while` loop, in order (ghost data: the loop is `generateLoop`). -/
def generateAttempts (rand : Nat → Nat) (depth : Nat) :
    Nat → Nat → genState → Option (List adjmatrix)
  | fuel, z, s =>
    let s1 := forceEdges rand (placeEdges rand { s with e := 0 })
    match recursiveBFS s1.flownet depth 0 (List.replicate s1.flownet.vertices false) with
    | none => none
    | some (true, _) => some [s1.flownet]
    | some (false, _) =>
      if z + 1 < COP_OUT_LIMIT then
        match fuel with
        | 0 => none
        | fuel + 1 =>
          (generateAttempts rand depth fuel (z + 1) s1).map fun t => s1.flownet :: t
      else some [s1.flownet]

end FlowNetworks

namespace StringMatching

/-- The indices `i + j` at which the inner loop of `naiveMatch` reads the text
for the position `i`, from column `j` on with `k` columns left: the read
`text[i + j]` is made, and the loop goes on to `j + 1` unless the characters
differ (`break`). -/
def innerReads (text pattern : List Nat) (i : Nat) : Nat → Nat → List Nat
  | 0, _ => []
  | k + 1, j =>
    (i + j) :: if text.getD (i + j) 0 ≠ pattern.getD j 0 then []
      else innerReads text pattern i k (j + 1)

/-- All indices at which `naiveMatch` reads the text, in the order of the
reads: for every `i < textLength` the reads of the inner loop. -/
def naiveReads (text pattern : List Nat) : List Nat :=
  (List.range text.length).flatMap fun i => innerReads text pattern i pattern.length 0

end StringMatching

namespace EditDistance

/-- Number of buckets of the hash table. -/
def HASH_BUCKETS : Nat := 512

/-- Largest value of an `int`. -/
def INT_MAX : Int := 2 ^ 31 - 1

/-- Value of a byte read through a `char`: bytes from 128 up are negative. -/
def charValue (b : Nat) : Int := if b < 128 then (b : Int) else (b : Int) - 256

/-- Function `hash(str)`: `((strlen(str) << 4) + str[0]) % HASH_BUCKETS`, the
shift and the sum taken in `size_t` (64 bits); `str[0]` is the terminating NUL
for the empty string. -/
def hash (str : List Nat) : Nat :=
  (((((str.length * 16) % 2 ^ 64 : Nat) : Int) + charValue (str.getD 0 0)) % 2 ^ 64).toNat
    % HASH_BUCKETS

/-- The C library function `strcmp`, by its contract: the sign of the
comparison of two strings, byte by byte as `unsigned char`, a proper prefix
being smaller. -/
def strcmp : List Nat → List Nat → Int
  | [], [] => 0
  | [], _ :: _ => -1
  | _ :: _, [] => 1
  | a :: s, b :: t => if a < b then -1 else if b < a then 1 else strcmp s t

/-- A pointer to a `node_t`: `NULL`, or a node at the address `addr` with its
word and its two subtrees. The link `N` of a node is kept apart, in the array
`links` of the table, indexed by the address. -/
inductive node : Type
  | NULL : node
  | cell (addr : Nat) (word : List Nat) (L R : node) : node
deriving DecidableEq, Repr

/-- The hash table: the trees of the buckets and the `N` links of the nodes
allocated so far; the `k`-th node allocated has the address `k`. -/
structure table where
  buckets : List node
  links : List (Option Nat)
deriving DecidableEq, Repr

/-- The table `calloc` returns: `HASH_BUCKETS` empty buckets. -/
def emptyTable : table :=
  { buckets := List.replicate HASH_BUCKETS node.NULL, links := [] }

/-- The tree traversal of `addNode` from `cur` and the store of the new node,
allocated at `addr`, through `backPointer`. -/
def insertNode (str : List Nat) (addr : Nat) : node → node
  | node.NULL => node.cell addr str node.NULL node.NULL
  | node.cell a word L R =>
    if strcmp str word < 0 then node.cell a word (insertNode str addr L) R
    else node.cell a word L (insertNode str addr R)

/-- Function `addNode(str, table)`; the new node gets `N = NULL`. -/
def addNode (t : table) (str : List Nat) : table :=
  { buckets := t.buckets.set (hash str)
      (insertNode str t.links.length (t.buckets.getD (hash str) node.NULL))
    links := t.links ++ [none] }

/-- The tree traversal of `contains` from `cur`. -/
def lookup (str : List Nat) : node → Bool
  | node.NULL => false
  | node.cell _ word L R =>
    if strcmp str word = 0 then true
    else if strcmp str word < 0 then lookup str L
    else lookup str R

/-- Function `contains(str, table)`. -/
def contains (str : List Nat) (t : table) : Bool :=
  lookup str (t.buckets.getD (hash str) node.NULL)

/-- The words stored in a tree. -/
def node.words : node → List (List Nat)
  | node.NULL => []
  | node.cell _ word L R => L.words ++ R.words ++ [word]

/-- The nodes of a tree, each as its address and its word, in the order in
which `minEditDistanceKernel` compares them: left subtree, right subtree, then
the node itself. -/
def node.cells : node → List (Nat × List Nat)
  | node.NULL => []
  | node.cell addr word L R => L.cells ++ R.cells ++ [(addr, word)]

/-- The nodes of a table, bucket after bucket. -/
def table.cells (t : table) : List (Nat × List Nat) :=
  t.buckets.flatMap node.cells

/-- The variables `minEditDistanceKernel` works on: `*minDist`, `*minHead`
(`none` is `NULL`) and the `N` links of the nodes. -/
structure minState where
  minDist : Int
  minHead : Option Nat
  links : List (Option Nat)
deriving DecidableEq, Repr

/-- Function `minEditDistanceKernel(str, cur, minDist, minHead)`: the link of
`cur` is reset, both subtrees are visited, then the distance of the word of
`cur` is compared with `*minDist`. -/
def minEditDistanceKernel (str : List Nat) : node → minState → minState
  | node.NULL, st => st
  | node.cell addr word L R, st =>
    let st1 := minState.mk st.minDist st.minHead (st.links.set addr none)
    let st2 := minEditDistanceKernel str L st1
    let st3 := minEditDistanceKernel str R st2
    let dist := editDistance str word
    if dist < st3.minDist then minState.mk dist (some addr) st3.links
    else if dist = st3.minDist then
      minState.mk st3.minDist (some addr) (st3.links.set addr st3.minHead)
    else st3

/-- Function `minimumEditDistances(str, table, minDist)`: the kernel on every
bucket in turn, from `minHead = NULL`; the head returned is `minHead` of the
result. -/
def minimumEditDistances (str : List Nat) (t : table) (minDist : Int) : minState :=
  (List.range HASH_BUCKETS).foldl
    (fun st i => minEditDistanceKernel str (t.buckets.getD i node.NULL) st)
    (minState.mk minDist none t.links)

/-- The addresses met from `head` through the `N` links until `NULL`, in at
most `fuel` steps. -/
def linkList (links : List (Option Nat)) : Nat → Option Nat → Option (List Nat)
  | _, none => some []
  | 0, some _ => none
  | fuel + 1, some a => (linkList links fuel (links.getD a none)).map fun l => a :: l

/-- The links lead from `head` through exactly the addresses of `l` to `NULL`. -/
def linked (links : List (Option Nat)) : Option Nat → List Nat → Prop
  | head, [] => head = none
  | head, a :: l => head = some a ∧ linked links (links.getD a none) l

/-- The comparison `minEditDistanceKernel` makes for one node, on the pair of
the least distance so far and the list of the nodes that attain it. -/
def pick (str : List Nat) (acc : Int × List Nat) (c : Nat × List Nat) : Int × List Nat :=
  if editDistance str c.2 < acc.1 then (editDistance str c.2, [c.1])
  else if editDistance str c.2 = acc.1 then (acc.1, c.1 :: acc.2)
  else acc

end EditDistance

namespace FlowNetworks

/-! ## Reading and writing matrix cells -/

theorem put_vertices (m : adjmatrix) (u v x : Nat) : (m.put u v x).vertices = m.vertices := rfl

theorem put_length (m : adjmatrix) (u v x : Nat) :
    (m.put u v x).matrix.length = m.matrix.length := by
  simp [adjmatrix.put]

theorem put_wellFormed {m : adjmatrix} (h : m.wellFormed) (u v x : Nat) :
    (m.put u v x).wellFormed := by
  unfold adjmatrix.wellFormed at *
  rw [put_length, put_vertices]; exact h

theorem flat_lt {n u v : Nat} (hu : u < n) (hv : v < n) : u * n + v < n * n := by
  calc u * n + v < u * n + n := by omega
    _ = (u + 1) * n := by ring
    _ ≤ n * n := Nat.mul_le_mul_right n hu

theorem flat_inj {n u v u' v' : Nat} (hv : v < n) (hv' : v' < n)
    (h : u * n + v = u' * n + v') : u = u' ∧ v = v' := by
  have hn : 0 < n := by omega
  have h1 : (u * n + v) / n = u := by
    rw [Nat.add_comm, Nat.add_mul_div_right _ _ hn, Nat.div_eq_of_lt hv, Nat.zero_add]
  have h2 : (u' * n + v') / n = u' := by
    rw [Nat.add_comm, Nat.add_mul_div_right _ _ hn, Nat.div_eq_of_lt hv', Nat.zero_add]
  have hu : u = u' := by rw [← h1, ← h2, h]
  subst hu
  exact ⟨rfl, by omega⟩

theorem at_put_same {m : adjmatrix} (h : m.wellFormed) {u v : Nat}
    (hu : u < m.vertices) (hv : v < m.vertices) (x : Nat) :
    (m.put u v x).at u v = x := by
  unfold adjmatrix.at adjmatrix.put
  have hlt : u * m.vertices + v < m.matrix.length := by
    rw [h]; exact flat_lt hu hv
  simp [List.getD_eq_getElem?_getD, List.getElem?_set, hlt]

theorem at_put_other {m : adjmatrix} {u v u' v' : Nat}
    (hv : v < m.vertices) (hv' : v' < m.vertices) (hne : ¬ (u = u' ∧ v = v')) (x : Nat) :
    (m.put u v x).at u' v' = m.at u' v' := by
  unfold adjmatrix.at adjmatrix.put
  have hidx : u * m.vertices + v ≠ u' * m.vertices + v' := fun e => hne (flat_inj hv hv' e)
  simp [List.getD_eq_getElem?_getD, List.getElem?_set, hidx]

theorem at_put {m : adjmatrix} (h : m.wellFormed) {u v u' v' : Nat}
    (hu : u < m.vertices) (hv : v < m.vertices) (hv' : v' < m.vertices) (x : Nat) :
    (m.put u v x).at u' v' = if u = u' ∧ v = v' then x else m.at u' v' := by
  by_cases hc : u = u' ∧ v = v'
  · obtain ⟨rfl, rfl⟩ := hc
    simp [at_put_same h hu hv]
  · simp [hc, at_put_other hv hv' hc]

end FlowNetworks

namespace FlowNetworks

/-! ## Lists used as arrays -/

theorem getD_set_eq {α : Type} (l : List α) (i : Nat) (x d : α) (h : i < l.length) :
    (l.set i x).getD i d = x := by
  simp [List.getD_eq_getElem?_getD, List.getElem?_set, h]

theorem getD_set_ne {α : Type} (l : List α) {i j : Nat} (x d : α) (h : i ≠ j) :
    (l.set i x).getD j d = l.getD j d := by
  simp [List.getD_eq_getElem?_getD, List.getElem?_set, h]

theorem getD_replicate {α : Type} (n i : Nat) (x : α) : (List.replicate n x).getD i x = x := by
  by_cases h : i < n
  · simp [List.getD_eq_getElem?_getD, List.getElem?_replicate, h]
  · simp [List.getD_eq_getElem?_getD, List.getElem?_replicate, h]

theorem count_false_set (l : List Bool) (i : Nat) (hi : i < l.length)
    (h : l.getD i false = false) : (l.set i true).count false + 1 = l.count false := by
  induction l generalizing i with
  | nil => simp at hi
  | cons a t ih =>
    cases i with
    | zero =>
      simp at h
      subst h
      simp
    | succ j =>
      have hj : j < t.length := by simpa using hi
      have h' : t.getD j false = false := by simpa using h
      have := ih j hj h'
      cases a <;> simp [List.count_cons] <;> omega

theorem count_false_le (l : List Bool) : l.count false ≤ l.length := List.count_le_length _ _

end FlowNetworks

namespace FlowNetworks

/-! ## The traversal of `breadthFirstSearch` -/

theorem bfsVisit_measure (g : adjmatrix) (vertex : Nat) (s : bfsState) (i : Nat)
    (hi : i < s.visited.length) : bfsMeasure (bfsVisit g vertex s i) = bfsMeasure s := by
  unfold bfsVisit
  split
  · rename_i h
    have := count_false_set s.visited i hi h.2
    simp [bfsMeasure, push]
    omega
  · rfl

theorem bfsVisit_inv {g : adjmatrix} {s : bfsState} {vertex k : Nat}
    (h : BfsInv g s vertex k) (hk : k < g.vertices) :
    BfsInv g (bfsVisit g vertex s k) vertex (k + 1) := by
  unfold bfsVisit
  split
  · rename_i hc
    obtain ⟨hedge, hkv⟩ := hc
    have hk0 : k ≠ 0 := by
      rintro rfl
      rw [h.src] at hkv; exact absurd hkv (by decide)
    have hkV : k < s.visited.length := by rw [h.lenV]; exact hk
    have hkP : k < s.p.length := by rw [h.lenP]; exact hk
    have mono : ∀ v, s.visited.getD v false = true →
        (s.visited.set k true).getD v false = true := by
      intro v hv
      by_cases e : k = v
      · subst e; rw [hv] at hkv; exact absurd hkv (by decide)
      · rw [getD_set_ne _ _ _ e]; exact hv
    have newv : ∀ v, (s.visited.set k true).getD v false = true →
        v = k ∨ s.visited.getD v false = true := by
      intro v hv
      by_cases e : k = v
      · exact Or.inl e.symm
      · rw [getD_set_ne _ _ _ e] at hv; exact Or.inr hv
    have hvk : vertex ≠ k := by
      rintro rfl
      rw [h.cur.2] at hkv; exact absurd hkv (by decide)
    refine ⟨by simpa using h.lenV, by simpa using h.lenP, mono 0 h.src, ?_, ?_, ?_, ?_, ?_⟩
    · intro q hq
      simp only [push, List.mem_cons] at hq
      rcases hq with rfl | hq
      · exact ⟨hk, getD_set_eq _ _ _ _ hkV⟩
      · exact ⟨(h.queueOK q hq).1, mono q (h.queueOK q hq).2⟩
    · intro v hv hvis
      rcases newv v hvis with rfl | hold
      · exact Relation.ReflTransGen.tail (h.reach vertex h.cur.1 h.cur.2) ⟨h.cur.1, hk, hedge⟩
      · exact h.reach v hv hold
    · intro u hu hvis
      rcases newv u hvis with rfl | hold
      · left; simp [push]
      · rcases h.closed u hu hold with hq | ⟨rfl, hrow⟩ | hall
        · left; simp [push, hq]
        · right; left
          refine ⟨rfl, fun i hi hne => ?_⟩
          rcases Nat.lt_succ_iff_lt_or_eq.mp hi with hlt | rfl
          · exact mono i (hrow i hlt hne)
          · exact getD_set_eq _ _ _ _ hkV
        · right; right
          exact fun i hi hne => mono i (hall i hi hne)
    · exact ⟨h.cur.1, mono vertex h.cur.2⟩
    · obtain ⟨rank, hr⟩ := h.tree
      have hcnt := count_false_set s.visited k hkV hkv
      have hle : s.visited.count false ≤ g.vertices := by
        rw [← h.lenV]; exact count_false_le _
      refine ⟨Function.update rank k (g.vertices - s.visited.count false), ?_⟩
      intro v hv hvis
      rcases newv v hvis with e | hold
      · subst e
        refine ⟨?_, fun _ => ?_⟩
        · show Function.update rank v _ v + (s.visited.set v true).count false < _
          simp only [Function.update_same]; omega
        · rw [getD_set_eq _ _ _ _ hkP]
          refine ⟨h.cur.1, mono vertex h.cur.2, hedge, ?_⟩
          rw [Function.update_noteq hvk, Function.update_same]
          have := (hr vertex h.cur.1 h.cur.2).1
          omega
      · have hvk' : v ≠ k := by
          rintro rfl
          rw [hold] at hkv; exact absurd hkv (by decide)
        obtain ⟨hb, hp⟩ := hr v hv hold
        refine ⟨?_, fun hv0 => ?_⟩
        · show Function.update rank k _ v + (s.visited.set k true).count false < _
          rw [Function.update_noteq hvk']; omega
        · obtain ⟨h1, h2, h3, h4⟩ := hp hv0
          have hpk : s.p.getD v 0 ≠ k := by
            intro e
            rw [e, hkv] at h2; exact absurd h2 (by decide)
          rw [getD_set_ne _ _ _ (Ne.symm hvk'), Function.update_noteq hvk',
            Function.update_noteq hpk]
          exact ⟨h1, mono _ h2, h3, h4⟩
  · rename_i hc
    refine ⟨h.lenV, h.lenP, h.src, h.queueOK, h.reach, ?_, h.cur, h.tree⟩
    intro u hu hvis
    rcases h.closed u hu hvis with hq | ⟨rfl, hrow⟩ | hall
    · exact Or.inl hq
    · right; left
      refine ⟨rfl, fun i hi hne => ?_⟩
      rcases Nat.lt_succ_iff_lt_or_eq.mp hi with hlt | rfl
      · exact hrow i hlt hne
      · by_contra hcon
        apply hc
        refine ⟨hne, ?_⟩
        cases hb : s.visited.getD i false
        · rfl
        · exact absurd hb hcon
    · exact Or.inr (Or.inr hall)

theorem bfsVisit_length (g : adjmatrix) (vertex : Nat) (s : bfsState) (i : Nat) :
    (bfsVisit g vertex s i).visited.length = s.visited.length := by
  unfold bfsVisit
  split <;> simp

theorem foldl_bfsVisit_inv {g : adjmatrix} {s : bfsState} {vertex : Nat}
    (h : BfsInv g s vertex 0) : ∀ k, k ≤ g.vertices →
    BfsInv g ((List.range k).foldl (bfsVisit g vertex) s) vertex k ∧
      bfsMeasure ((List.range k).foldl (bfsVisit g vertex) s) = bfsMeasure s := by
  intro k
  induction k with
  | zero => intro _; exact ⟨h, rfl⟩
  | succ k ih =>
    intro hk
    obtain ⟨h1, h2⟩ := ih (by omega)
    rw [List.range_succ, List.foldl_append]
    simp only [List.foldl_cons, List.foldl_nil]
    refine ⟨bfsVisit_inv h1 (by omega), ?_⟩
    rw [bfsVisit_measure _ _ _ _ (by rw [h1.lenV]; omega), h2]

theorem bfsScan_inv {g : adjmatrix} {s : bfsState} {vertex : Nat}
    (h : BfsInv g s vertex 0) :
    BfsInv g (bfsScan g vertex s) vertex g.vertices ∧
      bfsMeasure (bfsScan g vertex s) = bfsMeasure s :=
  foldl_bfsVisit_inv h g.vertices (Nat.le_refl _)

/-- With fuel for every vertex still unflagged or queued, the traversal loop
finishes with an empty queue and keeps the invariant. -/
theorem bfsLoop_total (g : adjmatrix) : ∀ (fuel : Nat) (s : bfsState),
    BfsInv g s 0 g.vertices → bfsMeasure s ≤ fuel →
    ∃ s', bfsLoop g fuel s = some s' ∧ BfsInv g s' 0 g.vertices ∧ s'.queue = [] := by
  intro fuel
  induction fuel with
  | zero =>
    intro s h hm
    have hq : s.queue = [] := by
      have : s.queue.length = 0 := by unfold bfsMeasure at hm; omega
      exact List.length_eq_zero.mp this
    refine ⟨s, ?_, h, hq⟩
    unfold bfsLoop; simp [hq]
  | succ fuel ih =>
    intro s h hm
    cases hq : s.queue with
    | nil =>
      refine ⟨s, ?_, h, hq⟩
      unfold bfsLoop; simp [hq]
    | cons vertex rest =>
      have hvq : vertex ∈ s.queue := by rw [hq]; simp
      have hcur := h.queueOK vertex hvq
      have h0 : BfsInv g { s with queue := rest } vertex 0 := by
        refine ⟨h.lenV, h.lenP, h.src, ?_, h.reach, ?_, hcur, h.tree⟩
        · intro q hq'
          exact h.queueOK q (by rw [hq]; exact List.mem_cons_of_mem _ hq')
        · intro u hu hvis
          rcases h.closed u hu hvis with hin | ⟨_, hrow⟩ | hall
          · rw [hq] at hin
            rcases List.mem_cons.mp hin with rfl | hin
            · exact Or.inr (Or.inl ⟨rfl, fun i hi => absurd hi (Nat.not_lt_zero _)⟩)
            · exact Or.inl hin
          · exact Or.inr (Or.inr fun i hi hne => hrow i hi hne)
          · exact Or.inr (Or.inr hall)
      obtain ⟨h1, hm1⟩ := bfsScan_inv h0
      have h2 : BfsInv g (bfsScan g vertex { s with queue := rest }) 0 g.vertices := by
        refine ⟨h1.lenV, h1.lenP, h1.src, h1.queueOK, h1.reach, ?_, ⟨by
          have := h1.cur.1; omega, h1.src⟩, h1.tree⟩
        intro u hu hvis
        rcases h1.closed u hu hvis with hin | ⟨_, hrow⟩ | hall
        · exact Or.inl hin
        · exact Or.inr (Or.inr fun i hi hne => hrow i hi hne)
        · exact Or.inr (Or.inr hall)
      have hm2 : bfsMeasure (bfsScan g vertex { s with queue := rest }) ≤ fuel := by
        rw [hm1]
        unfold bfsMeasure at hm ⊢
        rw [hq] at hm
        simp at hm ⊢
        omega
      obtain ⟨s', hs', hinv, hempty⟩ := ih _ h2 hm2
      refine ⟨s', ?_, hinv, hempty⟩
      rw [bfsLoop]
      simp only [hq]
      exact hs'

/-- The result of the traversal loop does not depend on the fuel. -/
theorem bfsLoop_fuel (g : adjmatrix) : ∀ (f1 f2 : Nat) (s a b : bfsState),
    bfsLoop g f1 s = some a → bfsLoop g f2 s = some b → a = b := by
  intro f1
  induction f1 with
  | zero =>
    intro f2 s a b h1 h2
    cases hq : s.queue with
    | nil =>
      rw [bfsLoop] at h1 h2
      simp [hq] at h1 h2
      rw [← h1, ← h2]
    | cons vertex rest =>
      rw [bfsLoop] at h1
      simp [hq] at h1
  | succ f1 ih =>
    intro f2 s a b h1 h2
    cases hq : s.queue with
    | nil =>
      rw [bfsLoop] at h1 h2
      simp [hq] at h1 h2
      rw [← h1, ← h2]
    | cons vertex rest =>
      cases f2 with
      | zero =>
        rw [bfsLoop] at h2
        simp [hq] at h2
      | succ f2 =>
        rw [bfsLoop] at h1 h2
        simp only [hq] at h1 h2
        exact ih f2 _ a b h1 h2

end FlowNetworks

namespace FlowNetworks

/-! ## What `breadthFirstSearch` returns -/

theorem getD_init_visited {n v : Nat}
    (h : ((List.replicate n false).set 0 true).getD v false = true) : v = 0 := by
  by_contra hv
  rw [getD_set_ne _ _ _ (Ne.symm hv), getD_replicate] at h
  exact absurd h (by decide)

theorem bfsInit_inv (g : adjmatrix) (hn : 1 ≤ g.vertices) :
    BfsInv g (bfsInit g) 0 g.vertices ∧ bfsMeasure (bfsInit g) = g.vertices := by
  have hlen : 0 < (List.replicate g.vertices false).length := by simpa using hn
  have hsrc : ((List.replicate g.vertices false).set 0 true).getD 0 false = true :=
    getD_set_eq _ _ _ _ hlen
  have hcnt := count_false_set (List.replicate g.vertices false) 0 hlen (getD_replicate _ _ _)
  have hcnt' : (List.replicate g.vertices false).count false = g.vertices := by simp
  refine ⟨⟨by simp [bfsInit], by simp [bfsInit], hsrc, ?_, ?_, ?_, ⟨hn, hsrc⟩, ?_⟩, ?_⟩
  · intro q hq
    simp only [bfsInit, push, List.mem_singleton] at hq
    subst hq
    exact ⟨hn, hsrc⟩
  · intro v _ hv
    rw [getD_init_visited hv]
  · intro u _ hu
    left
    rw [getD_init_visited hu]
    simp [bfsInit, push]
  · refine ⟨fun _ => 0, ?_⟩
    intro v _ hv
    have hv0 := getD_init_visited hv
    refine ⟨?_, fun hne => absurd hv0 hne⟩
    show 0 + ((List.replicate g.vertices false).set 0 true).count false < g.vertices
    omega
  · show ((List.replicate g.vertices false).set 0 true).count false + [0].length = g.vertices
    simp only [List.length_singleton]
    omega

theorem breadthFirstSearch_total (g : adjmatrix) (hn : 1 ≤ g.vertices) (fuel : Nat)
    (hf : g.vertices ≤ fuel) :
    ∃ b p visited, breadthFirstSearch fuel g = some (b, p) ∧ BfsPost g b p visited := by
  obtain ⟨hinv, hm⟩ := bfsInit_inv g hn
  obtain ⟨s', hs', h, hq⟩ := bfsLoop_total g fuel (bfsInit g) hinv (by omega)
  refine ⟨s'.visited.getD (g.vertices - 1) false, s'.p, s'.visited, ?_, ?_⟩
  · simp [breadthFirstSearch, hs']
  · refine ⟨h.lenV, h.lenP, h.src, rfl, h.reach, ?_, h.tree⟩
    intro u hu hvis
    rcases h.closed u hu hvis with hin | ⟨_, hrow⟩ | hall
    · rw [hq] at hin; exact absurd hin (List.not_mem_nil _)
    · exact fun i hi hne => hrow i hi hne
    · exact hall

theorem breadthFirstSearch_fuel (g : adjmatrix) (f1 f2 : Nat) (a b : Bool × List Nat)
    (h1 : breadthFirstSearch f1 g = some a) (h2 : breadthFirstSearch f2 g = some b) : a = b := by
  unfold breadthFirstSearch at h1 h2
  cases e1 : bfsLoop g f1 (bfsInit g) with
  | none => simp [e1] at h1
  | some s1 =>
    cases e2 : bfsLoop g f2 (bfsInit g) with
    | none => simp [e2] at h2
    | some s2 =>
      have := bfsLoop_fuel g f1 f2 _ s1 s2 e1 e2
      subst this
      simp [e1] at h1
      simp [e2] at h2
      rw [← h1, ← h2]

theorem breadthFirstSearch_post (g : adjmatrix) (hn : 1 ≤ g.vertices) (fuel : Nat)
    (b : Bool) (p : List Nat) (h : breadthFirstSearch fuel g = some (b, p)) :
    ∃ visited, BfsPost g b p visited := by
  obtain ⟨b', p', visited, h', hpost⟩ := breadthFirstSearch_total g hn g.vertices (Nat.le_refl _)
  have := breadthFirstSearch_fuel g _ _ _ _ h h'
  simp only [Prod.mk.injEq] at this
  obtain ⟨rfl, rfl⟩ := this
  exact ⟨visited, hpost⟩

/-- The flagged vertices are exactly those the source reaches. -/
theorem BfsPost.visited_iff {g : adjmatrix} {b : Bool} {p : List Nat} {visited : List Bool}
    (h : BfsPost g b p visited) (v : Nat) (hv : v < g.vertices) :
    visited.getD v false = true ↔ Relation.ReflTransGen g.edge 0 v := by
  constructor
  · exact h.reach v hv
  · intro hr
    induction hr with
    | refl => exact h.src
    | tail hab hbc ih =>
      rename_i x y
      exact h.closed x hbc.1 (ih hbc.1) y hbc.2.1 hbc.2.2

theorem hasPath_iff_reflTransGen (g : adjmatrix) (a b : Nat) :
    g.hasPath a b ↔ Relation.ReflTransGen g.edge a b := by
  constructor
  · rintro ⟨l, hhead, hlast, hchain⟩
    cases l with
    | nil => simp at hhead
    | cons x t =>
      simp only [List.head?_cons, Option.some.injEq] at hhead
      subst hhead
      have hl : (x :: t).getLast (List.cons_ne_nil _ _) = b := by
        have := List.getLast?_eq_getLast (x :: t) (List.cons_ne_nil _ _)
        rw [hlast] at this
        exact (Option.some.inj this).symm
      exact List.relationReflTransGen_of_exists_chain t hchain hl
  · intro h
    obtain ⟨l, hc, hl⟩ := List.exists_chain_of_relationReflTransGen h
    refine ⟨a :: l, rfl, ?_, hc⟩
    rw [List.getLast?_eq_getLast (a :: l) (List.cons_ne_nil _ _), hl]

end FlowNetworks

namespace FlowNetworks

/-! ## The bottleneck walk of `pathCapacity` -/

theorem pathCapacityLoop_total (g : adjmatrix) (p : List Nat) (visited : List Bool)
    (rank : Nat → Nat) (tree : treeOK g visited p rank) :
    ∀ (fuel v c : Nat), v < g.vertices → visited.getD v false = true → rank v ≤ fuel →
    ∃ c', pathCapacityLoop g p fuel v c = some c' ∧ c' ≤ c ∧ (1 ≤ c → 1 ≤ c') ∧
      ∀ w, OnWalk p v w → w ≠ 0 → c' ≤ g.at (p.getD w 0) w := by
  intro fuel
  induction fuel with
  | zero =>
    intro v c hv hvis hr
    by_cases h0 : v = 0
    · subst h0
      refine ⟨c, by simp [pathCapacityLoop], Nat.le_refl _, id, ?_⟩
      intro w hw hw0
      cases hw with
      | here => exact absurd rfl hw0
      | step hne _ => exact absurd rfl hne
    · have := ((tree v hv hvis).2 h0).2.2.2
      omega
  | succ fuel ih =>
    intro v c hv hvis hr
    by_cases h0 : v = 0
    · subst h0
      refine ⟨c, by simp [pathCapacityLoop], Nat.le_refl _, id, ?_⟩
      intro w hw hw0
      cases hw with
      | here => exact absurd rfl hw0
      | step hne _ => exact absurd rfl hne
    · obtain ⟨hp, hpv, hedge, hrank⟩ := (tree v hv hvis).2 h0
      obtain ⟨c', hc', hle, hpos, hall⟩ :=
        ih (p.getD v 0) (if g.at (p.getD v 0) v < c then g.at (p.getD v 0) v else c)
          hp hpv (by omega)
      refine ⟨c', ?_, ?_, ?_, ?_⟩
      · rw [pathCapacityLoop]
        simp only [h0, if_false]
        exact hc'
      · split at hle <;> omega
      · intro hc
        apply hpos
        split <;> omega
      · intro w hw hw0
        cases hw with
        | here => split at hle <;> omega
        | step _ hw' => exact hall w hw' hw0

theorem pathCapacityLoop_fuel (g : adjmatrix) (p : List Nat) :
    ∀ (f1 f2 v c a b : Nat), pathCapacityLoop g p f1 v c = some a →
      pathCapacityLoop g p f2 v c = some b → a = b := by
  intro f1
  induction f1 with
  | zero =>
    intro f2 v c a b h1 h2
    by_cases h0 : v = 0
    · rw [pathCapacityLoop.eq_def] at h1 h2
      simp [h0] at h1 h2
      omega
    · rw [pathCapacityLoop.eq_def] at h1
      simp [h0] at h1
  | succ f1 ih =>
    intro f2 v c a b h1 h2
    by_cases h0 : v = 0
    · rw [pathCapacityLoop.eq_def] at h1 h2
      simp [h0] at h1 h2
      omega
    · cases f2 with
      | zero =>
        rw [pathCapacityLoop.eq_def] at h2
        simp [h0] at h2
      | succ f2 =>
        rw [pathCapacityLoop.eq_def] at h1 h2
        simp only [h0, if_false] at h1 h2
        exact ih f2 _ _ a b h1 h2

/-! ## Sums over a flat array -/

theorem getD_le_sum (l : List Nat) (i : Nat) : l.getD i 0 ≤ l.sum := by
  induction l generalizing i with
  | nil => simp
  | cons a t ih =>
    cases i with
    | zero => simp
    | succ j =>
      have := ih j
      simp only [List.getD_cons_succ, List.sum_cons]
      omega

theorem getD_add_getD_le_sum (l : List Nat) (i j : Nat) (h : i ≠ j) :
    l.getD i 0 + l.getD j 0 ≤ l.sum := by
  induction l generalizing i j with
  | nil => simp
  | cons a t ih =>
    cases i with
    | zero =>
      cases j with
      | zero => exact absurd rfl h
      | succ j =>
        have := getD_le_sum t j
        simp only [List.getD_cons_zero, List.getD_cons_succ, List.sum_cons]
        omega
    | succ i =>
      cases j with
      | zero =>
        have := getD_le_sum t i
        simp only [List.getD_cons_zero, List.getD_cons_succ, List.sum_cons]
        omega
      | succ j =>
        have := ih i j (by omega)
        simp only [List.getD_cons_succ, List.sum_cons]
        omega

theorem sum_range_getD_le (l : List Nat) (n : Nat) :
    (Finset.sum (Finset.range n) fun i => l.getD i 0) ≤ l.sum := by
  induction l generalizing n with
  | nil => simp
  | cons a t ih =>
    cases n with
    | zero => simp
    | succ n =>
      rw [Finset.sum_range_succ']
      simp only [List.getD_cons_succ, List.getD_cons_zero, List.sum_cons]
      have := ih n
      omega

theorem rowSum_zero_le (m : adjmatrix) : rowSum m 0 ≤ m.matrix.sum := by
  unfold rowSum adjmatrix.at
  simp only [Nat.zero_mul, Nat.zero_add]
  exact sum_range_getD_le _ _

theorem at_le_sum (m : adjmatrix) (u v : Nat) : m.at u v ≤ m.matrix.sum :=
  getD_le_sum _ _

theorem at_add_at_le_sum (m : adjmatrix) {u v : Nat} (hu : u < m.vertices)
    (hv : v < m.vertices) (h : u ≠ v) : m.at u v + m.at v u ≤ m.matrix.sum := by
  unfold adjmatrix.at
  apply getD_add_getD_le_sum
  intro e
  exact h (flat_inj hv hu e).1

end FlowNetworks

namespace FlowNetworks

/-! ## One step of the residualize/augment walk -/

theorem uint_sub_mod {a x : Nat} (hx : x ≤ a) (ha : a < UINT) : (a + UINT - x) % UINT = a - x := by
  have : a + UINT - x = (a - x) + UINT := by omega
  rw [this, Nat.add_mod_right, Nat.mod_eq_of_lt (by omega)]

theorem augmentStep_vertices (p : List Nat) (x w : Nat) (g f : adjmatrix) :
    (augmentStep p x w g f).1.vertices = g.vertices := rfl

theorem augmentStep_wellFormed (p : List Nat) (x w : Nat) (g f : adjmatrix) (h : g.wellFormed) :
    (augmentStep p x w g f).1.wellFormed :=
  put_wellFormed (put_wellFormed h _ _ _) _ _ _

/-- Cells of the residual after one step along the edge `u -> w`, `u` the
parent of `w`, when neither the subtraction nor the addition wraps. -/
theorem augmentStep_at (p : List Nat) (x w : Nat) (g f : adjmatrix) (hwf : g.wellFormed)
    (hu : p.getD w 0 < g.vertices) (hw : w < g.vertices) (hne : p.getD w 0 ≠ w)
    (hx : x ≤ g.at (p.getD w 0) w) (hb : g.at (p.getD w 0) w + g.at w (p.getD w 0) < UINT)
    (i j : Nat) (hj : j < g.vertices) :
    (augmentStep p x w g f).1.at i j =
      if i = p.getD w 0 ∧ j = w then g.at (p.getD w 0) w - x
      else if i = w ∧ j = p.getD w 0 then g.at w (p.getD w 0) + x
      else g.at i j := by
  unfold augmentStep
  simp only
  have h1 : (g.put (p.getD w 0) w ((g.at (p.getD w 0) w + UINT - x) % UINT)).at w (p.getD w 0)
      = g.at w (p.getD w 0) :=
    at_put_other hw hu (fun e => hne e.1) _
  rw [h1, uint_sub_mod hx (by omega), Nat.mod_eq_of_lt (by omega)]
  by_cases c2 : i = w ∧ j = p.getD w 0
  · obtain ⟨rfl, rfl⟩ := c2
    have hne' : ¬ (i = p.getD i 0 ∧ p.getD i 0 = i) := fun e => hne e.2
    rw [if_neg hne', if_pos ⟨rfl, rfl⟩]
    exact at_put_same (put_wellFormed hwf _ _ _) hw hu _
  · rw [if_neg c2]
    have c2' : ¬ (w = i ∧ p.getD w 0 = j) := fun e => c2 ⟨e.1.symm, e.2.symm⟩
    rw [at_put_other (m := g.put _ _ _) hu hj c2']
    by_cases c1 : i = p.getD w 0 ∧ j = w
    · obtain ⟨rfl, rfl⟩ := c1
      rw [if_pos ⟨rfl, rfl⟩]
      exact at_put_same hwf hu hw _
    · rw [if_neg c1]
      exact at_put_other hw hj (fun e => c1 ⟨e.1.symm, e.2.symm⟩) _

theorem sum_ite_pair (n : Nat) (c : Prop) [Decidable c] (w : Nat) (hw : w < n) (x : Int) :
    (Finset.sum (Finset.range n) fun j => if c ∧ j = w then x else 0) = if c then x else 0 := by
  by_cases hc : c
  · simp [hc, Finset.sum_ite_eq', hw]
  · simp [hc]

/-- Effect of one step along `u -> w` on the net amount leaving a vertex. -/
theorem excess_step (cap g g2 : adjmatrix) (u w x : Nat) (hu : u < cap.vertices)
    (hw : w < cap.vertices) (hne : u ≠ w) (hx : x ≤ g.at u w)
    (hat : ∀ i j, j < cap.vertices → g2.at i j =
      if i = u ∧ j = w then g.at u w - x
      else if i = w ∧ j = u then g.at w u + x
      else g.at i j)
    (v : Nat) :
    excess cap g2 v = excess cap g v + (if v = u then (x : Int) else 0)
      - (if v = w then (x : Int) else 0) := by
  unfold excess
  have hpt : ∀ j ∈ Finset.range cap.vertices, net cap g2 v j =
      net cap g v j + (if v = u ∧ j = w then (x : Int) else 0)
        - (if v = w ∧ j = u then (x : Int) else 0) := by
    intro j hj
    have hj' : j < cap.vertices := Finset.mem_range.mp hj
    unfold net
    rw [hat v j hj']
    by_cases c1 : v = u ∧ j = w
    · obtain ⟨rfl, rfl⟩ := c1
      have c2 : ¬ (v = j ∧ j = v) := fun e => hne e.1
      simp only [and_self, if_true, if_neg c2]
      push_cast [hx]
      ring
    · by_cases c2 : v = w ∧ j = u
      · simp only [if_neg c1, if_pos c2]
        obtain ⟨rfl, rfl⟩ := c2
        push_cast
        ring
      · simp only [if_neg c1, if_neg c2]
        ring
  rw [Finset.sum_congr rfl hpt, Finset.sum_sub_distrib, Finset.sum_add_distrib,
    sum_ite_pair _ _ _ hw, sum_ite_pair _ _ _ hu]

end FlowNetworks

namespace FlowNetworks

/-! ## The residualize/augment walk -/

theorem augmentStep_inv (cap g0 g f : adjmatrix) (p : List Nat) (visited : List Bool)
    (rank : Nat → Nat) (x w : Nat) (hB : cap.matrix.sum < UINT)
    (hv0 : g0.vertices = cap.vertices) (tree : treeOK g0 visited p rank)
    (hxw : x ≤ g0.at (p.getD w 0) w) (hw : w < cap.vertices)
    (hvis : visited.getD w false = true) (hw0 : w ≠ 0)
    (h : AugInv cap g0 p visited rank x w g) :
    AugInv cap g0 p visited rank x (p.getD w 0) (augmentStep p x w g f).1 := by
  have hgv : g.vertices = cap.vertices := h.res.verts
  obtain ⟨hu, huvis, _, hrank⟩ := (tree w (by omega) hvis).2 hw0
  rw [hv0] at hu
  have hne : p.getD w 0 ≠ w := by
    intro e; rw [e] at hrank; omega
  have hkeep : g.at (p.getD w 0) w = g0.at (p.getD w 0) w :=
    h.keep w hw hvis hw0 (Nat.le_refl _)
  have hx : x ≤ g.at (p.getD w 0) w := by rw [hkeep]; exact hxw
  have hb : g.at (p.getD w 0) w + g.at w (p.getD w 0) < UINT := by
    rw [h.res.pair _ _ hu hw]
    have := at_add_at_le_sum cap hu hw hne
    omega
  have hat : ∀ i j, j < cap.vertices → (augmentStep p x w g f).1.at i j =
      if i = p.getD w 0 ∧ j = w then g.at (p.getD w 0) w - x
      else if i = w ∧ j = p.getD w 0 then g.at w (p.getD w 0) + x
      else g.at i j := by
    intro i j hj
    exact augmentStep_at p x w g f h.res.wf (by omega) (by omega) hne hx hb i j (by omega)
  refine ⟨⟨?_, augmentStep_wellFormed _ _ _ _ _ h.res.wf, ?_⟩, ?_, ?_⟩
  · rw [augmentStep_vertices]; exact hgv
  · intro i j hi hj
    rw [hat i j hj, hat j i hi]
    by_cases c1 : i = p.getD w 0 ∧ j = w
    · obtain ⟨rfl, rfl⟩ := c1
      have c2 : ¬ (j = p.getD j 0 ∧ p.getD j 0 = j) := fun e => hne e.2
      simp only [and_self, if_true, if_neg c2]
      have := h.res.pair _ _ hu hw
      omega
    · by_cases c2 : i = w ∧ j = p.getD w 0
      · obtain ⟨rfl, rfl⟩ := c2
        have c3 : ¬ (p.getD i 0 = i ∧ i = p.getD i 0) := fun e => hne e.1
        simp only [if_neg c1, and_self, if_true, if_neg c3]
        have := h.res.pair _ _ hw hu
        omega
      · have c3 : ¬ (j = p.getD w 0 ∧ i = w) := fun e => c2 ⟨e.2, e.1⟩
        have c4 : ¬ (j = w ∧ i = p.getD w 0) := fun e => c1 ⟨e.2, e.1⟩
        simp only [if_neg c1, if_neg c2, if_neg c3, if_neg c4]
        exact h.res.pair i j hi hj
  · intro v hv
    rw [excess_step cap g _ (p.getD w 0) w x hu hw hne hx hat v, h.exc v hv]
    ring
  · intro y hy hyvis hy0 hry
    obtain ⟨hpy, _, _, hrpy⟩ := (tree y (by omega) hyvis).2 hy0
    rw [hv0] at hpy
    rw [hat _ _ hy]
    have c1 : ¬ (p.getD y 0 = p.getD w 0 ∧ y = w) := by
      rintro ⟨_, rfl⟩
      omega
    have c2 : ¬ (p.getD y 0 = w ∧ y = p.getD w 0) := by
      rintro ⟨e1, e2⟩
      rw [e1] at hrpy
      rw [← e2] at hrank
      omega
    rw [if_neg c1, if_neg c2]
    exact h.keep y hy hyvis hy0 (by omega)

theorem augmentLoop_total (cap g0 : adjmatrix) (p : List Nat) (visited : List Bool)
    (rank : Nat → Nat) (x : Nat) (hB : cap.matrix.sum < UINT)
    (hv0 : g0.vertices = cap.vertices) (tree : treeOK g0 visited p rank) :
    ∀ (fuel w : Nat) (g f : adjmatrix), w < cap.vertices → visited.getD w false = true →
    rank w ≤ fuel → (∀ y, OnWalk p w y → y ≠ 0 → x ≤ g0.at (p.getD y 0) y) →
    AugInv cap g0 p visited rank x w g →
    ∃ g' f', augmentLoop p x fuel w g f = some (g', f') ∧
      AugInv cap g0 p visited rank x 0 g' := by
  intro fuel
  induction fuel with
  | zero =>
    intro w g f hw hvis hr _ h
    by_cases h0 : w = 0
    · subst h0
      exact ⟨g, f, by simp [augmentLoop], h⟩
    · have := ((tree w (by omega) hvis).2 h0).2.2.2
      omega
  | succ fuel ih =>
    intro w g f hw hvis hr hx h
    by_cases h0 : w = 0
    · subst h0
      exact ⟨g, f, by simp [augmentLoop], h⟩
    · obtain ⟨hu, huvis, _, hrank⟩ := (tree w (by omega) hvis).2 h0
      rw [hv0] at hu
      have hstep := augmentStep_inv cap g0 g f p visited rank x w hB hv0 tree
        (hx w (OnWalk.here w) h0) hw hvis h0 h
      obtain ⟨g', f', hres, hinv⟩ := ih (p.getD w 0) (augmentStep p x w g f).1
        (augmentStep p x w g f).2 hu huvis (by omega)
        (fun y hy hy0 => hx y (OnWalk.step h0 hy) hy0) hstep
      refine ⟨g', f', ?_, hinv⟩
      rw [augmentLoop]
      simp only [h0, if_false]
      exact hres

theorem augmentLoop_fuel (p : List Nat) (x : Nat) :
    ∀ (f1 f2 w : Nat) (g f : adjmatrix) (a b : adjmatrix × adjmatrix),
      augmentLoop p x f1 w g f = some a → augmentLoop p x f2 w g f = some b → a = b := by
  intro f1
  induction f1 with
  | zero =>
    intro f2 w g f a b h1 h2
    by_cases h0 : w = 0
    · rw [augmentLoop.eq_def] at h1 h2
      simp [h0] at h1 h2
      rw [← h1, ← h2]
    · rw [augmentLoop.eq_def] at h1
      simp [h0] at h1
  | succ f1 ih =>
    intro f2 w g f a b h1 h2
    by_cases h0 : w = 0
    · rw [augmentLoop.eq_def] at h1 h2
      simp [h0] at h1 h2
      rw [← h1, ← h2]
    · cases f2 with
      | zero =>
        rw [augmentLoop.eq_def] at h2
        simp [h0] at h2
      | succ f2 =>
        rw [augmentLoop.eq_def] at h1 h2
        simp only [h0, if_false] at h1 h2
        exact ih f2 _ _ _ a b h1 h2

end FlowNetworks

namespace FlowNetworks

/-! ## Flow value against cuts -/

theorem net_antisymm {cap g : adjmatrix} (h : ResInv cap g) {u v : Nat}
    (hu : u < cap.vertices) (hv : v < cap.vertices) : net cap g u v = - net cap g v u := by
  unfold net
  have := h.pair u v hu hv
  omega

theorem excess_zero_le_rowSum (cap g : adjmatrix) : excess cap g 0 ≤ (rowSum cap 0 : Int) := by
  unfold excess rowSum net
  push_cast
  apply Finset.sum_le_sum
  intro i _
  omega

/-- Summing the net amounts leaving the vertices of a cut gives the net amount
crossing the cut. -/
theorem sum_excess_cut {cap g : adjmatrix} (h : ResInv cap g) (S : Nat → Bool) :
    (Finset.sum (Finset.range cap.vertices) fun v => if S v = true then excess cap g v else 0) =
    Finset.sum (Finset.range cap.vertices) fun v =>
      Finset.sum (Finset.range cap.vertices) fun u =>
        if S v = true ∧ S u = false then net cap g v u else 0 := by
  have hT1 : (Finset.sum (Finset.range cap.vertices) fun v =>
      Finset.sum (Finset.range cap.vertices) fun u =>
        if S v = true ∧ S u = true then net cap g v u else 0) = 0 := by
    have hswap : (Finset.sum (Finset.range cap.vertices) fun v =>
        Finset.sum (Finset.range cap.vertices) fun u =>
          if S v = true ∧ S u = true then net cap g v u else 0) =
        - (Finset.sum (Finset.range cap.vertices) fun v =>
        Finset.sum (Finset.range cap.vertices) fun u =>
          if S v = true ∧ S u = true then net cap g v u else 0) := by
      conv_lhs => rw [Finset.sum_comm]
      rw [← Finset.sum_neg_distrib]
      apply Finset.sum_congr rfl
      intro v hv
      rw [← Finset.sum_neg_distrib]
      apply Finset.sum_congr rfl
      intro u hu
      rw [net_antisymm h (Finset.mem_range.mp hu) (Finset.mem_range.mp hv)]
      by_cases c : S v = true ∧ S u = true
      · rw [if_pos c, if_pos ⟨c.2, c.1⟩]
      · have c' : ¬ (S u = true ∧ S v = true) := fun e => c ⟨e.2, e.1⟩
        rw [if_neg c, if_neg c']; simp
    omega
  have hsplit : ∀ v ∈ Finset.range cap.vertices,
      (if S v = true then excess cap g v else 0) =
      (Finset.sum (Finset.range cap.vertices) fun u =>
        if S v = true ∧ S u = true then net cap g v u else 0) +
      (Finset.sum (Finset.range cap.vertices) fun u =>
        if S v = true ∧ S u = false then net cap g v u else 0) := by
    intro v _
    rw [← Finset.sum_add_distrib]
    by_cases c : S v = true
    · rw [if_pos c]
      unfold excess
      apply Finset.sum_congr rfl
      intro u _
      cases hSu : S u <;> simp [c]
    · rw [if_neg c]
      simp [c]
  rw [Finset.sum_congr rfl hsplit, Finset.sum_add_distrib, hT1, zero_add]

theorem sum_excess_eq_value {cap g : adjmatrix} (S : Nat → Bool) (mf : Int)
    (hn : 2 ≤ cap.vertices) (hS : isCut cap.vertices S)
    (cons : ∀ v, v < cap.vertices → v ≠ 0 → v ≠ cap.vertices - 1 → excess cap g v = 0)
    (value : excess cap g 0 = mf) :
    (Finset.sum (Finset.range cap.vertices) fun v => if S v = true then excess cap g v else 0)
      = mf := by
  have hpt : ∀ v ∈ Finset.range cap.vertices,
      (if S v = true then excess cap g v else 0) = if v = 0 then mf else 0 := by
    intro v hv
    by_cases h0 : v = 0
    · subst h0
      rw [if_pos hS.1, if_pos rfl, value]
    · rw [if_neg h0]
      by_cases c : S v = true
      · rw [if_pos c]
        apply cons v (Finset.mem_range.mp hv) h0
        intro e
        rw [e, hS.2] at c
        exact absurd c (by decide)
      · rw [if_neg c]
  rw [Finset.sum_congr rfl hpt, Finset.sum_ite_eq']
  simp
  omega

/-- Weak duality: the flow value is at most the capacity of any cut. -/
theorem value_le_cut {cap g : adjmatrix} (h : ResInv cap g) (S : Nat → Bool) (mf : Nat)
    (hn : 2 ≤ cap.vertices) (hS : isCut cap.vertices S)
    (cons : ∀ v, v < cap.vertices → v ≠ 0 → v ≠ cap.vertices - 1 → excess cap g v = 0)
    (value : excess cap g 0 = (mf : Int)) : mf ≤ cutCapacity cap S := by
  have h1 := sum_excess_eq_value S mf hn hS cons value
  rw [sum_excess_cut h S] at h1
  have h2 : (Finset.sum (Finset.range cap.vertices) fun v =>
      Finset.sum (Finset.range cap.vertices) fun u =>
        if S v = true ∧ S u = false then net cap g v u else 0) ≤
      ((cutCapacity cap S : Nat) : Int) := by
    unfold cutCapacity
    push_cast
    apply Finset.sum_le_sum
    intro v _
    apply Finset.sum_le_sum
    intro u _
    split
    · unfold net; omega
    · exact le_refl _
  omega

/-- A cut no residual edge crosses has capacity equal to the flow value. -/
theorem value_eq_cut {cap g : adjmatrix} (h : ResInv cap g) (S : Nat → Bool) (mf : Nat)
    (hn : 2 ≤ cap.vertices) (hS : isCut cap.vertices S)
    (cons : ∀ v, v < cap.vertices → v ≠ 0 → v ≠ cap.vertices - 1 → excess cap g v = 0)
    (value : excess cap g 0 = (mf : Int))
    (hsat : ∀ v u, v < cap.vertices → u < cap.vertices → S v = true → S u = false →
      g.at v u = 0) : mf = cutCapacity cap S := by
  have h1 := sum_excess_eq_value S mf hn hS cons value
  rw [sum_excess_cut h S] at h1
  have h2 : (Finset.sum (Finset.range cap.vertices) fun v =>
      Finset.sum (Finset.range cap.vertices) fun u =>
        if S v = true ∧ S u = false then net cap g v u else 0) =
      ((cutCapacity cap S : Nat) : Int) := by
    unfold cutCapacity
    push_cast
    apply Finset.sum_congr rfl
    intro v hv
    apply Finset.sum_congr rfl
    intro u hu
    split
    · rename_i c
      unfold net
      rw [hsat v u (Finset.mem_range.mp hv) (Finset.mem_range.mp hu) c.1 c.2]
      simp
    · rfl
  omega

end FlowNetworks

namespace FlowNetworks

/-! ## The outer loop of `edmondsKarp` -/

theorem EkInv.value_le {cap : adjmatrix} {s : ekResult} (h : EkInv cap s) :
    s.maxFlow ≤ cap.matrix.sum := by
  have h1 := excess_zero_le_rowSum cap s.g
  have h2 := rowSum_zero_le cap
  have h3 := h.value
  omega

theorem rank_lt {g : adjmatrix} {visited : List Bool} {p : List Nat} {rank : Nat → Nat}
    (tree : treeOK g visited p rank) {v : Nat} (hv : v < g.vertices)
    (hvis : visited.getD v false = true) : rank v < g.vertices := by
  have := (tree v hv hvis).1
  omega

/-- One pass of the body of the outer loop: the inner walks finish, nothing
wraps, the invariant is kept and the flow value grows. -/
theorem ek_iteration (cap : adjmatrix) (s : ekResult) (p : List Nat) (visited : List Bool)
    (inner : Nat) (hn : 2 ≤ cap.vertices) (hB : cap.matrix.sum < UINT)
    (hin : cap.vertices ≤ inner) (h : EkInv cap s) (hpost : BfsPost s.g true p visited) :
    ∃ x g1 f1, pathCapacity inner s.g p = some x ∧
      augmentLoop p x inner (s.g.vertices - 1) s.g s.f = some (g1, f1) ∧ 1 ≤ x ∧
      (s.maxFlow + x) % UINT = s.maxFlow + x ∧
      EkInv cap { maxFlow := (s.maxFlow + x) % UINT, g := g1, f := f1,
                  iterations := s.iterations + 1 } := by
  have hgv : s.g.vertices = cap.vertices := h.res.verts
  obtain ⟨rank, tree⟩ := hpost.tree
  have hsink : visited.getD (s.g.vertices - 1) false = true := hpost.sink.symm
  have hsl : s.g.vertices - 1 < s.g.vertices := by omega
  have hrs := rank_lt tree hsl hsink
  obtain ⟨x, hx, hxle, hxpos, hxall⟩ :=
    pathCapacityLoop_total s.g p visited rank tree inner (s.g.vertices - 1) (UINT - 1)
      hsl hsink (by omega)
  have hx1 : 1 ≤ x := hxpos (by unfold UINT; decide)
  have hinit : AugInv cap s.g p visited rank x (s.g.vertices - 1) s.g := by
    refine ⟨h.res, ?_, fun _ _ _ _ _ => rfl⟩
    intro v _
    rw [hgv]; ring
  obtain ⟨g1, f1, haug, hinv⟩ :=
    augmentLoop_total cap s.g p visited rank x hB hgv tree inner (s.g.vertices - 1) s.g s.f
      (by omega) hsink (by omega) hxall hinit
  have hval : excess cap g1 0 = (s.maxFlow : Int) + x := by
    rw [hinv.exc 0 (by omega), h.value]
    have : ¬ (0 = cap.vertices - 1) := by omega
    simp [this]
  have hbound : s.maxFlow + x ≤ cap.matrix.sum := by
    have h1 := excess_zero_le_rowSum cap g1
    have h2 := rowSum_zero_le cap
    omega
  have hmod : (s.maxFlow + x) % UINT = s.maxFlow + x := Nat.mod_eq_of_lt (by omega)
  refine ⟨x, g1, f1, hx, haug, hx1, hmod, ⟨hinv.res, ?_, ?_, ?_⟩⟩
  · intro v hv hv0 hvs
    show excess cap g1 v = 0
    rw [hinv.exc v hv, h.cons v hv hv0 hvs]
    simp [hv0, hvs]
  · show excess cap g1 0 = (((s.maxFlow + x) % UINT : Nat) : Int)
    rw [hmod, hval]; push_cast; rfl
  · show s.iterations + 1 ≤ (s.maxFlow + x) % UINT
    rw [hmod]
    have := h.count
    omega

/-- With fuel for the remaining capacity the outer loop returns; the result
keeps the invariant and its residual graph has no path to the sink. -/
theorem edmondsKarpLoop_total (cap : adjmatrix) (inner : Nat) (hn : 2 ≤ cap.vertices)
    (hB : cap.matrix.sum < UINT) (hin : cap.vertices ≤ inner) :
    ∀ (fuel : Nat) (s : ekResult), EkInv cap s → cap.matrix.sum - s.maxFlow ≤ fuel →
    ∃ r, edmondsKarpLoop inner fuel s = some r ∧ EkInv cap r ∧
      (∃ p visited, BfsPost r.g false p visited) := by
  intro fuel
  induction fuel with
  | zero =>
    intro s h hf
    have hgv : s.g.vertices = cap.vertices := h.res.verts
    obtain ⟨b, p, visited, hbfs, hpost⟩ :=
      breadthFirstSearch_total s.g (by omega) inner (by omega)
    cases b with
    | false =>
      refine ⟨s, ?_, h, ⟨p, visited, hpost⟩⟩
      rw [edmondsKarpLoop]; simp [hbfs]
    | true =>
      obtain ⟨x, g1, f1, _, _, hx1, hmod, hinv⟩ :=
        ek_iteration cap s p visited inner hn hB hin h hpost
      have := hinv.value_le
      simp only [hmod] at this
      omega
  | succ fuel ih =>
    intro s h hf
    have hgv : s.g.vertices = cap.vertices := h.res.verts
    obtain ⟨b, p, visited, hbfs, hpost⟩ :=
      breadthFirstSearch_total s.g (by omega) inner (by omega)
    cases b with
    | false =>
      refine ⟨s, ?_, h, ⟨p, visited, hpost⟩⟩
      rw [edmondsKarpLoop]; simp [hbfs]
    | true =>
      obtain ⟨x, g1, f1, hx, haug, hx1, hmod, hinv⟩ :=
        ek_iteration cap s p visited inner hn hB hin h hpost
      obtain ⟨r, hr, hrinv, hrpost⟩ := ih _ hinv (by
        show cap.matrix.sum - (s.maxFlow + x) % UINT ≤ fuel
        rw [hmod]; omega)
      refine ⟨r, ?_, hrinv, hrpost⟩
      rw [edmondsKarpLoop]
      simp only [hbfs, hx, haug]
      exact hr

/-- The result of the outer loop does not depend on the fuel budgets. -/
theorem edmondsKarpLoop_fuel (i1 i2 : Nat) : ∀ (f1 f2 : Nat) (s a b : ekResult),
    edmondsKarpLoop i1 f1 s = some a → edmondsKarpLoop i2 f2 s = some b → a = b := by
  intro f1
  induction f1 with
  | zero =>
    intro f2 s a b h1 h2
    rw [edmondsKarpLoop.eq_def] at h1 h2
    cases e1 : breadthFirstSearch i1 s.g with
    | none => simp [e1] at h1
    | some r1 =>
      cases e2 : breadthFirstSearch i2 s.g with
      | none => simp [e2] at h2
      | some r2 =>
        have := breadthFirstSearch_fuel s.g _ _ _ _ e1 e2
        subst this
        obtain ⟨b1, p1⟩ := r1
        cases b1 with
        | false =>
          simp [e1] at h1
          simp [e2] at h2
          rw [← h1, ← h2]
        | true => simp [e1] at h1
  | succ f1 ih =>
    intro f2 s a b h1 h2
    rw [edmondsKarpLoop.eq_def] at h1 h2
    cases e1 : breadthFirstSearch i1 s.g with
    | none => simp [e1] at h1
    | some r1 =>
      cases e2 : breadthFirstSearch i2 s.g with
      | none => simp [e2] at h2
      | some r2 =>
        have := breadthFirstSearch_fuel s.g _ _ _ _ e1 e2
        subst this
        obtain ⟨b1, p1⟩ := r1
        cases b1 with
        | false =>
          simp [e1] at h1
          simp [e2] at h2
          rw [← h1, ← h2]
        | true =>
          cases f2 with
          | zero => simp [e2] at h2
          | succ f2 =>
            simp only [e1] at h1
            simp only [e2] at h2
            cases c1 : pathCapacity i1 s.g p1 with
            | none => simp [c1] at h1
            | some x1 =>
              cases c2 : pathCapacity i2 s.g p1 with
              | none => simp [c2] at h2
              | some x2 =>
                have hx := pathCapacityLoop_fuel s.g p1 _ _ _ _ _ _ c1 c2
                subst hx
                simp only [c1] at h1
                simp only [c2] at h2
                cases d1 : augmentLoop p1 x1 i1 (s.g.vertices - 1) s.g s.f with
                | none => simp [d1] at h1
                | some q1 =>
                  cases d2 : augmentLoop p1 x1 i2 (s.g.vertices - 1) s.g s.f with
                  | none => simp [d2] at h2
                  | some q2 =>
                    have hq := augmentLoop_fuel p1 x1 _ _ _ _ _ _ _ d1 d2
                    subst hq
                    obtain ⟨g1, fl1⟩ := q1
                    simp only [d1] at h1
                    simp only [d2] at h2
                    exact ih f2 _ a b h1 h2

theorem ekInit_inv (g f : adjmatrix) (hwf : g.wellFormed) :
    EkInv g { maxFlow := 0, g := g, f := f, iterations := 0 } := by
  have hex : ∀ v, excess g g v = 0 := by
    intro v
    unfold excess net
    simp
  refine ⟨⟨rfl, hwf, fun _ _ _ _ => rfl⟩, fun v _ _ _ => hex v, ?_, Nat.le_refl _⟩
  show excess g g 0 = ((0 : Nat) : Int)
  rw [hex]; rfl

/-- Function `edmondsKarp` returns, with enough fuel, a result that keeps the
loop invariant and whose residual graph has no path left. -/
theorem edmondsKarp_total (g f : adjmatrix) (hn : 2 ≤ g.vertices) (hwf : g.wellFormed)
    (hB : g.matrix.sum < UINT) (fuel : Nat) (hf : g.matrix.sum + g.vertices ≤ fuel) :
    ∃ r, edmondsKarp fuel g f = some r ∧ EkInv g r ∧
      (∃ p visited, BfsPost r.g false p visited) := by
  unfold edmondsKarp
  exact edmondsKarpLoop_total g fuel hn hB (by omega) fuel _ (ekInit_inv g f hwf)
    (by show g.matrix.sum - 0 ≤ fuel; omega)

/-- Whatever fuel made `edmondsKarp` return, its result is the one described
by `edmondsKarp_total`. -/
theorem edmondsKarp_post (g f : adjmatrix) (hn : 2 ≤ g.vertices) (hwf : g.wellFormed)
    (hB : g.matrix.sum < UINT) (fuel : Nat) (r : ekResult)
    (h : edmondsKarp fuel g f = some r) :
    EkInv g r ∧ (∃ p visited, BfsPost r.g false p visited) := by
  obtain ⟨r', hr', hinv, hpost⟩ :=
    edmondsKarp_total g f hn hwf hB (g.matrix.sum + g.vertices) (Nat.le_refl _)
  unfold edmondsKarp at h hr'
  have := edmondsKarpLoop_fuel _ _ _ _ _ _ _ h hr'
  subst this
  exact ⟨hinv, hpost⟩

/-- The flag set of the last, failed search is a cut whose capacity is the
returned value, and no cut has a smaller capacity. -/
theorem ek_minCut (g : adjmatrix) (r : ekResult) (hn : 2 ≤ g.vertices) (hinv : EkInv g r)
    (hpost : ∃ p visited, BfsPost r.g false p visited) :
    (∃ S, isCut g.vertices S ∧ r.maxFlow = cutCapacity g S) ∧
      ∀ S, isCut g.vertices S → r.maxFlow ≤ cutCapacity g S := by
  obtain ⟨p, visited, hp⟩ := hpost
  have hgv : r.g.vertices = g.vertices := hinv.res.verts
  constructor
  · refine ⟨fun v => visited.getD v false, ⟨hp.src, ?_⟩, ?_⟩
    · have := hp.sink
      rw [hgv] at this
      exact this.symm
    · apply value_eq_cut hinv.res _ _ hn ⟨hp.src, ?_⟩ hinv.cons hinv.value
      · intro v u hv hu hSv hSu
        by_contra hne
        have := hp.closed v (by omega) hSv u (by omega) hne
        rw [hSu] at this
        exact absurd this (by decide)
      · have := hp.sink
        rw [hgv] at this
        exact this.symm
  · intro S hS
    exact value_le_cut hinv.res S _ hn hS hinv.cons hinv.value

end FlowNetworks

namespace FlowNetworks

/-! ## The flow matrix during the walk -/

/-- Cells of the residual after the step at `w` of a walk that keeps `AugInv`. -/
theorem augmentStep_cells (cap g0 g f : adjmatrix) (p : List Nat) (visited : List Bool)
    (rank : Nat → Nat) (x w : Nat) (hB : cap.matrix.sum < UINT)
    (hv0 : g0.vertices = cap.vertices) (tree : treeOK g0 visited p rank)
    (hxw : x ≤ g0.at (p.getD w 0) w) (hw : w < cap.vertices)
    (hvis : visited.getD w false = true) (hw0 : w ≠ 0)
    (h : AugInv cap g0 p visited rank x w g) :
    p.getD w 0 < cap.vertices ∧ p.getD w 0 ≠ w ∧ x ≤ g.at (p.getD w 0) w ∧
    ∀ i j, j < cap.vertices → (augmentStep p x w g f).1.at i j =
      if i = p.getD w 0 ∧ j = w then g.at (p.getD w 0) w - x
      else if i = w ∧ j = p.getD w 0 then g.at w (p.getD w 0) + x
      else g.at i j := by
  have hgv : g.vertices = cap.vertices := h.res.verts
  obtain ⟨hu, _, _, hrank⟩ := (tree w (by omega) hvis).2 hw0
  rw [hv0] at hu
  have hne : p.getD w 0 ≠ w := by
    intro e; rw [e] at hrank; omega
  have hkeep : g.at (p.getD w 0) w = g0.at (p.getD w 0) w :=
    h.keep w hw hvis hw0 (Nat.le_refl _)
  have hx : x ≤ g.at (p.getD w 0) w := by rw [hkeep]; exact hxw
  have hb : g.at (p.getD w 0) w + g.at w (p.getD w 0) < UINT := by
    rw [h.res.pair _ _ hu hw]
    have := at_add_at_le_sum cap hu hw hne
    omega
  refine ⟨hu, hne, hx, fun i j hj => ?_⟩
  exact augmentStep_at p x w g f h.res.wf (by omega) (by omega) hne hx hb i j (by omega)

/-- Cells of the flow matrix after one step along `u -> w` when the addition
does not wrap. -/
theorem augmentStep_flow_at (p : List Nat) (x w : Nat) (g f : adjmatrix) (hwf : f.wellFormed)
    (hu : p.getD w 0 < f.vertices) (hw : w < f.vertices)
    (hb : f.at (p.getD w 0) w + x < UINT) (i j : Nat) (hj : j < f.vertices) :
    (augmentStep p x w g f).2.at i j =
      if i = p.getD w 0 ∧ j = w then f.at (p.getD w 0) w + x else f.at i j := by
  unfold augmentStep
  simp only
  rw [Nat.mod_eq_of_lt hb]
  by_cases c : i = p.getD w 0 ∧ j = w
  · obtain ⟨rfl, rfl⟩ := c
    rw [if_pos ⟨rfl, rfl⟩]
    exact at_put_same hwf hu hw _
  · rw [if_neg c]
    exact at_put_other hw hj (fun e => c ⟨e.1.symm, e.2.symm⟩) _

theorem augmentStep_flow (cap g0 f0 g f : adjmatrix) (p : List Nat) (visited : List Bool)
    (rank : Nat → Nat) (x w mf : Nat) (hB : cap.matrix.sum < UINT) (hmf : mf + x ≤ cap.matrix.sum)
    (hv0 : g0.vertices = cap.vertices) (tree : treeOK g0 visited p rank)
    (hxw : x ≤ g0.at (p.getD w 0) w) (hw : w < cap.vertices)
    (hvis : visited.getD w false = true) (hw0 : w ≠ 0)
    (hf0 : ∀ i j, i < cap.vertices → j < cap.vertices → f0.at i j ≤ mf)
    (h : AugInv cap g0 p visited rank x w g)
    (hf : AugFlow cap f0 p visited rank x w mf g f) :
    AugFlow cap f0 p visited rank x (p.getD w 0) mf (augmentStep p x w g f).1
      (augmentStep p x w g f).2 := by
  obtain ⟨hu, hne, hx, hat⟩ :=
    augmentStep_cells cap g0 g f p visited rank x w hB hv0 tree hxw hw hvis hw0 h
  obtain ⟨_, _, _, hrank⟩ := (tree w (by omega) hvis).2 hw0
  have hfv : f.vertices = cap.vertices := hf.verts
  have hkeep : f.at (p.getD w 0) w = f0.at (p.getD w 0) w :=
    hf.keep w hw hvis hw0 (Nat.le_refl _)
  have hle0 : f.at (p.getD w 0) w ≤ mf := by rw [hkeep]; exact hf0 _ _ hu hw
  have hfat : ∀ i j, j < cap.vertices → (augmentStep p x w g f).2.at i j =
      if i = p.getD w 0 ∧ j = w then f.at (p.getD w 0) w + x else f.at i j := by
    intro i j hj
    exact augmentStep_flow_at p x w g f hf.wf (by omega) (by omega) (by omega) i j (by omega)
  refine ⟨hfv, put_wellFormed hf.wf _ _ _, ?_, ?_, ?_⟩
  · intro i j hi hj
    have hnet := hf.netEq i j hi hj
    rw [hfat i j hj, hfat j i hi]
    unfold net at hnet ⊢
    rw [hat i j hj]
    by_cases c1 : i = p.getD w 0 ∧ j = w
    · obtain ⟨rfl, rfl⟩ := c1
      have c2 : ¬ (j = p.getD j 0 ∧ p.getD j 0 = j) := fun e => hne e.2
      simp only [and_self, if_true, if_neg c2]
      push_cast [hx]
      omega
    · by_cases c2 : i = w ∧ j = p.getD w 0
      · obtain ⟨rfl, rfl⟩ := c2
        simp only [if_neg c1, and_self, if_true]
        push_cast
        omega
      · have c3 : ¬ (j = p.getD w 0 ∧ i = w) := fun e => c2 ⟨e.2, e.1⟩
        simp only [if_neg c1, if_neg c2, if_neg c3]
        exact hnet
  · intro i j hi hj
    rw [hfat i j hj]
    split
    · omega
    · exact hf.le i j hi hj
  · intro y hy hyvis hy0 hry
    rw [hfat _ _ hy]
    have c1 : ¬ (p.getD y 0 = p.getD w 0 ∧ y = w) := by
      rintro ⟨_, rfl⟩
      omega
    rw [if_neg c1]
    exact hf.keep y hy hyvis hy0 (by omega)

theorem augmentLoop_flow (cap g0 f0 : adjmatrix) (p : List Nat) (visited : List Bool)
    (rank : Nat → Nat) (x mf : Nat) (hB : cap.matrix.sum < UINT)
    (hmf : mf + x ≤ cap.matrix.sum)
    (hv0 : g0.vertices = cap.vertices) (tree : treeOK g0 visited p rank)
    (hf0 : ∀ i j, i < cap.vertices → j < cap.vertices → f0.at i j ≤ mf) :
    ∀ (fuel w : Nat) (g f g' f' : adjmatrix), w < cap.vertices →
    visited.getD w false = true →
    (∀ y, OnWalk p w y → y ≠ 0 → x ≤ g0.at (p.getD y 0) y) →
    AugInv cap g0 p visited rank x w g → AugFlow cap f0 p visited rank x w mf g f →
    augmentLoop p x fuel w g f = some (g', f') →
    AugFlow cap f0 p visited rank x 0 mf g' f' := by
  intro fuel
  induction fuel with
  | zero =>
    intro w g f g' f' hw hvis _ h hf hres
    by_cases h0 : w = 0
    · subst h0
      simp [augmentLoop] at hres
      obtain ⟨rfl, rfl⟩ := hres
      exact hf
    · simp [augmentLoop, h0] at hres
  | succ fuel ih =>
    intro w g f g' f' hw hvis hx h hf hres
    by_cases h0 : w = 0
    · subst h0
      simp [augmentLoop] at hres
      obtain ⟨rfl, rfl⟩ := hres
      exact hf
    · obtain ⟨hu, huvis, _, _⟩ := (tree w (by omega) hvis).2 h0
      rw [hv0] at hu
      have hxw := hx w (OnWalk.here w) h0
      have hstep := augmentStep_inv cap g0 g f p visited rank x w hB hv0 tree hxw hw hvis h0 h
      have hfstep := augmentStep_flow cap g0 f0 g f p visited rank x w mf hB hmf hv0 tree
        hxw hw hvis h0 hf0 h hf
      rw [augmentLoop] at hres
      simp only [h0, if_false] at hres
      exact ih (p.getD w 0) _ _ g' f' hu huvis
        (fun y hy hy0 => hx y (OnWalk.step h0 hy) hy0) hstep hfstep hres

end FlowNetworks

namespace FlowNetworks

/-! ## The flow matrix over the outer loop -/

theorem ek_iteration_flow (cap : adjmatrix) (s : ekResult) (p : List Nat) (visited : List Bool)
    (inner : Nat) (hn : 2 ≤ cap.vertices) (hB : cap.matrix.sum < UINT)
    (hin : cap.vertices ≤ inner) (h : EkInv cap s) (hfl : FlowInv cap s.g s.f s.maxFlow)
    (hpost : BfsPost s.g true p visited) :
    ∃ x g1 f1, pathCapacity inner s.g p = some x ∧
      augmentLoop p x inner (s.g.vertices - 1) s.g s.f = some (g1, f1) ∧
      (s.maxFlow + x) % UINT = s.maxFlow + x ∧
      EkInv cap { maxFlow := (s.maxFlow + x) % UINT, g := g1, f := f1,
                  iterations := s.iterations + 1 } ∧
      FlowInv cap g1 f1 (s.maxFlow + x) := by
  obtain ⟨x, g1, f1, hx, haug, _, hmod, hinv⟩ :=
    ek_iteration cap s p visited inner hn hB hin h hpost
  refine ⟨x, g1, f1, hx, haug, hmod, hinv, ?_⟩
  have hgv : s.g.vertices = cap.vertices := h.res.verts
  obtain ⟨rank, tree⟩ := hpost.tree
  have hsink : visited.getD (s.g.vertices - 1) false = true := hpost.sink.symm
  have hsl : s.g.vertices - 1 < s.g.vertices := by omega
  have hrs := rank_lt tree hsl hsink
  obtain ⟨x', hx', _, _, hxall⟩ :=
    pathCapacityLoop_total s.g p visited rank tree inner (s.g.vertices - 1) (UINT - 1)
      hsl hsink (by omega)
  have hxx : x' = x := by
    unfold pathCapacity at hx
    rw [hx'] at hx
    exact Option.some.inj hx
  subst hxx
  have hbound : s.maxFlow + x' ≤ cap.matrix.sum := by
    have := hinv.value_le
    simp only [hmod] at this
    exact this
  have hinit : AugInv cap s.g p visited rank x' (s.g.vertices - 1) s.g := by
    refine ⟨h.res, ?_, fun _ _ _ _ _ => rfl⟩
    intro v _
    rw [hgv]; ring
  have hfinit : AugFlow cap s.f p visited rank x' (s.g.vertices - 1) s.maxFlow s.g s.f :=
    ⟨hfl.verts, hfl.wf, hfl.netEq,
      fun i j hi hj => Nat.le_trans (hfl.le i j hi hj) (Nat.le_add_right _ _),
      fun _ _ _ _ _ => rfl⟩
  have hres := augmentLoop_flow cap s.g s.f p visited rank x' s.maxFlow hB hbound hgv tree
    hfl.le inner (s.g.vertices - 1) s.g s.f g1 f1 (by omega) hsink hxall hinit hfinit haug
  exact ⟨hres.verts, hres.wf, hres.netEq, hres.le⟩

theorem edmondsKarpLoop_total_flow (cap : adjmatrix) (inner : Nat) (hn : 2 ≤ cap.vertices)
    (hB : cap.matrix.sum < UINT) (hin : cap.vertices ≤ inner) :
    ∀ (fuel : Nat) (s : ekResult), EkInv cap s → FlowInv cap s.g s.f s.maxFlow →
    cap.matrix.sum - s.maxFlow ≤ fuel →
    ∃ r, edmondsKarpLoop inner fuel s = some r ∧ FlowInv cap r.g r.f r.maxFlow := by
  intro fuel
  induction fuel with
  | zero =>
    intro s h hfl hf
    have hgv : s.g.vertices = cap.vertices := h.res.verts
    obtain ⟨b, p, visited, hbfs, hpost⟩ :=
      breadthFirstSearch_total s.g (by omega) inner (by omega)
    cases b with
    | false =>
      refine ⟨s, ?_, hfl⟩
      rw [edmondsKarpLoop]; simp [hbfs]
    | true =>
      obtain ⟨x, g1, f1, _, _, hx1, hmod, hinv⟩ :=
        ek_iteration cap s p visited inner hn hB hin h hpost
      have := hinv.value_le
      simp only [hmod] at this
      omega
  | succ fuel ih =>
    intro s h hfl hf
    have hgv : s.g.vertices = cap.vertices := h.res.verts
    obtain ⟨b, p, visited, hbfs, hpost⟩ :=
      breadthFirstSearch_total s.g (by omega) inner (by omega)
    cases b with
    | false =>
      refine ⟨s, ?_, hfl⟩
      rw [edmondsKarpLoop]; simp [hbfs]
    | true =>
      obtain ⟨x, g1, f1, hx, haug, hmod, hinv, hflow⟩ :=
        ek_iteration_flow cap s p visited inner hn hB hin h hfl hpost
      have hx1 : 1 ≤ x := by
        obtain ⟨x', _, _, hx', _, hpos, _, _⟩ :=
          ek_iteration cap s p visited inner hn hB hin h hpost
        rw [hx] at hx'
        rw [Option.some.inj hx']
        exact hpos
      obtain ⟨r, hr, hrfl⟩ := ih
        { maxFlow := (s.maxFlow + x) % UINT, g := g1, f := f1, iterations := s.iterations + 1 }
        hinv (by
          show FlowInv cap g1 f1 ((s.maxFlow + x) % UINT)
          rw [hmod]; exact hflow) (by
          show cap.matrix.sum - (s.maxFlow + x) % UINT ≤ fuel
          rw [hmod]; omega)
      refine ⟨r, ?_, hrfl⟩
      rw [edmondsKarpLoop]
      simp only [hbfs, hx, haug]
      exact hr

theorem zeroMatrix_at (n u v : Nat) : (zeroMatrix n).at u v = 0 := by
  unfold adjmatrix.at zeroMatrix
  exact getD_replicate _ _ _

theorem zeroMatrix_no_path (n a b : Nat) (h : a ≠ b) : ¬ (zeroMatrix n).hasPath a b := by
  rw [hasPath_iff_reflTransGen]
  intro hr
  rcases Relation.ReflTransGen.cases_head hr with e | ⟨c, hc, _⟩
  · exact h e
  · exact hc.2.2 (zeroMatrix_at _ _ _)

theorem zeroMatrix_wellFormed (n : Nat) : (zeroMatrix n).wellFormed := by
  simp [adjmatrix.wellFormed, zeroMatrix]

/-- Started on an all-zero flow matrix, `edmondsKarp` leaves a flow matrix in
which the difference of opposite entries is the net amount pushed. -/
theorem edmondsKarp_flow_post (g : adjmatrix) (hn : 2 ≤ g.vertices) (hwf : g.wellFormed)
    (hB : g.matrix.sum < UINT) (fuel : Nat) (r : ekResult)
    (h : edmondsKarp fuel g (zeroMatrix g.vertices) = some r) :
    FlowInv g r.g r.f r.maxFlow := by
  have hinit : FlowInv g g (zeroMatrix g.vertices) 0 := by
    refine ⟨rfl, zeroMatrix_wellFormed _, fun i j _ _ => ?_, fun i j _ _ => ?_⟩
    · simp [zeroMatrix_at, net]
    · simp [zeroMatrix_at]
  obtain ⟨r', hr', hfl⟩ := edmondsKarpLoop_total_flow g (g.matrix.sum + g.vertices) hn hB
    (by omega) (g.matrix.sum + g.vertices)
    { maxFlow := 0, g := g, f := zeroMatrix g.vertices, iterations := 0 }
    (ekInit_inv g _ hwf) hinit (by show g.matrix.sum - 0 ≤ _; omega)
  unfold edmondsKarp at h
  have := edmondsKarpLoop_fuel _ _ _ _ _ _ _ h hr'
  subst this
  exact hfl

end FlowNetworks

namespace FlowNetworks

/-! ## The claims about the solver -/

/-- C1: for a capacity matrix over n >= 2 vertices whose capacities sum to less
than 2^32, `edmondsKarp` returns, and the value it returns is the capacity of a
source/sink cut and no source/sink cut has a smaller capacity: it is the
minimum cut capacity, the maximum flow value. -/
theorem edmondsKarp_value_is_min_cut (g f : adjmatrix) (hn : 2 ≤ g.vertices)
    (hwf : g.matrix.length = g.vertices * g.vertices) (hsum : g.matrix.sum < 2 ^ 32) :
    (∃ r, edmondsKarp (g.matrix.sum + g.vertices) g f = some r) ∧
    ∀ fuel r, edmondsKarp fuel g f = some r →
      (∃ S, isCut g.vertices S ∧ r.maxFlow = cutCapacity g S) ∧
      ∀ S, isCut g.vertices S → r.maxFlow ≤ cutCapacity g S := by
  constructor
  · obtain ⟨r, hr, _⟩ := edmondsKarp_total g f hn hwf hsum _ (Nat.le_refl _)
    exact ⟨r, hr⟩
  · intro fuel r hr
    obtain ⟨hinv, hpost⟩ := edmondsKarp_post g f hn hwf hsum fuel r hr
    exact ek_minCut g r hn hinv hpost

theorem edmondsKarp_value_is_min_cut_witness :
    2 ≤ exampleNet.vertices ∧
    exampleNet.matrix.length = exampleNet.vertices * exampleNet.vertices ∧
    exampleNet.matrix.sum < 2 ^ 32 ∧
    ((∃ r, edmondsKarp (exampleNet.matrix.sum + exampleNet.vertices) exampleNet (zeroMatrix 4)
        = some r) ∧
    ∀ fuel r, edmondsKarp fuel exampleNet (zeroMatrix 4) = some r →
      (∃ S, isCut exampleNet.vertices S ∧ r.maxFlow = cutCapacity exampleNet S) ∧
      ∀ S, isCut exampleNet.vertices S → r.maxFlow ≤ cutCapacity exampleNet S) :=
  ⟨by decide, by decide, by decide,
    edmondsKarp_value_is_min_cut exampleNet (zeroMatrix 4) (by decide) (by decide) (by decide)⟩

/-- C5: when the sink n-1 is not reachable from the source 0 along nonzero
entries (n >= 2), `edmondsKarp` returns 0 without running its loop body, the
all-zero flow matrix stays all-zero and the residual matrix is the input. -/
theorem edmondsKarp_unreachable_sink (g : adjmatrix) (hn : 2 ≤ g.vertices)
    (hno : ¬ g.hasPath 0 (g.vertices - 1)) (fuel : Nat) (hf : g.vertices ≤ fuel) :
    edmondsKarp fuel g (zeroMatrix g.vertices) =
      some { maxFlow := 0, g := g, f := zeroMatrix g.vertices, iterations := 0 } := by
  obtain ⟨b, p, visited, hbfs, hpost⟩ := breadthFirstSearch_total g (by omega) fuel hf
  have hb : b = false := by
    cases b with
    | false => rfl
    | true =>
      exfalso
      apply hno
      rw [hasPath_iff_reflTransGen]
      exact hpost.reach _ (by omega) hpost.sink.symm
  subst hb
  unfold edmondsKarp
  rw [edmondsKarpLoop.eq_def]
  simp [hbfs]

theorem edmondsKarp_unreachable_sink_witness :
    2 ≤ (zeroMatrix 5).vertices ∧ ¬ (zeroMatrix 5).hasPath 0 ((zeroMatrix 5).vertices - 1) ∧
    edmondsKarp 5 (zeroMatrix 5) (zeroMatrix (zeroMatrix 5).vertices) =
      some { maxFlow := 0, g := zeroMatrix 5, f := zeroMatrix (zeroMatrix 5).vertices,
             iterations := 0 } :=
  ⟨by decide, zeroMatrix_no_path 5 0 4 (by decide),
    edmondsKarp_unreachable_sink (zeroMatrix 5) (by decide)
      (zeroMatrix_no_path 5 0 4 (by decide)) 5 (Nat.le_refl _)⟩

/-- C6: on the four-vertex example `edmondsKarp` returns 4 and leaves
flow[0][1] = 2, flow[0][2] = 2, flow[1][3] = 2, flow[2][3] = 2. -/
theorem edmondsKarp_example :
    ∃ r, edmondsKarp 4 exampleNet (zeroMatrix 4) = some r ∧ r.maxFlow = 4 ∧
      r.f.at 0 1 = 2 ∧ r.f.at 0 2 = 2 ∧ r.f.at 1 3 = 2 ∧ r.f.at 2 3 = 2 :=
  ⟨{ maxFlow := 4
     g := { vertices := 4, matrix := [0, 1, 0, 0, 2, 0, 0, 0, 2, 0, 0, 1, 0, 2, 2, 0] }
     f := { vertices := 4, matrix := [0, 2, 2, 0, 0, 0, 0, 2, 0, 0, 0, 2, 0, 0, 0, 0] }
     iterations := 2 }, by decide!, by decide⟩

/-- C7: for a capacity matrix over n >= 2 vertices whose capacities sum to less
than 2^32, `edmondsKarp` with fuel `sum + n` for its loops returns a result: the
augmenting loop and, in every pass, the search and both walks halt; the loop
body runs at most `sum` times. -/
theorem edmondsKarp_halts (g f : adjmatrix) (hn : 2 ≤ g.vertices)
    (hwf : g.matrix.length = g.vertices * g.vertices) (hsum : g.matrix.sum < 2 ^ 32)
    (fuel : Nat) (hf : g.matrix.sum + g.vertices ≤ fuel) :
    ∃ r, edmondsKarp fuel g f = some r ∧ r.iterations ≤ g.matrix.sum := by
  obtain ⟨r, hr, hinv, _⟩ := edmondsKarp_total g f hn hwf hsum fuel hf
  exact ⟨r, hr, Nat.le_trans hinv.count hinv.value_le⟩

theorem edmondsKarp_halts_witness :
    2 ≤ net6.vertices ∧ net6.matrix.length = net6.vertices * net6.vertices ∧
    net6.matrix.sum < 2 ^ 32 ∧ net6.matrix.sum + net6.vertices ≤ 50 ∧
    ∃ r, edmondsKarp 50 net6 (zeroMatrix 6) = some r ∧ r.iterations ≤ net6.matrix.sum :=
  ⟨by decide, by decide, by decide, by decide,
    edmondsKarp_halts net6 (zeroMatrix 6) (by decide) (by decide) (by decide) 50 (by decide)⟩

/-- C9: for a matrix over n >= 1 vertices `breadthFirstSearch` returns, and it
returns true exactly when a directed path of nonzero entries leads from vertex
0 to vertex n-1. -/
theorem breadthFirstSearch_true_iff_path (g : adjmatrix) (hn : 1 ≤ g.vertices) :
    (∃ b p, breadthFirstSearch g.vertices g = some (b, p)) ∧
    ∀ fuel b p, breadthFirstSearch fuel g = some (b, p) →
      (b = true ↔ g.hasPath 0 (g.vertices - 1)) := by
  constructor
  · obtain ⟨b, p, _, h, _⟩ := breadthFirstSearch_total g hn g.vertices (Nat.le_refl _)
    exact ⟨b, p, h⟩
  · intro fuel b p h
    obtain ⟨visited, hpost⟩ := breadthFirstSearch_post g hn fuel b p h
    rw [hasPath_iff_reflTransGen, ← hpost.visited_iff _ (by omega), hpost.sink]

theorem breadthFirstSearch_true_iff_path_witness :
    1 ≤ exampleNet.vertices ∧
    ((∃ b p, breadthFirstSearch exampleNet.vertices exampleNet = some (b, p)) ∧
    ∀ fuel b p, breadthFirstSearch fuel exampleNet = some (b, p) →
      (b = true ↔ exampleNet.hasPath 0 (exampleNet.vertices - 1))) :=
  ⟨by decide, breadthFirstSearch_true_iff_path exampleNet (by decide)⟩

end FlowNetworks

namespace FlowNetworks

/-! ## Runs on which the flow matrix is not a flow -/

/-- C2, at the network `net6`: `edmondsKarp` returns 7 after three passes and
leaves flow[2][4] = 2 on the edge 2→4 of capacity 1, so the entry exceeds the
capacity. -/
theorem edmondsKarp_flow_exceeds_capacity :
    ∃ r, edmondsKarp 6 net6 (zeroMatrix 6) = some r ∧ r.maxFlow = 7 ∧
      net6.at 2 4 = 1 ∧ r.f.at 2 4 = 2 ∧ ¬ (r.f.at 2 4 ≤ net6.at 2 4) :=
  ⟨{ maxFlow := 7
     g := { vertices := 6
            matrix := [0, 0, 0, 1, 0, 0, 0, 0, 3, 0, 3, 0, 0, 0, 0, 4, 1, 0,
                       2, 0, 0, 0, 0, 0, 2, 0, 3, 0, 0, 0, 3, 2, 2, 0, 0, 0] }
     f := { vertices := 6
            matrix := [0, 0, 0, 2, 2, 3, 0, 0, 0, 0, 0, 2, 0, 0, 0, 0, 2, 2,
                       0, 0, 2, 0, 0, 0, 0, 2, 2, 0, 0, 0, 0, 0, 0, 0, 0, 0] }
     iterations := 3 }, by decide!, by decide, by decide, by decide, by decide⟩

/-- C3, at the network `crossNet`: after `edmondsKarp` the flow entering vertex
3 along original edges is 2 and the flow leaving it along original edges is 1,
so inflow and outflow differ at a vertex that is neither source nor sink. -/
theorem edmondsKarp_flow_not_conserved :
    ∃ r, edmondsKarp 6 crossNet (zeroMatrix 6) = some r ∧
      inflow crossNet r.f 3 = 2 ∧ outflow crossNet r.f 3 = 1 :=
  ⟨{ maxFlow := 2
     g := { vertices := 6
            matrix := [0, 0, 1, 0, 0, 0, 0, 0, 0, 2, 1, 0, 1, 0, 0, 1, 0, 0,
                       0, 0, 1, 0, 0, 0, 1, 0, 0, 2, 0, 0, 0, 1, 0, 1, 0, 0] }
     f := { vertices := 6
            matrix := [0, 0, 1, 0, 1, 0, 0, 0, 0, 0, 0, 1, 0, 0, 0, 1, 0, 0,
                       0, 0, 0, 0, 1, 1, 0, 1, 0, 1, 0, 0, 0, 0, 0, 0, 0, 0] }
     iterations := 2 }, by decide!, by decide, by decide⟩

/-- C4, at the network `crossNet`: after `edmondsKarp` both flow[4][3] and
flow[3][4] are 1, so a pair of opposite entries is nonzero at the same time. -/
theorem edmondsKarp_flow_both_directions :
    ∃ r, edmondsKarp 7 crossNet (zeroMatrix 6) = some r ∧
      r.f.at 4 3 = 1 ∧ r.f.at 3 4 = 1 :=
  ⟨{ maxFlow := 2
     g := { vertices := 6
            matrix := [0, 0, 1, 0, 0, 0, 0, 0, 0, 2, 1, 0, 1, 0, 0, 1, 0, 0,
                       0, 0, 1, 0, 0, 0, 1, 0, 0, 2, 0, 0, 0, 1, 0, 1, 0, 0] }
     f := { vertices := 6
            matrix := [0, 0, 1, 0, 1, 0, 0, 0, 0, 0, 0, 1, 0, 0, 0, 1, 0, 0,
                       0, 0, 0, 0, 1, 1, 0, 1, 0, 1, 0, 0, 0, 0, 0, 0, 0, 0] }
     iterations := 2 }, by decide!, by decide, by decide⟩

/-! ## The generator -/

/-- C10, for five vertices and `rand()` returning 41 at every call:
`generate_flow` halts and leaves matrix[2][2] = 2, a self-loop at vertex 2. -/
theorem generate_flow_self_loop :
    ∃ m, generate_flow (fun _ => 41) 5 (zeroMatrix 5) = some m ∧ m.at 2 2 = 2 :=
  ⟨{ vertices := 5
     matrix := [0, 0, 2, 0, 2,
                0, 0, 2, 0, 0,
                0, 0, 2, 0, 0,
                0, 0, 2, 0, 0,
                0, 0, 0, 0, 0] }, by decide!, by decide⟩

end FlowNetworks

namespace FlowNetworks

/-! ## Writes of `generate_flow` -/

theorem foldl_preserves {α β : Type} (P : β → Prop) (f : β → α → β) :
    ∀ (l : List α) (b : β), P b → (∀ b a, a ∈ l → P b → P (f b a)) → P (l.foldl f b) := by
  intro l
  induction l with
  | nil => intro b hb _; exact hb
  | cons x t ih =>
    intro b hb hstep
    simp only [List.foldl_cons]
    exact ih _ (hstep b x (List.mem_cons_self _ _) hb)
      (fun b a ha hP => hstep b a (List.mem_cons_of_mem _ ha) hP)

theorem GenWrites.trans {n : Nat} {a b c : adjmatrix} (h1 : GenWrites n a b)
    (h2 : GenWrites n b c) : GenWrites n a c := by
  induction h2 with
  | refl => exact h1
  | step i j v _ hi hj hj' hv hv' ih => exact GenWrites.step i j v ih hi hj hj' hv hv'

theorem GenWrites.vertices_eq {n : Nat} {a b : adjmatrix} (h : GenWrites n a b) :
    b.vertices = a.vertices := by
  induction h with
  | refl => rfl
  | step i j v _ _ _ _ _ _ ih => rw [put_vertices]; exact ih

theorem GenWrites.wellFormed {n : Nat} {a b : adjmatrix} (h : GenWrites n a b)
    (ha : a.wellFormed) : b.wellFormed := by
  induction h with
  | refl => exact ha
  | step i j v _ _ _ _ _ _ ih => exact put_wellFormed ih _ _ _

theorem capacity_range (r : Nat) :
    1 ≤ r % MAX_EDGE_CAPACITY + 1 ∧ r % MAX_EDGE_CAPACITY + 1 ≤ MAX_EDGE_CAPACITY := by
  unfold MAX_EDGE_CAPACITY
  omega

/-- State of `generate_flow` reached by allowed writes from the matrix `m0` of
`n` vertices. -/
theorem placeCell_writes (rand : Nat → Nat) (n : Nat) (m0 : adjmatrix) (i j : Nat)
    (s : genState) (hi : i + 1 < n) (hj : 1 ≤ j) (hj' : j < n)
    (h : GenWrites n m0 s.flownet) : GenWrites n m0 (placeCell rand i s j).flownet := by
  unfold placeCell
  have hc := capacity_range (rand (s.calls + 1))
  split
  · split
    · exact GenWrites.step i j _ h hi hj hj' hc.1 hc.2
    · exact h
  · split
    · split
      · exact GenWrites.step i j _ h hi hj hj' hc.1 hc.2
      · exact h
    · exact h

theorem placeEdges_writes (rand : Nat → Nat) (n : Nat) (m0 : adjmatrix) (s : genState)
    (hm0 : m0.vertices = n) (h : GenWrites n m0 s.flownet) :
    GenWrites n m0 (placeEdges rand s).flownet := by
  unfold placeEdges
  apply foldl_preserves (fun t : genState => GenWrites n m0 t.flownet) _ _ _ h
  intro t i hi ht
  have hv : t.flownet.vertices = n := by rw [ht.vertices_eq, hm0]
  have hsv : s.flownet.vertices = n := by rw [h.vertices_eq, hm0]
  have hi' : i + 1 < n := by
    have := List.mem_range.mp hi
    omega
  apply foldl_preserves (fun t : genState => GenWrites n m0 t.flownet) _ _ _ ht
  intro u j hj hu
  rw [hv] at hj
  have hj2 := List.mem_range'_1.mp hj
  exact placeCell_writes rand n m0 i j u hi' hj2.1 (by omega) hu

theorem forceRow_writes (rand : Nat → Nat) (n : Nat) (m0 : adjmatrix) (s : genState) (i : Nat)
    (hm0 : m0.vertices = n) (hi : i + 1 < n) (h : GenWrites n m0 s.flownet) :
    GenWrites n m0 (forceRow rand s i).flownet := by
  unfold forceRow
  have hv : s.flownet.vertices = n := by rw [h.vertices_eq, hm0]
  have hc := capacity_range (rand (s.calls + 1))
  split
  · have hlt : rand s.calls % (n - 1) < n - 1 := Nat.mod_lt _ (by omega)
    rw [hv]
    exact GenWrites.step i _ _ h hi (by omega) (by omega) hc.1 hc.2
  · exact h

theorem forceEdges_writes (rand : Nat → Nat) (n : Nat) (m0 : adjmatrix) (s : genState)
    (hm0 : m0.vertices = n) (h : GenWrites n m0 s.flownet) :
    GenWrites n m0 (forceEdges rand s).flownet := by
  unfold forceEdges
  have hv : s.flownet.vertices = n := by rw [h.vertices_eq, hm0]
  split
  · apply foldl_preserves (fun t : genState => GenWrites n m0 t.flownet) _ _ _ h
    intro t i hi ht
    rw [hv] at hi
    have := List.mem_range.mp hi
    exact forceRow_writes rand n m0 t i hm0 (by omega) ht
  · exact h

/-- One attempt of the `do` loop only performs allowed writes. -/
theorem attempt_writes (rand : Nat → Nat) (n : Nat) (s : genState)
    (hv : s.flownet.vertices = n) :
    GenWrites n s.flownet (forceEdges rand (placeEdges rand { s with e := 0 })).flownet := by
  apply forceEdges_writes rand n s.flownet _ hv
  exact placeEdges_writes rand n s.flownet { s with e := 0 } hv GenWrites.refl

end FlowNetworks

namespace FlowNetworks

/-! ## The reachability check `recursiveBFS` -/

theorem recursiveBFS_succ (m : adjmatrix) (fuel vertex : Nat) (reachable : List Bool) :
    recursiveBFS m (fuel + 1) vertex reachable =
      (List.range m.vertices).foldl (rbfsStep m (recursiveBFS m fuel) vertex)
        (some (false, reachable.set vertex true)) := by
  rw [recursiveBFS]
  rfl

theorem count_false_pos (l : List Bool) (i : Nat) (hi : i < l.length)
    (h : l.getD i false = false) : 0 < l.count false := by
  have := count_false_set l i hi h
  omega

/-- The check returns when its fuel covers the unflagged vertices; it flags
the vertex it is called on, never unflags one, and a result `true` comes with a
path of nonzero entries from the vertex to the sink. -/
theorem recursiveBFS_total (m : adjmatrix) : ∀ (fuel vertex : Nat) (reachable : List Bool),
    reachable.length = m.vertices → vertex < m.vertices →
    reachable.getD vertex false = false → reachable.count false ≤ fuel →
    ∃ b r, recursiveBFS m fuel vertex reachable = some (b, r) ∧ r.length = m.vertices ∧
      r.count false < reachable.count false ∧
      (b = true → Relation.ReflTransGen m.edge vertex (m.vertices - 1)) := by
  intro fuel
  induction fuel with
  | zero =>
    intro vertex reachable hlen hv hfalse hcount
    have := count_false_pos reachable vertex (by omega) hfalse
    omega
  | succ fuel ih =>
    intro vertex reachable hlen hv hfalse hcount
    have hset := count_false_set reachable vertex (by omega) hfalse
    rw [recursiveBFS_succ]
    have key : ∀ (l : List Nat), (∀ i ∈ l, i < m.vertices) →
        ∀ (b : Bool) (r : List Bool), r.length = m.vertices →
        r.count false ≤ (reachable.set vertex true).count false →
        (b = true → Relation.ReflTransGen m.edge vertex (m.vertices - 1)) →
        ∃ b' r', l.foldl (rbfsStep m (recursiveBFS m fuel) vertex) (some (b, r)) = some (b', r') ∧
          r'.length = m.vertices ∧
          r'.count false ≤ (reachable.set vertex true).count false ∧
          (b' = true → Relation.ReflTransGen m.edge vertex (m.vertices - 1)) := by
      intro l
      induction l with
      | nil =>
        intro _ b r hr hc hb
        exact ⟨b, r, rfl, hr, hc, hb⟩
      | cons i t iht =>
        intro hl b r hr hc hb
        have hi : i < m.vertices := hl i (List.mem_cons_self _ _)
        have ht : ∀ j ∈ t, j < m.vertices := fun j hj => hl j (List.mem_cons_of_mem _ hj)
        simp only [List.foldl_cons]
        cases b with
        | true =>
          have : rbfsStep m (recursiveBFS m fuel) vertex (some (true, r)) i = some (true, r) := rfl
          rw [this]
          exact iht ht true r hr hc hb
        | false =>
          by_cases hedge : m.at vertex i ≠ 0
          · by_cases hsink : i = m.vertices - 1
            · have : rbfsStep m (recursiveBFS m fuel) vertex (some (false, r)) i
                  = some (true, r) := by
                dsimp only [rbfsStep]
                rw [if_pos hedge, if_pos hsink]
              rw [this]
              refine iht ht true r hr hc (fun _ => ?_)
              exact Relation.ReflTransGen.single ⟨hv, by omega, by rw [← hsink]; exact hedge⟩
            · by_cases hun : r.getD i false = false
              · have : rbfsStep m (recursiveBFS m fuel) vertex (some (false, r)) i
                    = recursiveBFS m fuel i r := by
                  dsimp only [rbfsStep]
                  rw [if_pos hedge, if_neg hsink, if_pos hun]
                rw [this]
                obtain ⟨b2, r2, h2, hlen2, hc2, hp2⟩ := ih i r hr hi hun (by omega)
                rw [h2]
                refine iht ht b2 r2 hlen2 (by omega) (fun hb2 => ?_)
                exact Relation.ReflTransGen.head ⟨hv, hi, hedge⟩ (hp2 hb2)
              · have : rbfsStep m (recursiveBFS m fuel) vertex (some (false, r)) i
                    = some (false, r) := by
                  dsimp only [rbfsStep]
                  rw [if_pos hedge, if_neg hsink, if_neg hun]
                rw [this]
                exact iht ht false r hr hc hb
          · have : rbfsStep m (recursiveBFS m fuel) vertex (some (false, r)) i
                = some (false, r) := by
              dsimp only [rbfsStep]
              rw [if_neg hedge]
            rw [this]
            exact iht ht false r hr hc hb
    obtain ⟨b', r', h1, h2, h3, h4⟩ := key (List.range m.vertices)
      (fun i hi => List.mem_range.mp hi) false (reachable.set vertex true)
      (by simpa using hlen) (Nat.le_refl _) (fun h => absurd h (by decide))
    exact ⟨b', r', h1, h2, by omega, h4⟩

end FlowNetworks

namespace FlowNetworks

/-! ## Counting the edges of a generated matrix -/

theorem edgeCount_put_ge (m : adjmatrix) (i j v : Nat) (hv : v ≠ 0) :
    edgeCount m ≤ edgeCount (m.put i j v) := by
  unfold edgeCount adjmatrix.put
  by_cases h : i * m.vertices + j < m.matrix.length
  · simp only
    rw [List.countP_set _ _ _ _ h]
    simp only [hv, ne_eq, not_false_eq_true, decide_True, if_true]
    split <;> omega
  · simp only
    rw [List.set_eq_of_length_le (by omega)]

theorem edgeCount_put_fresh (m : adjmatrix) (hwf : m.wellFormed) (i j v : Nat)
    (hi : i < m.vertices) (hj : j < m.vertices) (h0 : m.at i j = 0) (hv : v ≠ 0) :
    edgeCount (m.put i j v) = edgeCount m + 1 := by
  unfold edgeCount adjmatrix.put
  have hlt : i * m.vertices + j < m.matrix.length := by rw [hwf]; exact flat_lt hi hj
  simp only
  rw [List.countP_set _ _ _ _ hlt]
  have hget : m.matrix[i * m.vertices + j] = 0 := by
    unfold adjmatrix.at at h0
    rw [List.getD_eq_getElem _ _ hlt] at h0
    exact h0
  simp [hget, hv]

theorem GenWrites.edgeCount_le {n : Nat} {a b : adjmatrix} (h : GenWrites n a b) :
    edgeCount a ≤ edgeCount b := by
  induction h with
  | refl => exact Nat.le_refl _
  | step i j v _ _ _ _ hv _ ih =>
    exact Nat.le_trans ih (edgeCount_put_ge _ i j v (by omega))

theorem at_put_ne_zero {m : adjmatrix} (hwf : m.wellFormed) {u v u' v' x : Nat}
    (hu : u < m.vertices) (hv : v < m.vertices) (hv' : v' < m.vertices) (hx : x ≠ 0)
    (h : m.at u' v' ≠ 0) : (m.put u v x).at u' v' ≠ 0 := by
  rw [at_put hwf hu hv hv']
  split
  · exact hx
  · exact h

/-- A matrix whose first `k` rows each hold a nonzero entry has at least `k`
nonzero entries. -/
theorem rows_nonempty_count (m : adjmatrix) (hwf : m.wellFormed) :
    ∀ k, k ≤ m.vertices →
      (∀ i, i < k → ∃ j, j < m.vertices ∧ m.at i j ≠ 0) →
      k ≤ (m.matrix.take (k * m.vertices)).countP fun x => decide (x ≠ 0) := by
  intro k
  induction k with
  | zero => intro _ _; exact Nat.zero_le _
  | succ k ih =>
    intro hk hrows
    have h1 := ih (by omega) (fun i hi => hrows i (by omega))
    obtain ⟨j, hj, hne⟩ := hrows k (by omega)
    have hsplit : (k + 1) * m.vertices = k * m.vertices + m.vertices := by ring
    rw [hsplit, List.take_add, List.countP_append]
    have hlt : k * m.vertices + j < m.matrix.length := by
      rw [hwf]; exact flat_lt (by omega) hj
    have hmem : m.matrix[k * m.vertices + j] ∈ (m.matrix.drop (k * m.vertices)).take m.vertices := by
      apply List.getElem?_mem (n := j)
      rw [List.getElem?_take_of_lt hj, List.getElem?_drop, List.getElem?_eq_getElem hlt]
    have hpos : 0 < ((m.matrix.drop (k * m.vertices)).take m.vertices).countP
        fun x => decide (x ≠ 0) := by
      rw [List.countP_pos_iff]
      refine ⟨_, hmem, ?_⟩
      unfold adjmatrix.at at hne
      rw [List.getD_eq_getElem _ _ hlt] at hne
      simpa using hne
    omega

theorem rows_nonempty_edgeCount (m : adjmatrix) (hwf : m.wellFormed) (k : Nat)
    (hk : k ≤ m.vertices) (hrows : ∀ i, i < k → ∃ j, j < m.vertices ∧ m.at i j ≠ 0) :
    k ≤ edgeCount m := by
  have h := rows_nonempty_count m hwf k hk hrows
  have h2 : (m.matrix.take (k * m.vertices)).countP (fun x => decide (x ≠ 0)) ≤ edgeCount m :=
    (List.take_sublist _ _).countP_le _
  omega

theorem rowEmpty_false {m : adjmatrix} {i : Nat} (h : rowEmpty m i = false) :
    ∃ j, j < m.vertices ∧ m.at i j ≠ 0 := by
  unfold rowEmpty at h
  rw [List.all_eq_false] at h
  obtain ⟨j, hj, hp⟩ := h
  refine ⟨j, List.mem_range.mp hj, ?_⟩
  intro h0
  apply hp
  simp [h0]

/-- After the repair loop every row but the sink's holds a nonzero entry. -/
theorem forceRows_nonempty (rand : Nat → Nat) (n : Nat) (hn : 2 ≤ n) :
    ∀ (k : Nat) (s : genState), k ≤ n - 1 → s.flownet.vertices = n → s.flownet.wellFormed →
    (∀ i, i < k → ∃ j, j < n ∧
      ((List.range k).foldl (forceRow rand) s).flownet.at i j ≠ 0) ∧
    ((List.range k).foldl (forceRow rand) s).flownet.vertices = n ∧
    ((List.range k).foldl (forceRow rand) s).flownet.wellFormed := by
  intro k
  induction k with
  | zero =>
    intro s _ hv hwf
    exact ⟨fun i hi => absurd hi (Nat.not_lt_zero _), hv, hwf⟩
  | succ k ih =>
    intro s hk hv hwf
    obtain ⟨hrows, hv', hwf'⟩ := ih s (by omega) hv hwf
    rw [List.range_succ, List.foldl_append]
    simp only [List.foldl_cons, List.foldl_nil]
    generalize (List.range k).foldl (forceRow rand) s = t at hrows hv' hwf'
    have hcol : rand t.calls % (n - 1) + 1 < n := by
      have := Nat.mod_lt (rand t.calls) (show 0 < n - 1 by omega)
      omega
    unfold forceRow
    split
    · rename_i hemp
      refine ⟨fun i hi => ?_, by rw [put_vertices]; exact hv', put_wellFormed hwf' _ _ _⟩
      rw [hv']
      rcases Nat.lt_succ_iff_lt_or_eq.mp hi with hlt | rfl
      · obtain ⟨j, hj, hne⟩ := hrows i hlt
        exact ⟨j, hj, at_put_ne_zero hwf' (by omega) (by omega) (by omega)
          (by omega) hne⟩
      · refine ⟨_, hcol, ?_⟩
        rw [at_put_same hwf' (by omega) (by omega)]
        omega
    · rename_i hemp
      refine ⟨fun i hi => ?_, hv', hwf'⟩
      rcases Nat.lt_succ_iff_lt_or_eq.mp hi with hlt | rfl
      · exact hrows i hlt
      · have hf : rowEmpty t.flownet i = false := by
          cases hb : rowEmpty t.flownet i
          · rfl
          · exact absurd hb hemp
        obtain ⟨j, hj, hne⟩ := rowEmpty_false hf
        exact ⟨j, by omega, hne⟩

end FlowNetworks

namespace FlowNetworks

/-! ## One attempt of `generate_flow` -/

theorem placeCell_inv (rand : Nat → Nat) (n i j : Nat) (s : genState) (hi : i < n) (hj : j < n)
    (h : PlaceInv n i j s) : PlaceInv n i (j + 1) (placeCell rand i s j) := by
  have hc := capacity_range (rand (s.calls + 1))
  have hv := h.verts
  have hfresh : PlaceInv n i (j + 1)
      { flownet := s.flownet.put i j (rand (s.calls + 1) % MAX_EDGE_CAPACITY + 1)
        calls := s.calls + 2
        e := s.e + 1 } := by
    refine ⟨by rw [put_vertices]; exact hv, put_wellFormed h.wf _ _ _, ?_, ?_⟩
    · show s.e + 1 ≤ edgeCount (s.flownet.put i j _)
      rw [edgeCount_put_fresh s.flownet h.wf i j _ (by omega) (by omega)
        (h.zero i j hi hj (Or.inr ⟨rfl, Nat.le_refl _⟩)) (by omega)]
      have := h.count
      omega
    · intro i' j' hi' hj' hpos
      show (s.flownet.put i j _).at i' j' = 0
      rw [at_put_other (by omega) (by omega) (by omega)]
      exact h.zero i' j' hi' hj' (by omega)
  have hskip : ∀ c, PlaceInv n i (j + 1) { s with calls := c } :=
    fun c => ⟨hv, h.wf, h.count, fun i' j' hi' hj' hpos => h.zero i' j' hi' hj' (by omega)⟩
  unfold placeCell
  split
  · split
    · exact hfresh
    · exact hskip _
  · split
    · split
      · exact hfresh
      · exact hskip _
    · exact ⟨hv, h.wf, h.count, fun i' j' hi' hj' hpos => h.zero i' j' hi' hj' (by omega)⟩

theorem placeRow_inv (rand : Nat → Nat) (n i : Nat) (hi : i < n) :
    ∀ (k : Nat) (s : genState), 1 + k ≤ n → PlaceInv n i 1 s →
      PlaceInv n i (1 + k) ((List.range' 1 k).foldl (placeCell rand i) s) := by
  intro k
  induction k with
  | zero => intro s _ h; exact h
  | succ k ih =>
    intro s hk h
    rw [List.range'_1_concat, List.foldl_append]
    simp only [List.foldl_cons, List.foldl_nil]
    have := placeCell_inv rand n i (1 + k) _ hi (by omega) (ih s (by omega) h)
    rw [show 1 + (k + 1) = 1 + k + 1 by omega]
    exact this

theorem placeRows_inv (rand : Nat → Nat) (n : Nat) (hn : 1 ≤ n) :
    ∀ (r : Nat) (s : genState), r ≤ n → PlaceInv n 0 0 s →
      PlaceInv n r 0 ((List.range r).foldl
        (fun s i => (List.range' 1 (s.flownet.vertices - 1)).foldl (placeCell rand i) s) s) := by
  intro r
  induction r with
  | zero => intro s _ h; exact h
  | succ r ih =>
    intro s hr h
    rw [List.range_succ, List.foldl_append]
    simp only [List.foldl_cons, List.foldl_nil]
    have h1 := ih s (by omega) h
    generalize (List.range r).foldl
      (fun s i => (List.range' 1 (s.flownet.vertices - 1)).foldl (placeCell rand i) s) s = t at h1
    have h2 : PlaceInv n r 1 t :=
      ⟨h1.verts, h1.wf, h1.count, fun i' j' hi' hj' hpos => h1.zero i' j' hi' hj' (by omega)⟩
    rw [h1.verts]
    have h3 := placeRow_inv rand n r (by omega) (n - 1) t (by omega) h2
    exact ⟨h3.verts, h3.wf, h3.count, fun i' j' hi' hj' hpos => h3.zero i' j' hi' hj' (by omega)⟩

/-- Placement on an all-zero matrix leaves at least `e` nonzero entries. -/
theorem placeEdges_count (rand : Nat → Nat) (n : Nat) (hn : 1 ≤ n) (calls : Nat) :
    (placeEdges rand { flownet := zeroMatrix n, calls := calls, e := 0 }).e ≤
      edgeCount (placeEdges rand { flownet := zeroMatrix n, calls := calls, e := 0 }).flownet := by
  have h0 : PlaceInv n 0 0 { flownet := zeroMatrix n, calls := calls, e := 0 } :=
    ⟨rfl, zeroMatrix_wellFormed n, Nat.zero_le _, fun i' j' _ _ _ => zeroMatrix_at n i' j'⟩
  exact (placeRows_inv rand n hn (n - 1) _ (by omega) h0).count

/-- After one attempt the matrix holds at least `n - 1` nonzero entries, when
the attempt began on the all-zero matrix or on one that already held as many. -/
theorem attempt_count (rand : Nat → Nat) (n : Nat) (hn : 2 ≤ n) (s : genState)
    (hv : s.flownet.vertices = n) (hwf : s.flownet.wellFormed)
    (h : s.flownet = zeroMatrix n ∨ n - 1 ≤ edgeCount s.flownet) :
    n - 1 ≤ edgeCount (forceEdges rand (placeEdges rand { s with e := 0 })).flownet := by
  have hw1 : GenWrites n s.flownet (placeEdges rand { s with e := 0 }).flownet :=
    placeEdges_writes rand n s.flownet { s with e := 0 } hv GenWrites.refl
  have hv1 : (placeEdges rand { s with e := 0 }).flownet.vertices = n := by
    rw [hw1.vertices_eq, hv]
  have hwf1 := hw1.wellFormed hwf
  unfold forceEdges
  split
  · rw [hv1]
    obtain ⟨hrows, hv2, hwf2⟩ := forceRows_nonempty rand n hn (n - 1) _ (Nat.le_refl _) hv1 hwf1
    apply rows_nonempty_edgeCount _ hwf2 (n - 1) (by omega)
    intro i hi
    obtain ⟨j, hj, hne⟩ := hrows i hi
    exact ⟨j, by omega, hne⟩
  · rename_i hge
    rw [hv1] at hge
    rcases h with hz | hc
    · have := placeEdges_count rand n (by omega) s.calls
      have hs : ({ s with e := 0 } : genState) =
          { flownet := zeroMatrix n, calls := s.calls, e := 0 } := by rw [← hz]
      rw [hs]
      rw [hs] at hge
      omega
    · exact Nat.le_trans hc hw1.edgeCount_le

end FlowNetworks

namespace FlowNetworks

/-! ## The retry loop of `generate_flow` -/

/-- With fuel for the remaining attempts and for the depth of the
reachability check, the retry loop returns; it only performs allowed writes,
leaves a path from source to sink, and leaves at least `n - 1` nonzero entries
when it began on the all-zero matrix. -/
theorem generateLoop_spec (rand : Nat → Nat) (n depth : Nat) (hn : 2 ≤ n) (hd : n ≤ depth) :
    ∀ (fuel z : Nat) (s : genState), s.flownet.vertices = n → s.flownet.wellFormed →
    COP_OUT_LIMIT ≤ z + 1 + fuel →
    ∃ s', generateLoop rand depth fuel z s = some s' ∧
      GenWrites n s.flownet s'.flownet ∧
      s'.flownet.hasPath 0 (n - 1) ∧
      ((s.flownet = zeroMatrix n ∨ n - 1 ≤ edgeCount s.flownet) →
        n - 1 ≤ edgeCount s'.flownet) := by
  intro fuel
  induction fuel with
  | zero =>
    intro z s hv hwf hz
    have hw := attempt_writes rand n s hv
    have hv1 : (forceEdges rand (placeEdges rand { s with e := 0 })).flownet.vertices = n := by
      rw [hw.vertices_eq, hv]
    have hwf1 := hw.wellFormed hwf
    obtain ⟨b, r, hb, _, _, hpath⟩ := recursiveBFS_total
      (forceEdges rand (placeEdges rand { s with e := 0 })).flownet depth 0
      (List.replicate n false) (by simp [hv1]) (by omega) (getD_replicate _ _ _)
      (by simp; omega)
    rw [generateLoop.eq_def]
    simp only [hv1, hb]
    cases b with
    | true =>
      refine ⟨_, rfl, hw, ?_, fun h => attempt_count rand n hn s hv hwf h⟩
      rw [hasPath_iff_reflTransGen]
      have := hpath rfl
      rw [hv1] at this
      exact this
    | false =>
      have hz' : ¬ (z + 1 < COP_OUT_LIMIT) := by omega
      simp only [hz', if_false]
      have hc := capacity_range
        (rand (forceEdges rand (placeEdges rand { s with e := 0 })).calls)
      have hput : (adjmatrix.mk n ((forceEdges rand (placeEdges rand { s with e := 0 })).flownet.matrix.set
            (n - 1) (rand (forceEdges rand (placeEdges rand { s with e := 0 })).calls
              % MAX_EDGE_CAPACITY + 1))) =
          (forceEdges rand (placeEdges rand { s with e := 0 })).flownet.put 0 (n - 1)
            (rand (forceEdges rand (placeEdges rand { s with e := 0 })).calls
              % MAX_EDGE_CAPACITY + 1) := by
        simp [adjmatrix.put, hv1]
      refine ⟨_, rfl, ?_, ?_, fun h => ?_⟩
      · have h1 := GenWrites.step 0 (n - 1) _ hw (by omega) (by omega) (by omega) hc.1 hc.2
        rw [← hput] at h1
        exact h1
      · have h1 : adjmatrix.hasPath
            ((forceEdges rand (placeEdges rand { s with e := 0 })).flownet.put 0 (n - 1)
              (rand (forceEdges rand (placeEdges rand { s with e := 0 })).calls
                % MAX_EDGE_CAPACITY + 1)) 0 (n - 1) := by
          rw [hasPath_iff_reflTransGen]
          apply Relation.ReflTransGen.single
          refine ⟨by rw [put_vertices, hv1]; omega, by rw [put_vertices, hv1]; omega, ?_⟩
          rw [at_put_same hwf1 (by omega) (by omega)]
          omega
        rw [← hput] at h1
        exact h1
      · have h1 := Nat.le_trans (attempt_count rand n hn s hv hwf h)
          (edgeCount_put_ge (forceEdges rand (placeEdges rand { s with e := 0 })).flownet 0 (n - 1)
            (rand (forceEdges rand (placeEdges rand { s with e := 0 })).calls
                % MAX_EDGE_CAPACITY + 1) (by omega))
        rw [← hput] at h1
        exact h1
  | succ fuel ih =>
    intro z s hv hwf hz
    have hw := attempt_writes rand n s hv
    have hv1 : (forceEdges rand (placeEdges rand { s with e := 0 })).flownet.vertices = n := by
      rw [hw.vertices_eq, hv]
    have hwf1 := hw.wellFormed hwf
    obtain ⟨b, r, hb, _, _, hpath⟩ := recursiveBFS_total
      (forceEdges rand (placeEdges rand { s with e := 0 })).flownet depth 0
      (List.replicate n false) (by simp [hv1]) (by omega) (getD_replicate _ _ _)
      (by simp; omega)
    rw [generateLoop.eq_def]
    simp only [hv1, hb]
    cases b with
    | true =>
      refine ⟨_, rfl, hw, ?_, fun h => attempt_count rand n hn s hv hwf h⟩
      rw [hasPath_iff_reflTransGen]
      have := hpath rfl
      rw [hv1] at this
      exact this
    | false =>
      by_cases hz' : z + 1 < COP_OUT_LIMIT
      · simp only [hz', if_true]
        obtain ⟨s', hs', hw', hp', hc'⟩ := ih (z + 1) _ hv1 hwf1 (by omega)
        refine ⟨s', hs', hw.trans hw', hp', fun h => ?_⟩
        exact hc' (Or.inr (attempt_count rand n hn s hv hwf h))
      · simp only [hz', if_false]
        have hc := capacity_range
          (rand (forceEdges rand (placeEdges rand { s with e := 0 })).calls)
        have hput : (adjmatrix.mk n ((forceEdges rand (placeEdges rand { s with e := 0 })).flownet.matrix.set
              (n - 1) (rand (forceEdges rand (placeEdges rand { s with e := 0 })).calls
                % MAX_EDGE_CAPACITY + 1))) =
            (forceEdges rand (placeEdges rand { s with e := 0 })).flownet.put 0 (n - 1)
              (rand (forceEdges rand (placeEdges rand { s with e := 0 })).calls
                % MAX_EDGE_CAPACITY + 1) := by
          simp [adjmatrix.put, hv1]
        refine ⟨_, rfl, ?_, ?_, fun h => ?_⟩
        · have h1 := GenWrites.step 0 (n - 1) _ hw (by omega) (by omega) (by omega) hc.1 hc.2
          rw [← hput] at h1
          exact h1
        · have h1 : adjmatrix.hasPath
              ((forceEdges rand (placeEdges rand { s with e := 0 })).flownet.put 0 (n - 1)
                (rand (forceEdges rand (placeEdges rand { s with e := 0 })).calls
                  % MAX_EDGE_CAPACITY + 1)) 0 (n - 1) := by
            rw [hasPath_iff_reflTransGen]
            apply Relation.ReflTransGen.single
            refine ⟨by rw [put_vertices, hv1]; omega, by rw [put_vertices, hv1]; omega, ?_⟩
            rw [at_put_same hwf1 (by omega) (by omega)]
            omega
          rw [← hput] at h1
          exact h1
        · have h1 := Nat.le_trans (attempt_count rand n hn s hv hwf h)
            (edgeCount_put_ge (forceEdges rand (placeEdges rand { s with e := 0 })).flownet 0 (n - 1)
              (rand (forceEdges rand (placeEdges rand { s with e := 0 })).calls
                  % MAX_EDGE_CAPACITY + 1) (by omega))
          rw [← hput] at h1
          exact h1

/-- Function `generate_flow` on the all-zero `n x n` matrix returns a matrix
reached by allowed writes, with a path from source to sink and at least
`n - 1` nonzero entries. -/
theorem generate_flow_spec (rand : Nat → Nat) (n fuel : Nat) (hn : 2 ≤ n)
    (hf : n + COP_OUT_LIMIT ≤ fuel) :
    ∃ m, generate_flow rand fuel (zeroMatrix n) = some m ∧
      GenWrites n (zeroMatrix n) m ∧ m.hasPath 0 (n - 1) ∧ n - 1 ≤ edgeCount m := by
  obtain ⟨s', hs', hw, hp, hc⟩ := generateLoop_spec rand n fuel hn (by omega) fuel 0
    { flownet := zeroMatrix n, calls := 0, e := 0 } rfl (zeroMatrix_wellFormed n) (by omega)
  refine ⟨s'.flownet, ?_, hw, hp, hc (Or.inl rfl)⟩
  unfold generate_flow
  rw [hs']
  rfl

end FlowNetworks

namespace FlowNetworks

/-! ## What the allowed writes preserve -/

/-- Allowed writes never touch column 0 nor row `n - 1`. -/
theorem GenWrites.source_sink {n : Nat} {a b : adjmatrix} (h : GenWrites n a b)
    (hv : a.vertices = n) (hwf : a.wellFormed)
    (ha : ∀ i j, i < n → j < n → a.at i 0 = 0 ∧ a.at (n - 1) j = 0) :
    ∀ i j, i < n → j < n → b.at i 0 = 0 ∧ b.at (n - 1) j = 0 := by
  induction h with
  | refl => exact ha
  | @step m' i j v hw hi hj1 hj hv1 hv2 ih =>
    intro i' j' hi' hj'
    have hvm : m'.vertices = n := by rw [hw.vertices_eq, hv]
    have hwfm := hw.wellFormed hwf
    rw [at_put hwfm (by omega) (by omega) (by omega), at_put hwfm (by omega) (by omega) (by omega)]
    rw [if_neg (by omega), if_neg (by omega)]
    exact ih i' j' hi' hj'

/-- Allowed writes keep every entry either zero or within `1 .. MAX_EDGE_CAPACITY`. -/
theorem GenWrites.entries {n : Nat} {a b : adjmatrix} (h : GenWrites n a b)
    (hv : a.vertices = n) (hwf : a.wellFormed)
    (ha : ∀ i j, i < n → j < n → a.at i j ≠ 0 → 1 ≤ a.at i j ∧ a.at i j ≤ MAX_EDGE_CAPACITY) :
    ∀ i j, i < n → j < n → b.at i j ≠ 0 → 1 ≤ b.at i j ∧ b.at i j ≤ MAX_EDGE_CAPACITY := by
  induction h with
  | refl => exact ha
  | @step m' i j v hw hi hj1 hj hv1 hv2 ih =>
    intro i' j' hi' hj'
    have hvm : m'.vertices = n := by rw [hw.vertices_eq, hv]
    have hwfm := hw.wellFormed hwf
    rw [at_put hwfm (by omega) (by omega) (by omega)]
    by_cases hc : i = i' ∧ j = j'
    · rw [if_pos hc]
      exact fun _ => ⟨hv1, hv2⟩
    · rw [if_neg hc]
      exact ih i' j' hi' hj'

end FlowNetworks

namespace FlowNetworks

/-! ## The solver's reading loop: vertex count -/

theorem newVertices_eq_max (V s d : Nat) (h : s > V ∨ d > V) : newVertices V s d = max s d := by
  unfold newVertices
  split_ifs <;> omega

theorem parseEdge_vertices (P : adjmatrix) (e : Nat × Nat × Nat) :
    (parseEdge P e).vertices = max P.vertices (max e.1 e.2.1) := by
  unfold parseEdge
  rw [put_vertices]
  by_cases h : e.1 > P.vertices ∨ e.2.1 > P.vertices
  · rw [if_pos h]
    show newVertices P.vertices e.1 e.2.1 = _
    rw [newVertices_eq_max _ _ _ h]
    omega
  · rw [if_neg h]
    omega

theorem foldl_max_init (es : List (Nat × Nat × Nat)) :
    ∀ a, es.foldl (fun acc e => max acc (max e.1 e.2.1)) a = max a (maxIndex es) := by
  unfold maxIndex
  induction es with
  | nil => intro a; simp
  | cons e es ih =>
    intro a
    rw [List.foldl_cons, List.foldl_cons, ih, ih (max 0 (max e.1 e.2.1))]
    omega

theorem foldl_parseEdge_vertices (es : List (Nat × Nat × Nat)) :
    ∀ P : adjmatrix, (es.foldl parseEdge P).vertices = max P.vertices (maxIndex es) := by
  induction es with
  | nil => intro P; simp [maxIndex]
  | cons e es ih =>
    intro P
    rw [List.foldl_cons, ih, parseEdge_vertices]
    have h := foldl_max_init es (max 0 (max e.1 e.2.1))
    have h' : maxIndex (e :: es) = max (max 0 (max e.1 e.2.1)) (maxIndex es) := by
      rw [← h]; rfl
    rw [h']
    omega

theorem parseEdges_vertices_aux (edges : List (Nat × Nat × Nat)) :
    (parseEdges edges).vertices = max 5 (maxIndex edges) := by
  unfold parseEdges
  rw [foldl_parseEdge_vertices]
  rfl

end FlowNetworks

namespace FlowNetworks

/-! ## Resizing the solver's matrix -/

theorem getD_set (l : List Nat) (i p x : Nat) :
    (l.set i x).getD p 0 = if i = p ∧ p < l.length then x else l.getD p 0 := by
  by_cases h : i = p
  · subst h
    by_cases hl : i < l.length
    · simp [List.getD_eq_getElem?_getD, List.getElem?_set, hl]
    · have hnone : l[i]? = none := List.getElem?_eq_none (by omega)
      simp [List.getD_eq_getElem?_getD, List.getElem?_set, hl, hnone]
  · simp [List.getD_eq_getElem?_getD, List.getElem?_set, h]

theorem copyRow_eq (old : adjmatrix) (V1 : Nat) (M : List Nat) (i : Nat) :
    copyRow old V1 M i = (List.range old.vertices).foldl
      (fun acc k =>
        acc.set ((i * V1) % UINT + k) (old.matrix.getD (i * old.vertices + k) 0)) M := rfl

/-- A run of writes `l[base + k] = f k` for `k < V`. -/
theorem foldl_set_range (f : Nat → Nat) (base : Nat) (l : List Nat) :
    ∀ V : Nat,
      ((List.range V).foldl (fun acc k => acc.set (base + k) (f k)) l).length = l.length ∧
      ∀ p, ((List.range V).foldl (fun acc k => acc.set (base + k) (f k)) l).getD p 0 =
        if base ≤ p ∧ p < base + V ∧ p < l.length then f (p - base) else l.getD p 0 := by
  intro V
  induction V with
  | zero =>
    refine ⟨rfl, fun p => ?_⟩
    rw [if_neg (by omega)]
    rfl
  | succ V ih =>
    rw [List.range_succ, List.foldl_append]
    obtain ⟨hlen, hget⟩ := ih
    refine ⟨?_, fun p => ?_⟩
    · simp only [List.foldl_cons, List.foldl_nil, List.length_set]
      exact hlen
    · simp only [List.foldl_cons, List.foldl_nil]
      rw [getD_set, hlen, hget p]
      by_cases h1 : base + V = p
      · subst h1
        by_cases h2 : base + V < l.length
        · rw [if_pos ⟨rfl, h2⟩, if_pos ⟨by omega, by omega, h2⟩]
          congr 1
          omega
        · rw [if_neg (by omega), if_neg (by omega), if_neg (by omega)]
      · rw [if_neg (by omega)]
        by_cases h3 : base ≤ p ∧ p < base + V ∧ p < l.length
        · rw [if_pos h3, if_pos ⟨h3.1, by omega, h3.2.2⟩]
        · rw [if_neg h3, if_neg (by omega)]

/-- Rows `0 .. r - 1` copied into the zero-filled array of the new size. -/
theorem copyRows_getD (old : adjmatrix) (V1 : Nat) (hV : old.vertices ≤ V1)
    (hU : V1 * V1 < UINT) :
    ∀ r, r ≤ old.vertices →
      ((List.range r).foldl (copyRow old V1) (List.replicate (V1 * V1) 0)).length = V1 * V1 ∧
      ∀ a b, a < V1 → b < V1 →
        ((List.range r).foldl (copyRow old V1) (List.replicate (V1 * V1) 0)).getD (a * V1 + b) 0
          = if a < r ∧ b < old.vertices then old.matrix.getD (a * old.vertices + b) 0 else 0 := by
  intro r
  induction r with
  | zero =>
    intro _
    refine ⟨by simp, fun a b _ _ => ?_⟩
    rw [if_neg (by omega)]
    exact getD_replicate _ _ _
  | succ r ih =>
    intro hr
    obtain ⟨hlen, hget⟩ := ih (by omega)
    rw [List.range_succ, List.foldl_append]
    simp only [List.foldl_cons, List.foldl_nil]
    have hbase : (r * V1) % UINT = r * V1 := by
      apply Nat.mod_eq_of_lt
      have : r * V1 ≤ V1 * V1 := Nat.mul_le_mul_right V1 (by omega)
      omega
    obtain ⟨hlen2, hget2⟩ := foldl_set_range
      (fun k => old.matrix.getD (r * old.vertices + k) 0) ((r * V1) % UINT)
      ((List.range r).foldl (copyRow old V1) (List.replicate (V1 * V1) 0)) old.vertices
    refine ⟨?_, fun a b ha hb => ?_⟩
    · rw [copyRow_eq, hlen2, hlen]
    · rw [copyRow_eq, hget2, hbase, hlen, hget a b ha hb]
      have hflat := flat_lt ha (show b < V1 by omega)
      rcases Nat.lt_trichotomy a r with hlt | heq | hgt
      · have h1 : (a + 1) * V1 ≤ r * V1 := Nat.mul_le_mul_right V1 hlt
        have h2 : (a + 1) * V1 = a * V1 + V1 := by ring
        rw [if_neg (by omega)]
        by_cases hb' : b < old.vertices
        · rw [if_pos ⟨hlt, hb'⟩, if_pos ⟨by omega, hb'⟩]
        · rw [if_neg (by omega), if_neg (by omega)]
      · subst heq
        by_cases hb' : b < old.vertices
        · rw [if_pos ⟨by omega, by omega, hflat⟩, if_pos ⟨by omega, hb'⟩]
          show old.matrix.getD (a * old.vertices + (a * V1 + b - a * V1)) 0 = _
          congr 2
          omega
        · rw [if_neg (by omega), if_neg (by omega), if_neg (by omega)]
      · have h1 : (r + 1) * V1 ≤ a * V1 := Nat.mul_le_mul_right V1 hgt
        have h2 : (r + 1) * V1 = r * V1 + V1 := by ring
        rw [if_neg (by omega), if_neg (by omega), if_neg (by omega)]

/-- The resized matrix: the old entries in the top-left corner, zero elsewhere. -/
theorem growMatrix_at (old : adjmatrix) (V1 : Nat) (hV : old.vertices ≤ V1)
    (hU : V1 * V1 < UINT) :
    (growMatrix old V1).wellFormed ∧
    ∀ a b, a < V1 → b < V1 →
      (growMatrix old V1).at a b =
        if a < old.vertices ∧ b < old.vertices then old.at a b else 0 := by
  obtain ⟨hlen, hget⟩ := copyRows_getD old V1 hV hU old.vertices (Nat.le_refl _)
  have hmod : (V1 * V1) % UINT = V1 * V1 := Nat.mod_eq_of_lt hU
  refine ⟨?_, fun a b ha hb => ?_⟩
  · unfold adjmatrix.wellFormed growMatrix
    simp only
    rw [hmod]
    exact hlen
  · unfold adjmatrix.at growMatrix
    simp only
    rw [hmod]
    exact hget a b ha hb

end FlowNetworks

namespace FlowNetworks

/-! ## The solver's reading loop: entries -/

/-- One edge statement with indices in `1 .. B`: the rebuilt matrix holds the
capacity at `(source - 1, destination - 1)` and keeps every other entry. -/
theorem parseEdge_cell (P : adjmatrix) (s d c B : Nat) (hwf : P.wellFormed)
    (hB : B * B < UINT) (hs1 : 1 ≤ s) (hs : s ≤ B) (hd1 : 1 ≤ d)
    (hd : d ≤ B) :
    (parseEdge P (s, d, c)).wellFormed ∧
    ∀ i j,
      (if i < (parseEdge P (s, d, c)).vertices ∧ j < (parseEdge P (s, d, c)).vertices
        then (parseEdge P (s, d, c)).at i j else 0) =
      if s = i + 1 ∧ d = j + 1 then c
      else (if i < P.vertices ∧ j < P.vertices then P.at i j else 0) := by
  have hBU : B < UINT := by
    rcases Nat.eq_zero_or_pos B with h0 | hpos
    · omega
    · have : B * 1 ≤ B * B := Nat.mul_le_mul_left B hpos
      omega
  have hv := parseEdge_vertices P (s, d, c)
  simp only at hv
  -- the matrix before the store
  obtain ⟨G, hG, hGv, hGwf, hGat⟩ : ∃ G : adjmatrix,
      parseEdge P (s, d, c) = G.put (s - 1) (d - 1) c ∧
      G.vertices = max P.vertices (max s d) ∧ G.wellFormed ∧
      ∀ a b, a < G.vertices → b < G.vertices →
        G.at a b = if a < P.vertices ∧ b < P.vertices then P.at a b else 0 := by
    have hs' : (s + UINT - 1) % UINT = s - 1 := by
      have : s + UINT - 1 = (s - 1) + UINT := by omega
      rw [this, Nat.add_mod_right]
      exact Nat.mod_eq_of_lt (by omega)
    have hd' : (d + UINT - 1) % UINT = d - 1 := by
      have : d + UINT - 1 = (d - 1) + UINT := by omega
      rw [this, Nat.add_mod_right]
      exact Nat.mod_eq_of_lt (by omega)
    by_cases h : s > P.vertices ∨ d > P.vertices
    · have hnv := newVertices_eq_max P.vertices s d h
      have hle : P.vertices ≤ max s d := by omega
      have hU : max s d * max s d < UINT := by
        have h1 : max s d ≤ B := by omega
        have := Nat.mul_le_mul h1 h1
        omega
      obtain ⟨hwfG, hatG⟩ := growMatrix_at P (max s d) hle hU
      refine ⟨growMatrix P (max s d), ?_, ?_, hwfG, ?_⟩
      · unfold parseEdge
        simp only
        rw [if_pos h, hnv, hs', hd']
      · show max s d = _
        omega
      · exact hatG
    · refine ⟨P, ?_, by omega, hwf, ?_⟩
      · unfold parseEdge
        simp only
        rw [if_neg h, hs', hd']
      · intro a b ha hb
        rw [if_pos ⟨ha, hb⟩]
  rw [hG]
  refine ⟨put_wellFormed hGwf _ _ _, fun i j => ?_⟩
  rw [put_vertices]
  by_cases hij : i < G.vertices ∧ j < G.vertices
  · rw [if_pos hij, at_put hGwf (by omega) (by omega) hij.2, hGat i j hij.1 hij.2]
    by_cases hk : s = i + 1 ∧ d = j + 1
    · rw [if_pos hk, if_pos (by omega)]
    · rw [if_neg hk, if_neg (by omega)]
  · rw [if_neg hij, if_neg (by omega), if_neg (by omega)]

/-- The whole reading loop on statements with indices in `1 .. B`: every entry
of the rebuilt matrix is the capacity of the last statement naming it, or the
entry it began with. -/
theorem foldl_parseEdge_cell (B : Nat) (hB : B * B < UINT) (es : List (Nat × Nat × Nat)) :
    ∀ P : adjmatrix, P.wellFormed → P.vertices ≤ B →
    (∀ e ∈ es, 1 ≤ e.1 ∧ e.1 ≤ B ∧ 1 ≤ e.2.1 ∧ e.2.1 ≤ B) →
    (es.foldl parseEdge P).wellFormed ∧
    ∀ i j,
      (if i < (es.foldl parseEdge P).vertices ∧ j < (es.foldl parseEdge P).vertices
        then (es.foldl parseEdge P).at i j else 0) =
      es.foldl (fun acc e => if e.1 = i + 1 ∧ e.2.1 = j + 1 then e.2.2 else acc)
        (if i < P.vertices ∧ j < P.vertices then P.at i j else 0) := by
  induction es with
  | nil =>
    intro P hwf _ _
    exact ⟨hwf, fun i j => rfl⟩
  | cons e es ih =>
    intro P hwf hP hes
    obtain ⟨s, d, c⟩ := e
    have he := hes (s, d, c) (List.mem_cons_self _ _)
    simp only at he
    obtain ⟨hwf1, hcell1⟩ := parseEdge_cell P s d c B hwf hB he.1 he.2.1 he.2.2.1 he.2.2.2
    have hv1 : (parseEdge P (s, d, c)).vertices ≤ B := by
      rw [parseEdge_vertices]
      simp only
      omega
    obtain ⟨hwf2, hcell2⟩ := ih (parseEdge P (s, d, c)) hwf1 hv1
      (fun e he => hes e (List.mem_cons_of_mem _ he))
    rw [List.foldl_cons]
    refine ⟨hwf2, fun i j => ?_⟩
    rw [hcell2 i j, hcell1 i j, List.foldl_cons]

/-- The value a run of statements leaves for a key: the start value when no
statement has the key, else the capacity of a statement with the key. -/
theorem foldl_last (key : Nat × Nat × Nat → Prop) [DecidablePred key]
    (es : List (Nat × Nat × Nat)) :
    ∀ a : Nat,
      (es.foldl (fun acc e => if key e then e.2.2 else acc) a = a ∧ ∀ e ∈ es, ¬ key e) ∨
      ∃ e ∈ es, key e ∧ e.2.2 = es.foldl (fun acc e => if key e then e.2.2 else acc) a := by
  induction es with
  | nil => intro a; exact Or.inl ⟨rfl, fun _ h => absurd h (List.not_mem_nil _)⟩
  | cons e es ih =>
    intro a
    rw [List.foldl_cons]
    rcases ih (if key e then e.2.2 else a) with ⟨hx, hnone⟩ | ⟨e', he', hk, hval⟩
    · by_cases hke : key e
      · right
        refine ⟨e, List.mem_cons_self _ _, hke, ?_⟩
        rw [hx, if_pos hke]
      · left
        rw [if_neg hke] at hx
        rw [if_neg hke]
        refine ⟨hx, fun e' he' => ?_⟩
        rcases List.mem_cons.mp he' with rfl | h
        · exact hke
        · exact hnone e' h
    · right
      exact ⟨e', List.mem_cons_of_mem _ he', hk, hval⟩

end FlowNetworks

namespace FlowNetworks

/-! ## Emitting a matrix and reading it back -/

theorem mem_emitEdges (M : adjmatrix) (e : Nat × Nat × Nat) :
    e ∈ emitEdges M ↔
      ∃ i j, i < M.vertices ∧ j < M.vertices ∧ M.at i j ≠ 0 ∧ e = (i + 1, j + 1, M.at i j) := by
  unfold emitEdges
  rw [List.mem_flatMap]
  constructor
  · rintro ⟨i, hi, he⟩
    rw [List.mem_filterMap] at he
    obtain ⟨j, hj, hsome⟩ := he
    rw [List.mem_range] at hi hj
    by_cases h0 : M.at i j ≠ 0
    · rw [if_pos h0] at hsome
      exact ⟨i, j, hi, hj, h0, (Option.some.inj hsome).symm⟩
    · rw [if_neg h0] at hsome
      exact absurd hsome (by simp)
  · rintro ⟨i, j, hi, hj, h0, rfl⟩
    refine ⟨i, List.mem_range.mpr hi, ?_⟩
    rw [List.mem_filterMap]
    exact ⟨j, List.mem_range.mpr hj, by rw [if_pos h0]⟩

theorem maxIndex_le (B : Nat) (es : List (Nat × Nat × Nat))
    (h : ∀ e ∈ es, e.1 ≤ B ∧ e.2.1 ≤ B) : maxIndex es ≤ B := by
  unfold maxIndex
  apply foldl_preserves (fun x => x ≤ B) _ es 0 (Nat.zero_le _)
  intro b a ha hb
  have := h a ha
  show max b (max a.1 a.2.1) ≤ B
  omega

theorem le_maxIndex (es : List (Nat × Nat × Nat)) :
    ∀ e ∈ es, max e.1 e.2.1 ≤ maxIndex es := by
  induction es with
  | nil => intro e he; exact absurd he (List.not_mem_nil _)
  | cons x es ih =>
    intro e he
    have h := foldl_max_init es (max 0 (max x.1 x.2.1))
    have h' : maxIndex (x :: es) = max (max 0 (max x.1 x.2.1)) (maxIndex es) := by
      rw [← h]; rfl
    rw [h']
    rcases List.mem_cons.mp he with rfl | hmem
    · omega
    · have := ih e hmem
      omega

/-- Two square matrices of one size with the same entries are equal. -/
theorem adjmatrix_ext (A C : adjmatrix) (hA : A.wellFormed) (hC : C.wellFormed)
    (hv : A.vertices = C.vertices)
    (hat : ∀ i j, i < A.vertices → j < A.vertices → A.at i j = C.at i j) : A = C := by
  obtain ⟨n, la⟩ := A
  obtain ⟨n', lc⟩ := C
  simp only at hv
  subst hv
  unfold adjmatrix.wellFormed at hA hC
  simp only at hA hC hat
  congr 1
  apply List.ext_getElem (by rw [hA, hC])
  intro k h1 h2
  have hn : 0 < n := by
    rcases Nat.eq_zero_or_pos n with h0 | hpos
    · subst h0; simp at hA; subst hA; simp at h1
    · exact hpos
  have hk : k < n * n := by rw [← hA]; exact h1
  have hdiv : k / n < n := Nat.div_lt_of_lt_mul hk
  have hmod : k % n < n := Nat.mod_lt _ hn
  have := hat (k / n) (k % n) hdiv hmod
  unfold adjmatrix.at at this
  simp only at this
  rw [Nat.div_add_mod' k n] at this
  rw [List.getD_eq_getElem _ _ h1, List.getD_eq_getElem _ _ h2] at this
  exact this

/-- A path from the source to a different sink ends with an edge into the sink. -/
theorem hasPath_last_edge (M : adjmatrix) (t : Nat) (ht : 0 ≠ t) (h : M.hasPath 0 t) :
    ∃ u, u < M.vertices ∧ M.at u t ≠ 0 := by
  rw [hasPath_iff_reflTransGen] at h
  rcases Relation.ReflTransGen.cases_tail h with e | ⟨c, _, hc⟩
  · exact absurd e.symm ht
  · exact ⟨c, hc.1, hc.2.2⟩

/-- A square matrix of at least 5 vertices with a nonzero entry in its last
column is rebuilt exactly by the solver from the generator's edge statements. -/
theorem parse_emit (M : adjmatrix) (hwf : M.wellFormed) (h5 : 5 ≤ M.vertices)
    (hU : M.vertices * M.vertices < UINT)
    (hcol : ∃ u, u < M.vertices ∧ M.at u (M.vertices - 1) ≠ 0) :
    parseEdges (emitEdges M) = M := by
  have hvalid : ∀ e ∈ emitEdges M,
      1 ≤ e.1 ∧ e.1 ≤ M.vertices ∧ 1 ≤ e.2.1 ∧ e.2.1 ≤ M.vertices := by
    intro e he
    obtain ⟨i, j, hi, hj, _, rfl⟩ := (mem_emitEdges M e).mp he
    simp only
    omega
  have hmax : maxIndex (emitEdges M) = M.vertices := by
    apply Nat.le_antisymm
    · exact maxIndex_le _ _ fun e he => ⟨(hvalid e he).2.1, (hvalid e he).2.2.2⟩
    · obtain ⟨u, hu, hne⟩ := hcol
      have hmem : (u + 1, M.vertices - 1 + 1, M.at u (M.vertices - 1)) ∈ emitEdges M :=
        (mem_emitEdges M _).mpr ⟨u, M.vertices - 1, hu, by omega, hne, rfl⟩
      have := le_maxIndex _ _ hmem
      simp only at this
      omega
  have hvert : (parseEdges (emitEdges M)).vertices = M.vertices := by
    rw [parseEdges_vertices_aux, hmax]
    omega
  obtain ⟨hwfR, hcell⟩ := foldl_parseEdge_cell M.vertices hU (emitEdges M) (zeroMatrix 5)
    (zeroMatrix_wellFormed 5) h5 hvalid
  apply adjmatrix_ext _ _ hwfR hwf hvert
  intro i j hi hj
  have hvert' : (List.foldl parseEdge (zeroMatrix 5) (emitEdges M)).vertices = M.vertices :=
    hvert
  rw [hvert'] at hi hj
  have hc := hcell i j
  rw [hvert', if_pos ⟨hi, hj⟩] at hc
  have hstart : (if i < (zeroMatrix 5).vertices ∧ j < (zeroMatrix 5).vertices
      then (zeroMatrix 5).at i j else 0) = 0 := by
    rw [zeroMatrix_at]; simp
  rw [hstart] at hc
  show (List.foldl parseEdge (zeroMatrix 5) (emitEdges M)).at i j = M.at i j
  rw [hc]
  rcases foldl_last (fun e => e.1 = i + 1 ∧ e.2.1 = j + 1) (emitEdges M) 0 with
    ⟨hx, hnone⟩ | ⟨e, he, hk, hval⟩
  · rw [hx]
    by_contra hne
    have hmem : (i + 1, j + 1, M.at i j) ∈ emitEdges M :=
      (mem_emitEdges M _).mpr ⟨i, j, hi, hj, fun h => hne h.symm, rfl⟩
    exact hnone _ hmem ⟨rfl, rfl⟩
  · rw [← hval]
    obtain ⟨i', j', _, _, _, rfl⟩ := (mem_emitEdges M e).mp he
    simp only at hk ⊢
    obtain ⟨h1, h2⟩ := hk
    have : i' = i := by omega
    have : j' = j := by omega
    subst_vars
    rfl

end FlowNetworks

namespace FlowNetworks

/-! ## The generator's postconditions -/

/-- C11: for every vertex count n in [5,15] and every sequence of values of
rand(), generate_flow on the all-zero n x n matrix returns, and the matrix it
leaves has no edge into the source and no edge out of the sink:
matrix[i][0] = 0 and matrix[n-1][j] = 0 for all i, j below n. -/
theorem generate_flow_source_sink (rand : Nat → Nat) (n fuel : Nat)
    (hn : 5 ≤ n ∧ n ≤ 15) (hf : n + COP_OUT_LIMIT ≤ fuel) :
    ∃ m, generate_flow rand fuel (zeroMatrix n) = some m ∧
      ∀ i j, i < n → j < n → m.at i 0 = 0 ∧ m.at (n - 1) j = 0 := by
  obtain ⟨m, hm, hw, _, _⟩ := generate_flow_spec rand n fuel (by omega) hf
  exact ⟨m, hm, hw.source_sink rfl (zeroMatrix_wellFormed n)
    (fun _ _ _ _ => ⟨zeroMatrix_at _ _ _, zeroMatrix_at _ _ _⟩)⟩

theorem generate_flow_source_sink_witness :
    (5 ≤ 5 ∧ 5 ≤ 15) ∧ 5 + COP_OUT_LIMIT ≤ 10 ∧
    ∃ m, generate_flow (fun _ => 41) 10 (zeroMatrix 5) = some m ∧
      ∀ i j, i < 5 → j < 5 → m.at i 0 = 0 ∧ m.at (5 - 1) j = 0 :=
  ⟨by decide, by decide, generate_flow_source_sink (fun _ => 41) 5 10 (by decide) (by decide)⟩

/-- C12: for every vertex count n in [5,15] and every sequence of values of
rand(), the matrix generate_flow leaves on the all-zero n x n matrix has at
least n-1 nonzero entries. -/
theorem generate_flow_edge_count (rand : Nat → Nat) (n fuel : Nat)
    (hn : 5 ≤ n ∧ n ≤ 15) (hf : n + COP_OUT_LIMIT ≤ fuel) :
    ∃ m, generate_flow rand fuel (zeroMatrix n) = some m ∧ n - 1 ≤ edgeCount m := by
  obtain ⟨m, hm, _, _, hc⟩ := generate_flow_spec rand n fuel (by omega) hf
  exact ⟨m, hm, hc⟩

theorem generate_flow_edge_count_witness :
    (5 ≤ 6 ∧ 6 ≤ 15) ∧ 6 + COP_OUT_LIMIT ≤ 11 ∧
    ∃ m, generate_flow (fun k => 7 * k + 3) 11 (zeroMatrix 6) = some m ∧ 6 - 1 ≤ edgeCount m :=
  ⟨by decide, by decide,
    generate_flow_edge_count (fun k => 7 * k + 3) 6 11 (by decide) (by decide)⟩

/-- C13: for every vertex count n in [5,15] and every sequence of values of
rand(), generate_flow on the all-zero n x n matrix halts (with fuel for its
at most COP_OUT_LIMIT attempts and the depth n of the reachability check) and
the matrix it leaves has a directed path of nonzero entries from vertex 0 to
vertex n-1. -/
theorem generate_flow_halts_with_path (rand : Nat → Nat) (n fuel : Nat)
    (hn : 5 ≤ n ∧ n ≤ 15) (hf : n + COP_OUT_LIMIT ≤ fuel) :
    ∃ m, generate_flow rand fuel (zeroMatrix n) = some m ∧ m.vertices = n ∧
      m.hasPath 0 (n - 1) := by
  obtain ⟨m, hm, hw, hp, _⟩ := generate_flow_spec rand n fuel (by omega) hf
  exact ⟨m, hm, hw.vertices_eq, hp⟩

theorem generate_flow_halts_with_path_witness :
    (5 ≤ 15 ∧ 15 ≤ 15) ∧ 15 + COP_OUT_LIMIT ≤ 20 ∧
    ∃ m, generate_flow (fun _ => 99) 20 (zeroMatrix 15) = some m ∧ m.vertices = 15 ∧
      m.hasPath 0 (15 - 1) :=
  ⟨by decide, by decide,
    generate_flow_halts_with_path (fun _ => 99) 15 20 (by decide) (by decide)⟩

/-- C14: for every vertex count n in [5,15] and every sequence of values of
rand(), every nonzero entry of the matrix generate_flow leaves on the all-zero
n x n matrix lies in [1, MAX_EDGE_CAPACITY] = [1, 20]. -/
theorem generate_flow_capacity_range (rand : Nat → Nat) (n fuel : Nat)
    (hn : 5 ≤ n ∧ n ≤ 15) (hf : n + COP_OUT_LIMIT ≤ fuel) :
    MAX_EDGE_CAPACITY = 20 ∧
    ∃ m, generate_flow rand fuel (zeroMatrix n) = some m ∧
      ∀ i j, i < n → j < n → m.at i j ≠ 0 → 1 ≤ m.at i j ∧ m.at i j ≤ MAX_EDGE_CAPACITY := by
  obtain ⟨m, hm, hw, _, _⟩ := generate_flow_spec rand n fuel (by omega) hf
  refine ⟨rfl, m, hm, hw.entries rfl (zeroMatrix_wellFormed n) ?_⟩
  intro i j _ _ h
  exact absurd (zeroMatrix_at n i j) h

theorem generate_flow_capacity_range_witness :
    (5 ≤ 7 ∧ 7 ≤ 15) ∧ 7 + COP_OUT_LIMIT ≤ 12 ∧
    (MAX_EDGE_CAPACITY = 20 ∧
    ∃ m, generate_flow (fun k => k * k) 12 (zeroMatrix 7) = some m ∧
      ∀ i j, i < 7 → j < 7 → m.at i j ≠ 0 → 1 ≤ m.at i j ∧ m.at i j ≤ MAX_EDGE_CAPACITY) :=
  ⟨by decide, by decide,
    generate_flow_capacity_range (fun k => k * k) 7 12 (by decide) (by decide)⟩

end FlowNetworks

namespace FlowNetworks

/-! ## Vertex counts: what the generator picks, what the solver infers -/

/-- C15, as stated, fails: no value of rand() makes the generator choose 15
vertices. -/
theorem chooseVertices_never_15 : ¬ ∃ r, chooseVertices r = 15 := by
  rintro ⟨r, h⟩
  unfold chooseVertices at h
  omega

/-- C15, amended: the set of vertex counts the generator can choose is exactly
[5,14]: a count n is (r % 10) + 5 for some value r of rand() if and only if
5 <= n <= 14. -/
theorem chooseVertices_range (n : Nat) : (∃ r, chooseVertices r = n) ↔ 5 ≤ n ∧ n ≤ 14 := by
  unfold chooseVertices
  constructor
  · rintro ⟨r, h⟩
    omega
  · intro h
    exact ⟨n - 5, by omega⟩

theorem chooseVertices_range_witness : (∃ r, chooseVertices r = 14) ↔ 5 ≤ 14 ∧ 14 ≤ 14 :=
  chooseVertices_range 14

/-- The reading loop on the single edge statement 65536 -> 1: the cell count
65536 * 65536 is 0 as an `unsigned int`, and the loop ends with 65536 vertices
on an array without cells. -/
theorem parseEdges_wide_index :
    (parseEdges [(65536, 1, 7)]).vertices = 65536 ∧
    (parseEdges [(65536, 1, 7)]).matrix.length = 0 := by
  decide

end FlowNetworks

namespace FlowNetworks

/-! ## Round trip between generator and solver -/

/-- C16: for every vertex count the generator picks ((r % 10) + 5 for a value
r of rand()) and every further sequence of values of rand(), generate_flow
returns a matrix M, and the edge statements the generator emits for M (one
triple (i+1, j+1, M[i][j]) per nonzero entry, row-major), fed one by one to the
solver's reading loop from the 5 x 5 zero matrix, give a matrix with the vertex
count of M and the entries of M. -/
theorem generator_solver_round_trip (rand : Nat → Nat) (r fuel : Nat)
    (hf : chooseVertices r + COP_OUT_LIMIT ≤ fuel) :
    ∃ M, generate_flow rand fuel (zeroMatrix (chooseVertices r)) = some M ∧
      (parseEdges (emitEdges M)).vertices = M.vertices ∧
      (∀ i j, (parseEdges (emitEdges M)).at i j = M.at i j) ∧
      parseEdges (emitEdges M) = M := by
  have hn : 5 ≤ chooseVertices r ∧ chooseVertices r ≤ 14 := by
    unfold chooseVertices
    omega
  obtain ⟨M, hM, hw, hp, _⟩ := generate_flow_spec rand (chooseVertices r) fuel (by omega) hf
  have hv : M.vertices = chooseVertices r := hw.vertices_eq
  have hwf := hw.wellFormed (zeroMatrix_wellFormed _)
  have hU : M.vertices * M.vertices < UINT := by
    have h1 : M.vertices ≤ 14 := by omega
    have := Nat.mul_le_mul h1 h1
    unfold UINT
    omega
  have hcol : ∃ u, u < M.vertices ∧ M.at u (M.vertices - 1) ≠ 0 := by
    rw [hv]
    have := hasPath_last_edge M (chooseVertices r - 1) (by omega) hp
    rw [hv] at this
    exact this
  have heq := parse_emit M hwf (by omega) hU hcol
  refine ⟨M, hM, by rw [heq], fun i j => by rw [heq], heq⟩

theorem generator_solver_round_trip_witness :
    chooseVertices 3 + COP_OUT_LIMIT ≤ 13 ∧
    ∃ M, generate_flow (fun k => 13 * k + 5) 13 (zeroMatrix (chooseVertices 3)) = some M ∧
      (parseEdges (emitEdges M)).vertices = M.vertices ∧
      (∀ i j, (parseEdges (emitEdges M)).at i j = M.at i j) ∧
      parseEdges (emitEdges M) = M :=
  ⟨by decide, generator_solver_round_trip (fun k => 13 * k + 5) 3 13 (by decide)⟩

end FlowNetworks

namespace EditDistance

/-! ## The table of prefix distances and the standard recurrence -/

theorem levenshteinSpec_cons_cons (a b : Nat) (s t : List Nat) :
    levenshteinSpec (a :: s) (b :: t) =
      min (levenshteinSpec s (b :: t) + 1)
        (min (levenshteinSpec (a :: s) t + 1)
          (levenshteinSpec s t + if a = b then 0 else 1)) := rfl

theorem levenshteinSpec_nil_right (s : List Nat) : levenshteinSpec s [] = s.length := by
  cases s <;> rfl

theorem levenshteinSpec_nil_left (t : List Nat) : levenshteinSpec [] t = t.length := rfl

theorem levenshteinSpec_delete (a : Nat) (s t : List Nat) :
    levenshteinSpec (a :: s) t ≤ levenshteinSpec s t + 1 := by
  cases t with
  | nil => rw [levenshteinSpec_nil_right, levenshteinSpec_nil_right]; simp
  | cons b t => rw [levenshteinSpec_cons_cons]; omega

theorem levenshteinSpec_insert (b : Nat) (s t : List Nat) :
    levenshteinSpec s (b :: t) ≤ levenshteinSpec s t + 1 := by
  cases s with
  | nil => rw [levenshteinSpec_nil_left, levenshteinSpec_nil_left]; simp
  | cons a s => rw [levenshteinSpec_cons_cons]; omega

theorem levenshteinSpec_substitute (a b : Nat) (s t : List Nat) :
    levenshteinSpec (a :: s) (b :: t) ≤ levenshteinSpec s t + if a = b then 0 else 1 := by
  rw [levenshteinSpec_cons_cons]; omega

theorem drop_cons_getD (s : List Nat) (i : Nat) (h : i < s.length) :
    s.drop i = s.getD i 0 :: s.drop (i + 1) := by
  rw [List.getD_eq_getElem _ _ h]
  exact List.drop_eq_getElem_cons h

theorem prefixDistance_succ_succ (s t : List Nat) (i j : Nat) :
    prefixDistance s t (i + 1) (j + 1) =
      min (prefixDistance s t i (j + 1) + 1)
        (min (prefixDistance s t (i + 1) j + 1)
          (prefixDistance s t i j + if s.getD i 0 = t.getD j 0 then 0 else 1)) := rfl

theorem prefixDistance_zero_left (s t : List Nat) (j : Nat) : prefixDistance s t 0 j = j := rfl

theorem prefixDistance_zero_right (s t : List Nat) (i : Nat) : prefixDistance s t i 0 = i := by
  cases i <;> rfl

theorem prefixDistance_down (s t : List Nat) (i j : Nat) :
    prefixDistance s t (i + 1) j ≤ prefixDistance s t i j + 1 := by
  cases j with
  | zero => rw [prefixDistance_zero_right, prefixDistance_zero_right]
  | succ j => rw [prefixDistance_succ_succ]; omega

theorem prefixDistance_right (s t : List Nat) (i j : Nat) :
    prefixDistance s t i (j + 1) ≤ prefixDistance s t i j + 1 := by
  cases i with
  | zero => rw [prefixDistance_zero_left, prefixDistance_zero_left]
  | succ i => rw [prefixDistance_succ_succ]; omega

theorem prefixDistance_diag (s t : List Nat) (i j : Nat) :
    prefixDistance s t (i + 1) (j + 1) ≤
      prefixDistance s t i j + if s.getD i 0 = t.getD j 0 then 0 else 1 := by
  rw [prefixDistance_succ_succ]; omega

/-- Every table entry is at most the longer of the two prefixes. -/
theorem prefixDistance_le_max (s t : List Nat) :
    ∀ i j, prefixDistance s t i j ≤ max i j := by
  intro i
  induction i with
  | zero => intro j; rw [prefixDistance_zero_left]; omega
  | succ i ih =>
    intro j
    cases j with
    | zero => rw [prefixDistance_zero_right]; omega
    | succ j =>
      have h1 := prefixDistance_diag s t i j
      have h2 := ih j
      split_ifs at h1 <;> omega

/-- The distance of the whole strings is at most a table entry plus the
distance of the remaining suffixes. -/
theorem levenshteinSpec_le_table_add_suffix (s t : List Nat) :
    ∀ i j, i ≤ s.length → j ≤ t.length →
      levenshteinSpec s t ≤
        prefixDistance s t i j + levenshteinSpec (s.drop i) (t.drop j) := by
  intro i
  induction i with
  | zero =>
    intro j
    induction j with
    | zero => intro _ _; simp [prefixDistance_zero_left]
    | succ j ihj =>
      intro hi hj
      have h := ihj hi (by omega)
      rw [drop_cons_getD t j (by omega)] at h
      have h2 := levenshteinSpec_insert (t.getD j 0) (s.drop 0) (t.drop (j + 1))
      rw [prefixDistance_zero_left] at h ⊢
      omega
  | succ i ih =>
    intro j
    induction j with
    | zero =>
      intro hi hj
      have h := ih 0 (by omega) hj
      rw [drop_cons_getD s i (by omega)] at h
      have h2 := levenshteinSpec_delete (s.getD i 0) (s.drop (i + 1)) (t.drop 0)
      rw [prefixDistance_zero_right] at h ⊢
      omega
    | succ j ihj =>
      intro hi hj
      have hA := ih (j + 1) (by omega) hj
      have hB := ihj hi (by omega)
      have hC := ih j (by omega) (by omega)
      rw [drop_cons_getD s i (by omega)] at hA
      rw [drop_cons_getD t j (by omega)] at hB
      rw [drop_cons_getD s i (by omega), drop_cons_getD t j (by omega)] at hC
      have eA := levenshteinSpec_delete (s.getD i 0) (s.drop (i + 1)) (t.drop (j + 1))
      have eB := levenshteinSpec_insert (t.getD j 0) (s.drop (i + 1)) (t.drop (j + 1))
      have eC := levenshteinSpec_substitute (s.getD i 0) (t.getD j 0) (s.drop (i + 1))
        (t.drop (j + 1))
      rw [prefixDistance_succ_succ]
      split_ifs at eC ⊢ <;> omega

/-- The last table entry is at most a table entry plus the distance of the
remaining suffixes. -/
theorem table_le_table_add_suffix (s t : List Nat) :
    ∀ a b, a ≤ s.length → b ≤ t.length →
      prefixDistance s t s.length t.length ≤
        prefixDistance s t (s.length - a) (t.length - b) +
          levenshteinSpec (s.drop (s.length - a)) (t.drop (t.length - b)) := by
  intro a
  induction a with
  | zero =>
    intro b
    induction b with
    | zero => intro _ _; simp
    | succ b ihb =>
      intro ha hb
      have h := ihb ha (by omega)
      have hj : t.length - b = (t.length - (b + 1)) + 1 := by omega
      rw [hj] at h
      have e := prefixDistance_right s t (s.length - 0) (t.length - (b + 1))
      rw [drop_cons_getD t (t.length - (b + 1)) (by omega)]
      simp only [Nat.sub_zero, List.drop_length, levenshteinSpec_nil_left, List.length_cons,
        List.length_drop] at h e ⊢
      omega
  | succ a ih =>
    intro b
    induction b with
    | zero =>
      intro ha hb
      have hi : s.length - a = (s.length - (a + 1)) + 1 := by omega
      have h := ih 0 (by omega) hb
      rw [hi] at h
      have e := prefixDistance_down s t (s.length - (a + 1)) (t.length - 0)
      rw [drop_cons_getD s (s.length - (a + 1)) (by omega)]
      simp only [Nat.sub_zero, List.drop_length, levenshteinSpec_nil_right, List.length_cons,
        List.length_drop] at h e ⊢
      omega
    | succ b ihb =>
      intro ha hb
      have hi : s.length - a = (s.length - (a + 1)) + 1 := by omega
      have hj : t.length - b = (t.length - (b + 1)) + 1 := by omega
      have hA := ih (b + 1) (by omega) hb
      have hB := ihb ha (by omega)
      have hC := ih b (by omega) (by omega)
      rw [hi] at hA hC
      rw [hj] at hB hC
      have eA := prefixDistance_down s t (s.length - (a + 1)) (t.length - (b + 1))
      have eB := prefixDistance_right s t (s.length - (a + 1)) (t.length - (b + 1))
      have eC := prefixDistance_diag s t (s.length - (a + 1)) (t.length - (b + 1))
      rw [drop_cons_getD s (s.length - (a + 1)) (by omega),
        drop_cons_getD t (t.length - (b + 1)) (by omega), levenshteinSpec_cons_cons]
      rw [← drop_cons_getD s (s.length - (a + 1)) (by omega),
        ← drop_cons_getD t (t.length - (b + 1)) (by omega)]
      split_ifs at eC ⊢ <;> omega

/-- The last entry of the table of prefix distances is the Levenshtein
distance of the standard recurrence. -/
theorem prefixDistance_eq_levenshteinSpec (s t : List Nat) :
    prefixDistance s t s.length t.length = levenshteinSpec s t := by
  apply Nat.le_antisymm
  · have h := table_le_table_add_suffix s t s.length t.length (Nat.le_refl _) (Nat.le_refl _)
    simp only [Nat.sub_self, List.drop_zero, prefixDistance_zero_left] at h
    omega
  · have h := levenshteinSpec_le_table_add_suffix s t s.length t.length (Nat.le_refl _)
      (Nat.le_refl _)
    simp only [List.drop_length, levenshteinSpec_nil_left, List.length_nil] at h
    omega

end EditDistance

namespace EditDistance

/-! ## The two-row loop computes the table of prefix distances -/

theorem toInt_eq (x : Int) (h1 : -(2 ^ 31) ≤ x) (h2 : x < 2 ^ 31) : toInt x = x := by
  unfold toInt
  omega

theorem getD_set_int (l : List Int) (i p : Nat) (x : Int) :
    (l.set i x).getD p 0 = if i = p ∧ p < l.length then x else l.getD p 0 := by
  by_cases h : i = p
  · subst h
    by_cases hl : i < l.length
    · simp [List.getD_eq_getElem?_getD, List.getElem?_set, hl]
    · have hnone : l[i]? = none := List.getElem?_eq_none (by omega)
      simp [List.getD_eq_getElem?_getD, List.getElem?_set, hl, hnone]
  · simp [List.getD_eq_getElem?_getD, List.getElem?_set, h]

/-- The value `cellStep` stores is the next table entry. -/
theorem cellStep_value (s1 s2 : List Nat) (i j : Nat) (hi : i + 2 < 2 ^ 31)
    (hj : j + 2 < 2 ^ 31) (prevRow curRow : List Int)
    (hp1 : prevRow.getD (j + 1) 0 = prefixDistance s1 s2 i (j + 1))
    (hp0 : prevRow.getD j 0 = prefixDistance s1 s2 i j)
    (hc : curRow.getD j 0 = prefixDistance s1 s2 (i + 1) j) :
    cellStep s1 s2 i prevRow curRow j =
      curRow.set (j + 1) (prefixDistance s1 s2 (i + 1) (j + 1) : Nat) := by
  unfold cellStep
  simp only
  have b1 := prefixDistance_le_max s1 s2 i (j + 1)
  have b2 := prefixDistance_le_max s1 s2 i j
  have b3 := prefixDistance_le_max s1 s2 (i + 1) j
  rw [hp1, hp0, hc]
  rw [toInt_eq _ (by omega) (by omega), toInt_eq _ (by omega) (by omega),
    toInt_eq _ (by omega) (by omega), prefixDistance_succ_succ]
  congr 1
  by_cases he : s1.getD i 0 = s2.getD j 0
  · rw [if_pos he, if_pos he]
    push_cast
    split_ifs <;> omega
  · rw [if_neg he, if_neg he]
    push_cast
    split_ifs <;> omega

/-- The inner loop fills the row of `i + 1` from the row of `i`. -/
theorem cellLoop_spec (s1 s2 : List Nat) (i n2 : Nat) (hi : i + 2 < 2 ^ 31)
    (hn2 : n2 + 1 < 2 ^ 31) (prevRow : List Int)
    (hprev : ∀ k, k ≤ n2 → prevRow.getD k 0 = prefixDistance s1 s2 i k)
    (cur0 : List Int) (hlen : cur0.length = n2 + 1) (h0 : cur0.getD 0 0 = ((i + 1 : Nat) : Int)) :
    ∀ J, J ≤ n2 →
      ((List.range J).foldl (cellStep s1 s2 i prevRow) cur0).length = n2 + 1 ∧
      ∀ k, k ≤ J →
        ((List.range J).foldl (cellStep s1 s2 i prevRow) cur0).getD k 0 =
          prefixDistance s1 s2 (i + 1) k := by
  intro J
  induction J with
  | zero =>
    intro _
    refine ⟨hlen, fun k hk => ?_⟩
    have : k = 0 := by omega
    subst this
    rw [prefixDistance_zero_right]
    exact h0
  | succ J ih =>
    intro hJ
    obtain ⟨hl, hget⟩ := ih (by omega)
    rw [List.range_succ, List.foldl_append]
    simp only [List.foldl_cons, List.foldl_nil]
    rw [cellStep_value s1 s2 i J hi (by omega) prevRow _ (hprev _ hJ) (hprev _ (by omega))
      (hget J (Nat.le_refl _))]
    refine ⟨by rw [List.length_set]; exact hl, fun k hk => ?_⟩
    rw [getD_set_int, hl]
    by_cases hkJ : J + 1 = k
    · rw [if_pos ⟨hkJ, by omega⟩, ← hkJ]
    · rw [if_neg (by omega)]
      exact hget k (by omega)

/-- The outer loop: after `I` rows `prevRow` holds row `I` of the table. -/
theorem rowLoop_spec (s1 s2 : List Nat) (n2 : Nat) (hn2 : n2 + 1 < 2 ^ 31)
    (rows0 : List Int × List Int) (hlen1 : rows0.1.length = n2 + 1)
    (hlen2 : rows0.2.length = n2 + 1)
    (h0 : ∀ k, k ≤ n2 → rows0.1.getD k 0 = prefixDistance s1 s2 0 k) :
    ∀ I, I + 1 < 2 ^ 31 →
      ((List.range I).foldl (rowStep s1 s2 (n2 : Int)) rows0).1.length = n2 + 1 ∧
      ((List.range I).foldl (rowStep s1 s2 (n2 : Int)) rows0).2.length = n2 + 1 ∧
      ∀ k, k ≤ n2 →
        ((List.range I).foldl (rowStep s1 s2 (n2 : Int)) rows0).1.getD k 0 =
          prefixDistance s1 s2 I k := by
  intro I
  induction I with
  | zero => intro _; exact ⟨hlen1, hlen2, h0⟩
  | succ I ih =>
    intro hI
    obtain ⟨hl1, hl2, hget⟩ := ih (by omega)
    rw [List.range_succ, List.foldl_append]
    simp only [List.foldl_cons, List.foldl_nil]
    unfold rowStep
    simp only [Int.toNat_ofNat]
    have hcur0 : (((List.range I).foldl (rowStep s1 s2 (n2 : Int)) rows0).2.set 0
        (toInt ((I : Int) + 1))).getD 0 0 = ((I + 1 : Nat) : Int) := by
      rw [getD_set_int, if_pos ⟨rfl, by omega⟩, toInt_eq _ (by omega) (by omega)]
      push_cast
      rfl
    obtain ⟨hl, hg⟩ := cellLoop_spec s1 s2 I n2 hI hn2 _ hget _
      (by rw [List.length_set]; exact hl2) hcur0 n2 (Nat.le_refl _)
    exact ⟨hl, hl1, hg⟩

theorem getD_map_range (f : Nat → Int) (n k : Nat) (h : k < n) :
    ((List.range n).map f).getD k 0 = f k := by
  rw [List.getD_eq_getElem _ _ (by simpa using h)]
  simp

/-- For strings shorter than `2^31 - 1` the function returns the last entry of
the table of prefix distances. -/
theorem editDistance_eq_prefixDistance (s1 s2 : List Nat) (h1 : s1.length + 1 < 2 ^ 31)
    (h2 : s2.length + 1 < 2 ^ 31) :
    editDistance s1 s2 = (prefixDistance s1 s2 s1.length s2.length : Nat) := by
  unfold editDistance
  simp only
  rw [toInt_eq (s1.length : Int) (by omega) (by omega),
    toInt_eq (s2.length : Int) (by omega) (by omega)]
  have hn : ((s2.length : Int) + 1).toNat = s2.length + 1 := by omega
  rw [hn]
  simp only [Int.toNat_ofNat]
  have hinit : ∀ k, k ≤ s2.length →
      ((List.range (s2.length + 1)).map fun (i : Nat) => toInt (i : Int)).getD k 0 =
        prefixDistance s1 s2 0 k := by
    intro k hk
    rw [prefixDistance_zero_left, getD_map_range _ _ _ (by omega)]
    exact toInt_eq _ (by omega) (by omega)
  have h := rowLoop_spec s1 s2 s2.length h2
    ((List.range (s2.length + 1)).map fun (i : Nat) => toInt (i : Int),
      List.replicate (s2.length + 1) (0 : Int))
    (by simp) (by simp) hinit s1.length h1
  exact h.2.2 s2.length (Nat.le_refl _)

end EditDistance

namespace EditDistance

/-! ## The standard recurrence is the library's Levenshtein distance -/

/-- The recurrence `levenshteinSpec` agrees with Mathlib's `levenshtein` at
unit costs. -/
theorem levenshteinSpec_eq_levenshtein (s t : List Nat) :
    levenshteinSpec s t = levenshtein Levenshtein.defaultCost s t := by
  induction s generalizing t with
  | nil =>
    rw [levenshteinSpec_nil_left]
    induction t with
    | nil => simp
    | cons b t iht =>
      rw [levenshtein_nil_cons, ← iht]
      simp [Levenshtein.defaultCost]
      omega
  | cons a s ih =>
    induction t with
    | nil =>
      rw [levenshteinSpec_nil_right, levenshtein_cons_nil, ← ih, levenshteinSpec_nil_right]
      simp [Levenshtein.defaultCost]
      omega
    | cons b t iht =>
      rw [levenshteinSpec_cons_cons, levenshtein_cons_cons, ← ih, ← ih, ← iht]
      simp only [Levenshtein.defaultCost]
      split_ifs <;> omega

end EditDistance

namespace EditDistance

/-! ## Function `editDistance` and the Levenshtein distance -/

/-- C18, as stated, fails: for a string of 2^31 characters and the empty
string the length `strlen` returns does not fit the `int` it is stored in, the
row loop does not run, and `editDistance` returns 0, while the Levenshtein
distance is 2^31. -/
theorem editDistance_overlong_string :
    editDistance (List.replicate (2 ^ 31) 97) [] = 0 ∧
    levenshteinSpec (List.replicate (2 ^ 31) 97) [] = 2 ^ 31 := by
  constructor
  · unfold editDistance
    simp only [List.length_replicate, List.length_nil]
    have h1 : toInt ((2 ^ 31 : Nat) : Int) = -(2 ^ 31) := by
      unfold toInt
      norm_num
    have h2 : toInt ((0 : Nat) : Int) = 0 := by
      unfold toInt
      norm_num
    rw [h1, h2]
    have h3 : (-(2 ^ 31) : Int).toNat = 0 := by
      norm_num
    have h4 : ((0 : Int) + 1).toNat = 1 := by
      norm_num
    rw [h3, h4]
    simp only [List.range_zero, List.foldl_nil, Int.toNat_zero]
    rw [getD_map_range _ _ _ (by omega)]
    exact h2
  · rw [levenshteinSpec_nil_right, List.length_replicate]

/-- C18, amended: for all strings s1 and s2 of fewer than 2^31 - 1 characters
(including empty ones), editDistance(s1, s2, silent=true) returns the
Levenshtein distance between s1 and s2 as given by the standard recurrence. -/
theorem editDistance_eq_levenshtein (s1 s2 : List Nat) (h1 : s1.length + 1 < 2 ^ 31)
    (h2 : s2.length + 1 < 2 ^ 31) :
    editDistance s1 s2 = (levenshteinSpec s1 s2 : Nat) := by
  rw [editDistance_eq_prefixDistance s1 s2 h1 h2, prefixDistance_eq_levenshteinSpec]

theorem editDistance_eq_levenshtein_witness :
    [107, 105, 116, 116, 101, 110].length + 1 < 2 ^ 31 ∧
    [115, 105, 116, 116, 105, 110, 103].length + 1 < 2 ^ 31 ∧
    editDistance [107, 105, 116, 116, 101, 110] [115, 105, 116, 116, 105, 110, 103] =
      (levenshteinSpec [107, 105, 116, 116, 101, 110] [115, 105, 116, 116, 105, 110, 103] : Nat) :=
  ⟨by decide, by decide,
    editDistance_eq_levenshtein [107, 105, 116, 116, 101, 110]
      [115, 105, 116, 116, 105, 110, 103] (by decide) (by decide)⟩

end EditDistance

namespace StringMatching

/-! ## Prefixes of the pattern that end at a text position -/

theorem sufAt_zero (P T : List Nat) (i : Nat) : sufAt P T 0 i :=
  ⟨Nat.zero_le _, fun _ hj => absurd hj (Nat.not_lt_zero _)⟩

theorem sufAt_trans {P T : List Nat} {k k1 i : Nat} (h1 : sufAt P P k k1) (h2 : sufAt P T k1 i) :
    sufAt P T k i := by
  refine ⟨Nat.le_trans h1.1 h2.1, fun j hj => ?_⟩
  rw [h1.2 j hj, h2.2 (k1 - k + j) (by have := h1.1; omega)]
  congr 1
  have := h1.1
  have := h2.1
  omega

theorem sufAt_restrict {P T : List Nat} {k k1 i : Nat} (h1 : sufAt P T k i)
    (h2 : sufAt P T k1 i) (hk : k ≤ k1) : sufAt P P k k1 := by
  refine ⟨hk, fun j hj => ?_⟩
  rw [h1.2 j hj, h2.2 (k1 - k + j) (by omega)]
  congr 1
  have := h2.1
  omega

theorem sufAt_succ {P T : List Nat} {k i : Nat} :
    sufAt P T (k + 1) (i + 1) ↔ sufAt P T k i ∧ P.getD k 0 = T.getD i 0 := by
  constructor
  · rintro ⟨hle, h⟩
    refine ⟨⟨by omega, fun j hj => ?_⟩, ?_⟩
    · rw [h j (by omega)]
      congr 1
      omega
    · rw [h k (by omega)]
      congr 1
      omega
  · rintro ⟨⟨hle, h⟩, hc⟩
    refine ⟨by omega, fun j hj => ?_⟩
    rcases Nat.lt_or_ge j k with hlt | hge
    · rw [h j hlt]
      congr 1
      omega
    · have : j = k := by omega
      subst this
      rw [hc]
      congr 1
      omega

/-- A prefix that holds a character of the pattern's code range is inside the
pattern when it ends on a nonzero character. -/
theorem lt_length_of_getD_ne_zero (P : List Nat) (k : Nat) (h : P.getD k 0 ≠ 0) :
    k < P.length := by
  by_contra hge
  apply h
  rw [List.getD_eq_getElem?_getD, List.getElem?_eq_none (by omega)]
  rfl

/-- The test of the specification in terms of single characters. -/
theorem take_drop_eq_iff (T P : List Nat) (p : Nat) (hP : 0 < P.length) :
    (T.drop p).take P.length = P ↔
      p + P.length ≤ T.length ∧ ∀ j, j < P.length → T.getD (p + j) 0 = P.getD j 0 := by
  have hget : ∀ j, j < P.length → ((T.drop p).take P.length)[j]? = T[p + j]? := by
    intro j hj
    rw [List.getElem?_take_of_lt hj, List.getElem?_drop]
  constructor
  · intro h
    have hlen : ((T.drop p).take P.length).length = P.length := by rw [h]
    rw [List.length_take, List.length_drop] at hlen
    refine ⟨by omega, fun j hj => ?_⟩
    have := hget j hj
    rw [h] at this
    rw [List.getD_eq_getElem?_getD, List.getD_eq_getElem?_getD, this]
  · rintro ⟨hle, h⟩
    apply List.ext_getElem?
    intro j
    by_cases hj : j < P.length
    · rw [hget j hj]
      have h1 := h j hj
      rw [List.getD_eq_getElem?_getD, List.getD_eq_getElem?_getD] at h1
      rw [List.getElem?_eq_getElem (by omega)] at h1 ⊢
      rw [List.getElem?_eq_getElem hj] at h1 ⊢
      simp only [Option.getD_some] at h1
      rw [h1]
    · have hlen : ((T.drop p).take P.length).length = P.length := by
        rw [List.length_take, List.length_drop]
        omega
      rw [List.getElem?_eq_none (by omega), List.getElem?_eq_none (by omega)]

/-- An occurrence at `p` is the whole pattern ending at position `p + m`. -/
theorem occurs_iff_sufAt (T P : List Nat) (p : Nat) (hP : 0 < P.length) :
    (T.drop p).take P.length = P ↔
      p + P.length ≤ T.length ∧ sufAt P T P.length (p + P.length) := by
  rw [take_drop_eq_iff T P p hP]
  constructor
  · rintro ⟨hle, h⟩
    refine ⟨hle, by omega, fun j hj => ?_⟩
    rw [← h j hj]
    congr 1
    omega
  · rintro ⟨hle, _, h⟩
    refine ⟨hle, fun j hj => ?_⟩
    rw [h j hj]
    congr 1
    omega

end StringMatching

namespace StringMatching

/-! ## The fall-back loop and the prefix function of `KMPMatch` -/

theorem getD_set_nat (l : List Nat) (i p x : Nat) :
    (l.set i x).getD p 0 = if i = p ∧ p < l.length then x else l.getD p 0 := by
  by_cases h : i = p
  · subst h
    by_cases hl : i < l.length
    · simp [List.getD_eq_getElem?_getD, List.getElem?_set, hl]
    · have hnone : l[i]? = none := List.getElem?_eq_none (by omega)
      simp [List.getD_eq_getElem?_getD, List.getElem?_set, hl, hnone]
  · simp [List.getD_eq_getElem?_getD, List.getElem?_set, h]

/-- The fall-back loop, started on a prefix that ends at position `i`, returns
the longest such prefix below its start that is followed by `c` in the pattern,
or 0 when there is none. -/
theorem fallBack_spec (P pf T : List Nat) (c i K : Nat) (hpf : PrefixOK P pf K) :
    ∀ fuel k, k < fuel → k ≤ K → sufAt P T k i →
      ∃ k1, fallBack P pf c fuel k = some k1 ∧ k1 ≤ k ∧ sufAt P T k1 i ∧
        (k1 = 0 ∨ P.getD k1 0 = c) ∧
        ∀ x, x ≤ k → sufAt P T x i → P.getD x 0 = c → x ≤ k1 := by
  intro fuel
  induction fuel with
  | zero => intro k hk; omega
  | succ fuel ih =>
    intro k hk hK hsuf
    rw [fallBack]
    by_cases hc : k > 0 ∧ P.getD k 0 ≠ c
    · rw [if_pos hc]
      obtain ⟨hb1, hb2, hb3⟩ := hpf k (by omega) hK
      obtain ⟨k1, hk1, hle, hs1, hor, hmax⟩ := ih (pf.getD (k - 1) 0) (by omega) (by omega)
        (sufAt_trans hb2 hsuf)
      refine ⟨k1, hk1, by omega, hs1, hor, fun x hx hsx hcx => ?_⟩
      have hxk : x ≠ k := by
        rintro rfl
        exact hc.2 hcx
      have hx' : x ≤ k - 1 := by omega
      exact hmax x (hb3 x hx' (sufAt_restrict hsx hsuf (by omega))) hsx hcx
    · rw [if_neg hc]
      refine ⟨k, rfl, Nat.le_refl _, hsuf, ?_, fun x hx _ _ => hx⟩
      by_cases h0 : k = 0
      · exact Or.inl h0
      · right
        by_contra hne
        exact hc ⟨by omega, hne⟩

/-- Extending the result of the fall-back loop by the character read gives the
longest prefix that ends one position further. -/
theorem extend_longest (P T : List Nat) (i bound q k1 : Nat)
    (hq : longestAt P T bound i q) (hle : k1 ≤ q) (hs1 : sufAt P T k1 i)
    (hor : k1 = 0 ∨ P.getD k1 0 = T.getD i 0)
    (hmax : ∀ x, x ≤ q → sufAt P T x i → P.getD x 0 = T.getD i 0 → x ≤ k1) :
    longestAt P T (bound + 1) (i + 1)
      (if P.getD k1 0 = T.getD i 0 then k1 + 1 else k1) := by
  obtain ⟨hqb, hqs, hqmax⟩ := hq
  by_cases hc : P.getD k1 0 = T.getD i 0
  · rw [if_pos hc]
    refine ⟨by omega, sufAt_succ.mpr ⟨hs1, hc⟩, fun x hx hsx => ?_⟩
    cases x with
    | zero => omega
    | succ y =>
      obtain ⟨hy, hyc⟩ := sufAt_succ.mp hsx
      have := hmax y (hqmax y (by omega) hy) hy hyc
      omega
  · rw [if_neg hc]
    have h0 : k1 = 0 := by
      rcases hor with h | h
      · exact h
      · exact absurd h hc
    subst h0
    refine ⟨by omega, sufAt_zero _ _ _, fun x hx hsx => ?_⟩
    cases x with
    | zero => omega
    | succ y =>
      obtain ⟨hy, hyc⟩ := sufAt_succ.mp hsx
      have h1 := hmax y (hqmax y (by omega) hy) hy hyc
      have : y = 0 := by omega
      subst this
      exact absurd hyc hc

/-- One pass of the prefix loop keeps the array right for one more length. -/
theorem prefixStep_spec (fuel : Nat) (P pf : List Nat) (k q : Nat) (hq1 : 1 ≤ q)
    (hqm : q < P.length) (hm : P.length < UINT) (hfuel : P.length ≤ fuel)
    (hlen : pf.length = P.length) (hpf : PrefixOK P pf q) (hk : k = pf.getD (q - 1) 0) :
    ∃ pf1 k2, prefixStep fuel P (some (pf, k)) q = some (pf1, k2) ∧
      pf1.length = P.length ∧ PrefixOK P pf1 (q + 1) ∧ k2 = pf1.getD q 0 := by
  have hkq := hpf q hq1 (Nat.le_refl _)
  rw [← hk] at hkq
  obtain ⟨k1, hk1, hle, hs1, hor, hmax⟩ := fallBack_spec P pf P (P.getD q 0) q q hpf fuel k
    (by have := hkq.1; omega) (by have := hkq.1; omega) hkq.2.1
  have hnew := extend_longest P P q (q - 1) k k1 hkq hle hs1 hor hmax
  have hq' : q - 1 + 1 = q := by omega
  rw [hq'] at hnew
  have hk1q : k1 + 1 < UINT := by
    have := hkq.1
    omega
  have hmod : (k1 + 1) % UINT = k1 + 1 := Nat.mod_eq_of_lt hk1q
  obtain ⟨k2, hk2⟩ : ∃ k2, k2 = if P.getD k1 0 = P.getD q 0 then k1 + 1 else k1 := ⟨_, rfl⟩
  rw [← hk2] at hnew
  refine ⟨pf.set q k2, k2, ?_, ?_, ?_, ?_⟩
  · unfold prefixStep
    simp only [hk1, hmod, ← hk2]
  · rw [List.length_set]; exact hlen
  · intro r hr1 hr
    rw [getD_set_nat]
    by_cases hrq : r = q + 1
    · subst hrq
      rw [if_pos ⟨by omega, by omega⟩]
      exact hnew
    · rw [if_neg (by omega)]
      exact hpf r hr1 (by omega)
  · rw [getD_set_nat, if_pos ⟨rfl, by omega⟩]

/-- The prefix loop, run for the lengths `2 .. Q + 1`. -/
theorem prefixLoop_spec (fuel : Nat) (P : List Nat) (hm : P.length < UINT)
    (hfuel : P.length ≤ fuel) :
    ∀ Q, Q + 1 ≤ P.length →
      ∃ pf k, ((List.range Q).map fun q => q + 1).foldl (prefixStep fuel P)
          (some ((List.replicate P.length 0).set 0 0, 0)) = some (pf, k) ∧
        pf.length = P.length ∧ PrefixOK P pf (Q + 1) ∧ k = pf.getD Q 0 := by
  intro Q
  induction Q with
  | zero =>
    intro _
    refine ⟨_, _, rfl, by simp, ?_, ?_⟩
    · intro r hr1 hr
      have : r = 1 := by omega
      subst this
      have h0 : ((List.replicate P.length 0).set 0 0).getD (1 - 1) 0 = 0 := by
        rw [getD_set_nat]
        split_ifs
        · rfl
        · exact FlowNetworks.getD_replicate _ _ _
      rw [h0]
      exact ⟨Nat.le_refl _, sufAt_zero _ _ _, fun x hx _ => hx⟩
    · rw [getD_set_nat]
      split_ifs
      · rfl
      · exact (FlowNetworks.getD_replicate _ _ _).symm
  | succ Q ih =>
    intro hQ
    obtain ⟨pf, k, hfold, hlen, hpf, hk⟩ := ih (by omega)
    rw [List.range_succ, List.map_append, List.foldl_append, hfold]
    simp only [List.map_cons, List.map_nil, List.foldl_cons, List.foldl_nil]
    exact prefixStep_spec fuel P pf k (Q + 1) (by omega) (by omega) hm hfuel hlen hpf
      (by simpa using hk)

/-- Function `computePrefix` returns the prefix function of the pattern. -/
theorem computePrefix_spec (fuel : Nat) (P : List Nat) (h0 : 0 < P.length)
    (hm : P.length < UINT) (hfuel : P.length ≤ fuel) :
    ∃ pf, computePrefix fuel P = some pf ∧ PrefixOK P pf P.length := by
  obtain ⟨pf, k, hfold, _, hpf, _⟩ := prefixLoop_spec fuel P hm hfuel (P.length - 1) (by omega)
  refine ⟨pf, ?_, ?_⟩
  · unfold computePrefix
    rw [Nat.mod_eq_of_lt hm, hfold]
    rfl
  · have : P.length - 1 + 1 = P.length := by omega
    rw [this] at hpf
    exact hpf

end StringMatching

namespace StringMatching

/-! ## The matcher loop of `KMPMatch` -/

/-- The positions below `i + 1 - m` grow by the position `i + 1 - m` when the
whole pattern ends at `i + 1`. -/
theorem filter_range_hit (T P : List Nat) (i : Nat) (h0 : 0 < P.length) (hi : i < T.length)
    (hs : sufAt P T P.length (i + 1)) :
    (List.range (i + 1 + 1 - P.length)).filter (fun p => (T.drop p).take P.length == P) =
      (List.range (i + 1 - P.length)).filter (fun p => (T.drop p).take P.length == P) ++
        [i + 1 - P.length] := by
  have hm : P.length ≤ i + 1 := hs.1
  have h1 : i + 1 + 1 - P.length = (i + 1 - P.length) + 1 := by omega
  rw [h1, List.range_succ, List.filter_append]
  congr 1
  have hocc := occurs_iff_sufAt T P (i + 1 - P.length) h0
  have h2 : i + 1 - P.length + P.length = i + 1 := by omega
  rw [h2] at hocc
  have : ((T.drop (i + 1 - P.length)).take P.length == P) = true :=
    beq_iff_eq.mpr (hocc.mpr ⟨by omega, hs⟩)
  simp [List.filter_cons, this]

/-- The positions below `i + 1 - m` do not grow when the whole pattern does not
end at `i + 1`. -/
theorem filter_range_miss (T P : List Nat) (i : Nat) (h0 : 0 < P.length)
    (hs : ¬ sufAt P T P.length (i + 1)) :
    (List.range (i + 1 + 1 - P.length)).filter (fun p => (T.drop p).take P.length == P) =
      (List.range (i + 1 - P.length)).filter (fun p => (T.drop p).take P.length == P) := by
  by_cases hm : P.length ≤ i + 1
  · have h1 : i + 1 + 1 - P.length = (i + 1 - P.length) + 1 := by omega
    rw [h1, List.range_succ, List.filter_append]
    have hocc := occurs_iff_sufAt T P (i + 1 - P.length) h0
    have h2 : i + 1 - P.length + P.length = i + 1 := by omega
    rw [h2] at hocc
    have : ((T.drop (i + 1 - P.length)).take P.length == P) = false := by
      rw [beq_eq_false_iff_ne]
      exact fun h => hs (hocc.mp h).2
    simp [List.filter_cons, this]
  · have h1 : i + 1 + 1 - P.length = 0 := by omega
    have h2 : i + 1 - P.length = 0 := by omega
    rw [h1, h2]

/-- One pass of the matcher loop: the state stays the longest proper prefix
ending at the position reached, and the output stays the list of occurrences
that end at or before it. -/
theorem kmpStep_spec (fuel : Nat) (T P pf : List Nat) (i q : Nat) (out : List Nat)
    (h0 : 0 < P.length) (hm : P.length < UINT) (hn : T.length < UINT) (hi : i < T.length)
    (hfuel : P.length ≤ fuel) (hpf : PrefixOK P pf P.length)
    (hq : longestAt P T (P.length - 1) i q)
    (hout : out = (List.range (i + 1 - P.length)).filter
      fun p => (T.drop p).take P.length == P) :
    ∃ q' out', kmpStep fuel T P pf (some (q, out)) i = some (q', out') ∧
      longestAt P T (P.length - 1) (i + 1) q' ∧
      out' = (List.range (i + 1 + 1 - P.length)).filter
        fun p => (T.drop p).take P.length == P := by
  obtain ⟨k1, hk1, hle, hs1, hor, hmax⟩ := fallBack_spec P pf T (T.getD i 0) i P.length hpf
    fuel q (by have := hq.1; omega) (by have := hq.1; omega) hq.2.1
  have hnew := extend_longest P T i (P.length - 1) q k1 hq hle hs1 hor hmax
  have hm1 : P.length - 1 + 1 = P.length := by omega
  rw [hm1] at hnew
  have hmod : (k1 + 1) % UINT = k1 + 1 := by
    apply Nat.mod_eq_of_lt
    have := hq.1
    omega
  obtain ⟨q2, hq2⟩ : ∃ q2, q2 = if P.getD k1 0 = T.getD i 0 then k1 + 1 else k1 := ⟨_, rfl⟩
  rw [← hq2] at hnew
  obtain ⟨hq2m, hq2s, hq2max⟩ := hnew
  unfold kmpStep
  simp only [hk1, hmod, ← hq2]
  by_cases hfull : q2 = P.length
  · rw [if_pos hfull]
    rw [hfull] at hq2s
    simp only [hfull]
    obtain ⟨hb1, hb2, hb3⟩ := hpf P.length h0 (Nat.le_refl _)
    refine ⟨_, _, rfl, ⟨hb1, sufAt_trans hb2 hq2s, fun x hx hsx => ?_⟩, ?_⟩
    · exact hb3 x hx (sufAt_restrict hsx hq2s (by omega))
    · rw [filter_range_hit T P i h0 hi hq2s, ← hout]
      have hpos : ((i + 1) % UINT + UINT - P.length % UINT) % UINT = i + 1 - P.length := by
        have := hq2s.1
        rw [Nat.mod_eq_of_lt (show i + 1 < UINT by omega), Nat.mod_eq_of_lt hm]
        have h1 : i + 1 + UINT - P.length = (i + 1 - P.length) + UINT := by omega
        rw [h1, Nat.add_mod_right]
        exact Nat.mod_eq_of_lt (by omega)
      rw [hpos]
  · rw [if_neg hfull]
    refine ⟨_, _, rfl, ⟨by omega, hq2s, fun x hx hsx => hq2max x (by omega) hsx⟩, ?_⟩
    rw [filter_range_miss T P i h0, ← hout]
    intro hs
    have := hq2max P.length (Nat.le_refl _) hs
    omega

/-- The matcher loop over the first `I` text positions. -/
theorem kmpLoop_spec (fuel : Nat) (T P pf : List Nat) (h0 : 0 < P.length)
    (hm : P.length < UINT) (hn : T.length < UINT) (hfuel : P.length ≤ fuel)
    (hpf : PrefixOK P pf P.length) :
    ∀ I, I ≤ T.length →
      ∃ q out, (List.range I).foldl (kmpStep fuel T P pf) (some (0, [])) = some (q, out) ∧
        longestAt P T (P.length - 1) I q ∧
        out = (List.range (I + 1 - P.length)).filter
          fun p => (T.drop p).take P.length == P := by
  intro I
  induction I with
  | zero =>
    intro _
    refine ⟨0, [], rfl, ⟨Nat.zero_le _, sufAt_zero _ _ _, fun x _ hx => hx.1⟩, ?_⟩
    have : 0 + 1 - P.length = 0 := by omega
    rw [this]
    rfl
  | succ I ih =>
    intro hI
    obtain ⟨q, out, hfold, hq, hout⟩ := ih (by omega)
    rw [List.range_succ, List.foldl_append, hfold]
    simp only [List.foldl_cons, List.foldl_nil]
    exact kmpStep_spec fuel T P pf I q out h0 hm hn (by omega) hfuel hpf hq hout

/-- For a non-empty pattern and a text, both shorter than `2^32`, `KMPMatch`
returns the occurrences of the pattern. -/
theorem KMPMatch_spec (fuel : Nat) (T P : List Nat) (h0 : 0 < P.length)
    (hm : P.length < UINT) (hn : T.length < UINT) (hfuel : P.length ≤ fuel) :
    KMPMatch fuel T P = some (occurrences T P) := by
  obtain ⟨pf, hpf1, hpf⟩ := computePrefix_spec fuel P h0 hm hfuel
  obtain ⟨q, out, hfold, _, hout⟩ := kmpLoop_spec fuel T P pf h0 hm hn hfuel hpf T.length
    (Nat.le_refl _)
  unfold KMPMatch
  rw [hpf1]
  simp only
  rw [Nat.mod_eq_of_lt hn, hfold, hout]
  rfl

end StringMatching

namespace StringMatching

/-! ## Function `naiveMatch` -/

theorem matchAt_iff (T P : List Nat) (i : Nat) :
    matchAt T P i = true ↔ ∀ j, j < P.length → T.getD (i + j) 0 = P.getD j 0 := by
  unfold matchAt
  rw [List.all_eq_true]
  constructor
  · intro h j hj
    exact beq_iff_eq.mp (h j (List.mem_range.mpr hj))
  · intro h j hj
    exact beq_iff_eq.mpr (h j (List.mem_range.mp hj))

theorem getD_of_mem_bound (P : List Nat) (hP : ∀ c ∈ P, c ≠ 0) (j : Nat) (hj : j < P.length) :
    P.getD j 0 ≠ 0 := by
  rw [List.getD_eq_getElem _ _ hj]
  exact hP _ (List.getElem_mem hj)

/-- At a text position the inner loop of `naiveMatch` succeeds exactly on an
occurrence, when no pattern character is 0 (the value of a read past the end
of the text). -/
theorem matchAt_eq_occurs (T P : List Nat) (h0 : 0 < P.length) (hP : ∀ c ∈ P, c ≠ 0)
    (i : Nat) (hi : i < T.length) :
    matchAt T P i = ((T.drop i).take P.length == P) := by
  rw [Bool.eq_iff_iff, matchAt_iff, beq_iff_eq, take_drop_eq_iff T P i h0]
  constructor
  · intro h
    refine ⟨?_, h⟩
    by_contra hlt
    have hj : T.length - i < P.length := by omega
    have h1 := h (T.length - i) hj
    have h2 : T.getD (i + (T.length - i)) 0 = 0 := by
      rw [List.getD_eq_getElem?_getD, List.getElem?_eq_none (by omega)]
      rfl
    rw [h2] at h1
    exact getD_of_mem_bound P hP _ hj h1.symm
  · intro h
    exact h.2

/-- Function `naiveMatch` returns the occurrences of a non-empty pattern without
0 characters. -/
theorem naiveMatch_spec (T P : List Nat) (h0 : 0 < P.length) (hP : ∀ c ∈ P, c ≠ 0) :
    naiveMatch T P = occurrences T P := by
  unfold naiveMatch occurrences
  have hsplit : T.length = (T.length + 1 - P.length) + (T.length - (T.length + 1 - P.length)) := by
    omega
  rw [hsplit, List.range_add, List.filter_append]
  have hrest : ((List.range (T.length - (T.length + 1 - P.length))).map
      fun x => T.length + 1 - P.length + x).filter (fun i => matchAt T P i) = [] := by
    rw [List.filter_eq_nil_iff]
    intro i hi
    rw [List.mem_map] at hi
    obtain ⟨x, hx, rfl⟩ := hi
    rw [List.mem_range] at hx
    rw [matchAt_eq_occurs T P h0 hP _ (by omega)]
    intro h
    have := ((take_drop_eq_iff T P _ h0).mp (beq_iff_eq.mp h)).1
    omega
  rw [hrest, List.append_nil, ← hsplit]
  apply List.filter_congr
  intro i hi
  rw [List.mem_range] at hi
  exact matchAt_eq_occurs T P h0 hP i (by omega)

end StringMatching

namespace StringMatching

/-! ## The transition table of `DFAMatch` -/

/-- Helper `isSuffix` decides whether the first `k` characters of the pattern
end its first `q` characters followed by `c`. -/
theorem isSuffix_iff (P : List Nat) (k q c : Nat) (hq : q + 1 < UINT) :
    isSuffix P k q c = true ↔
      k ≤ q + 1 ∧ (k = 0 ∨ (sufAt P P (k - 1) q ∧ P.getD (k - 1) 0 = c)) := by
  unfold isSuffix
  simp only [Nat.mod_eq_of_lt hq]
  by_cases h1 : k > q + 1
  · rw [if_pos h1]
    constructor
    · intro h; exact absurd h (by simp)
    · intro h; omega
  · rw [if_neg h1]
    by_cases h2 : k = 0
    · rw [if_pos h2]
      exact ⟨fun _ => ⟨by omega, Or.inl h2⟩, fun _ => rfl⟩
    · rw [if_neg h2]
      have hall : ((List.range (k - 1)).all fun i => P.getD i 0 == P.getD (q + 1 - k + i) 0) = true
          ↔ sufAt P P (k - 1) q := by
        rw [List.all_eq_true]
        constructor
        · intro h
          refine ⟨by omega, fun j hj => ?_⟩
          have := beq_iff_eq.mp (h j (List.mem_range.mpr hj))
          rw [this]
          congr 1
          omega
        · rintro ⟨_, h⟩ j hj
          rw [List.mem_range] at hj
          rw [beq_iff_eq, h j hj]
          congr 1
          omega
      by_cases h3 : ((List.range (k - 1)).all fun i => P.getD i 0 == P.getD (q + 1 - k + i) 0) = true
      · rw [if_pos h3, beq_iff_eq]
        constructor
        · intro h; exact ⟨by omega, Or.inr ⟨hall.mp h3, h⟩⟩
        · rintro ⟨_, h | ⟨_, h⟩⟩
          · exact absurd h h2
          · exact h
      · rw [if_neg h3]
        constructor
        · intro h; exact absurd h (by simp)
        · rintro ⟨_, h | ⟨h, _⟩⟩
          · exact absurd h h2
          · exact absurd (hall.mpr h) h3

/-- The loop `while(!isSuffix(pattern, k, q, c)) k--` stops at the largest
`k` up to its start for which `isSuffix` holds. -/
theorem findK_spec (P : List Nat) (q c : Nat) (hq : q + 1 < UINT) :
    ∀ k0, findK P q c k0 ≤ k0 ∧ isSuffix P (findK P q c k0) q c = true ∧
      ∀ k, k ≤ k0 → isSuffix P k q c = true → k ≤ findK P q c k0 := by
  intro k0
  induction k0 with
  | zero =>
    refine ⟨Nat.le_refl _, ?_, fun k hk _ => hk⟩
    rw [findK, isSuffix_iff P 0 q c hq]
    exact ⟨by omega, Or.inl rfl⟩
  | succ k0 ih =>
    rw [findK]
    by_cases h : isSuffix P (k0 + 1) q c = true
    · rw [if_pos h]
      exact ⟨Nat.le_refl _, h, fun k hk _ => hk⟩
    · rw [if_neg h]
      obtain ⟨h1, h2, h3⟩ := ih
      refine ⟨by omega, h2, fun k hk hs => ?_⟩
      rcases Nat.lt_or_ge k (k0 + 1) with hlt | hge
      · exact h3 k (by omega) hs
      · have : k = k0 + 1 := by omega
        subst this
        exact absurd hs h

/-- A run of stores at distinct cells: each cell holds the value stored there,
every other cell keeps its value. -/
theorem foldl_set_cells (g v : Nat → Nat) (cs : List Nat)
    (hinj : ∀ c ∈ cs, ∀ d ∈ cs, g c = g d → c = d) :
    ∀ table : List Nat, (∀ c ∈ cs, g c < table.length) →
      (cs.foldl (fun t c => t.set (g c) (v c)) table).length = table.length ∧
      (∀ c ∈ cs, (cs.foldl (fun t c => t.set (g c) (v c)) table).getD (g c) 0 = v c) ∧
      ∀ idx, (∀ c ∈ cs, g c ≠ idx) →
        (cs.foldl (fun t c => t.set (g c) (v c)) table).getD idx 0 = table.getD idx 0 := by
  induction cs with
  | nil =>
    intro table _
    exact ⟨rfl, fun c hc => absurd hc (List.not_mem_nil _), fun _ _ => rfl⟩
  | cons a cs ih =>
    intro table hlen
    rw [List.foldl_cons]
    obtain ⟨h1, h2, h3⟩ := ih (fun c hc d hd => hinj c (List.mem_cons_of_mem _ hc) d
      (List.mem_cons_of_mem _ hd)) (table.set (g a) (v a))
      (fun c hc => by rw [List.length_set]; exact hlen c (List.mem_cons_of_mem _ hc))
    refine ⟨by rw [h1, List.length_set], fun c hc => ?_, fun idx hidx => ?_⟩
    · by_cases hin : c ∈ cs
      · exact h2 c hin
      · have hca : c = a := by
          rcases List.mem_cons.mp hc with h | h
          · exact h
          · exact absurd h hin
        subst hca
        rw [h3 (g c) (fun d hd hgd => hin (by
          have := hinj d (List.mem_cons_of_mem _ hd) c hc hgd
          rw [← this]; exact hd))]
        rw [getD_set_nat, if_pos ⟨rfl, hlen c hc⟩]
    · rw [h3 idx (fun c hc => hidx c (List.mem_cons_of_mem _ hc)), getD_set_nat,
        if_neg (fun h => hidx a (List.mem_cons_self _ _) h.1)]

theorem mem_symbols (c : Nat) :
    c ∈ (List.range 255).map (fun d => 255 - d) ↔ 1 ≤ c ∧ c ≤ 255 := by
  rw [List.mem_map]
  constructor
  · rintro ⟨d, hd, rfl⟩
    rw [List.mem_range] at hd
    omega
  · intro h
    exact ⟨255 - c, List.mem_range.mpr (by omega), by omega⟩

/-- The start value of `k` in the table loops. -/
theorem tableCell_eq (P : List Nat) (q : Nat) (table : List Nat) (c : Nat)
    (hq : q ≤ P.length) (hm : P.length + 2 < UINT) :
    tableCell P q table c =
      table.set (q * 255 + (c - 1)) (findK P q c (min (P.length + 1) (q + 2))) := by
  unfold tableCell
  simp only
  rw [Nat.mod_eq_of_lt (show q + 2 < UINT by omega),
    Nat.mod_eq_of_lt (show P.length + 1 < UINT by omega)]
  congr 2
  split_ifs <;> omega

/-- The table loops over the states below `Q`. -/
theorem tableLoop_spec (P : List Nat) (hm : P.length + 2 < UINT) :
    ∀ Q, Q ≤ P.length + 1 →
      ((List.range Q).foldl
        (fun table q => ((List.range 255).map fun d => 255 - d).foldl (tableCell P q) table)
        (List.replicate ((P.length + 1) * 255) 0)).length = (P.length + 1) * 255 ∧
      ∀ q c, q < Q → 1 ≤ c → c ≤ 255 →
        ((List.range Q).foldl
          (fun table q => ((List.range 255).map fun d => 255 - d).foldl (tableCell P q) table)
          (List.replicate ((P.length + 1) * 255) 0)).getD (q * 255 + (c - 1)) 0 =
        findK P q c (min (P.length + 1) (q + 2)) := by
  intro Q
  induction Q with
  | zero =>
    intro _
    exact ⟨by simp, fun q c hq => absurd hq (Nat.not_lt_zero _)⟩
  | succ Q ih =>
    intro hQ
    obtain ⟨hlen, hget⟩ := ih (by omega)
    have hr : List.range (Q + 1) = List.range Q ++ [Q] := List.range_succ Q
    rw [hr, List.foldl_append]
    simp only [List.foldl_cons, List.foldl_nil]
    have hcell : ∀ table : List Nat,
        ((List.range 255).map fun d => 255 - d).foldl (tableCell P Q) table =
        ((List.range 255).map fun d => 255 - d).foldl
          (fun t c => t.set (Q * 255 + (c - 1)) (findK P Q c (min (P.length + 1) (Q + 2))))
          table := by
      intro table
      congr 1
      funext t c
      exact tableCell_eq P Q t c (by omega) hm
    rw [hcell]
    obtain ⟨h1, h2, h3⟩ := foldl_set_cells (fun c => Q * 255 + (c - 1))
      (fun c => findK P Q c (min (P.length + 1) (Q + 2)))
      ((List.range 255).map fun d => 255 - d)
      (by
        intro c hc d hd h
        rw [mem_symbols] at hc hd
        have h' : Q * 255 + (c - 1) = Q * 255 + (d - 1) := h
        omega)
      ((List.range Q).foldl
        (fun table q => ((List.range 255).map fun d => 255 - d).foldl (tableCell P q) table)
        (List.replicate ((P.length + 1) * 255) 0))
      (by
        intro c hc
        rw [mem_symbols] at hc
        rw [hlen]
        have : (Q + 1) * 255 ≤ (P.length + 1) * 255 := Nat.mul_le_mul_right 255 (by omega)
        show Q * 255 + (c - 1) < (P.length + 1) * 255
        omega)
    refine ⟨by rw [h1, hlen], fun q c hq hc1 hc2 => ?_⟩
    rcases Nat.lt_or_ge q Q with hlt | hge
    · rw [h3 (q * 255 + (c - 1)) (by
        intro d hd
        rw [mem_symbols] at hd
        show Q * 255 + (d - 1) ≠ q * 255 + (c - 1)
        omega)]
      exact hget q c hlt hc1 hc2
    · have : q = Q := by omega
      subst this
      exact h2 c ((mem_symbols c).mpr ⟨hc1, hc2⟩)

/-- Every cell of the transition table: for state `q` and symbol `c` the
largest `k` for which the first `k` characters of the pattern end its first
`q` characters followed by `c`. -/
theorem transitionFunction_spec (P : List Nat) (hm : P.length + 2 < UINT) (q c : Nat)
    (hq : q ≤ P.length) (hc1 : 1 ≤ c) (hc2 : c ≤ 255) :
    (transitionFunction P).getD (q * 255 + (c - 1)) 0 ≤ P.length ∧
    ((transitionFunction P).getD (q * 255 + (c - 1)) 0 = 0 ∨
      (sufAt P P ((transitionFunction P).getD (q * 255 + (c - 1)) 0 - 1) q ∧
        P.getD ((transitionFunction P).getD (q * 255 + (c - 1)) 0 - 1) 0 = c)) ∧
    ∀ k, sufAt P P k q → P.getD k 0 = c →
      k + 1 ≤ (transitionFunction P).getD (q * 255 + (c - 1)) 0 := by
  have htab := (tableLoop_spec P hm (P.length + 1) (Nat.le_refl _)).2 q c (by omega) hc1 hc2
  have hmod : P.length % UINT + 1 = P.length + 1 := by
    rw [Nat.mod_eq_of_lt (by omega)]
  unfold transitionFunction
  rw [hmod, htab]
  have hq1 : q + 1 < UINT := by omega
  obtain ⟨h1, h2, h3⟩ := findK_spec P q c hq1 (min (P.length + 1) (q + 2))
  rw [isSuffix_iff P _ q c hq1] at h2
  have hin : ∀ k, sufAt P P k q → P.getD k 0 = c → k < P.length := by
    intro k _ hk
    apply lt_length_of_getD_ne_zero
    rw [hk]
    omega
  refine ⟨?_, h2.2, fun k hs hk => ?_⟩
  · rcases h2.2 with h | ⟨hs, hk⟩
    · omega
    · have := hin _ hs hk
      omega
  · apply h3 (k + 1)
    · have := hin k hs hk
      have := hs.1
      omega
    · rw [isSuffix_iff P _ q c hq1]
      exact ⟨by have := hs.1; omega, Or.inr ⟨hs, hk⟩⟩

end StringMatching

namespace StringMatching

/-! ## The run loop of `DFAMatch` -/

theorem getD_mem_bounds (T : List Nat) (hT : ∀ c ∈ T, 1 ≤ c ∧ c ≤ 127) (i : Nat)
    (hi : i < T.length) : 1 ≤ T.getD i 0 ∧ T.getD i 0 ≤ 127 := by
  rw [List.getD_eq_getElem _ _ hi]
  exact hT _ (List.getElem_mem hi)

/-- One pass of the run loop: the state stays the longest prefix of the
pattern ending at the position reached, and the output stays the list of
occurrences that end at or before it. -/
theorem dfaStep_spec (T P : List Nat) (i state : Nat) (out : List Nat) (h0 : 0 < P.length)
    (hm : P.length + 2 < UINT) (hn : T.length < SIZE) (hi : i < T.length)
    (hT : ∀ c ∈ T, 1 ≤ c ∧ c ≤ 127) (hs : longestAt P T P.length i state)
    (hout : out = (List.range (i + 1 - P.length)).filter
      fun p => (T.drop p).take P.length == P) :
    longestAt P T P.length (i + 1)
      (dfaStep (transitionFunction P) T P.length (state, out) i).1 ∧
    (dfaStep (transitionFunction P) T P.length (state, out) i).2 =
      (List.range (i + 1 + 1 - P.length)).filter fun p => (T.drop p).take P.length == P := by
  obtain ⟨hc1, hc2⟩ := getD_mem_bounds T hT i hi
  obtain ⟨hsb, hss, hsmax⟩ := hs
  have hidx : (((state : Int) * 255 + (charValue (T.getD i 0) - 1)).toNat) =
      state * 255 + (T.getD i 0 - 1) := by
    unfold charValue
    rw [if_pos (by omega)]
    omega
  obtain ⟨hd1, hd2, hd3⟩ := transitionFunction_spec P hm state (T.getD i 0) hsb hc1 (by omega)
  unfold dfaStep
  simp only [hidx]
  obtain ⟨d, hd⟩ : ∃ d, d = (transitionFunction P).getD (state * 255 + (T.getD i 0 - 1)) 0 :=
    ⟨_, rfl⟩
  rw [← hd] at hd1 hd2 hd3 ⊢
  have hsuf : sufAt P T d (i + 1) := by
    by_cases hz : d = 0
    · rw [hz]; exact sufAt_zero _ _ _
    · rcases hd2 with h | ⟨h1, h2⟩
      · exact absurd h hz
      · have := sufAt_succ.mpr ⟨sufAt_trans h1 hss, h2⟩
        have hd' : d - 1 + 1 = d := by omega
        rw [hd'] at this
        exact this
  have hmax : ∀ x, x ≤ P.length → sufAt P T x (i + 1) → x ≤ d := by
    intro x hx hsx
    cases x with
    | zero => omega
    | succ y =>
      obtain ⟨hy, hyc⟩ := sufAt_succ.mp hsx
      have hys := hsmax y (by omega) hy
      exact hd3 y (sufAt_restrict hy hss hys) hyc
  refine ⟨⟨hd1, hsuf, hmax⟩, ?_⟩
  by_cases hfull : d = P.length
  · rw [if_pos hfull]
    rw [hfull] at hsuf
    rw [filter_range_hit T P i h0 hi hsuf, ← hout]
    have hpos : (i + SIZE - (P.length - 1)) % SIZE = i + 1 - P.length := by
      have := hsuf.1
      have h1 : i + SIZE - (P.length - 1) = (i + 1 - P.length) + SIZE := by omega
      rw [h1, Nat.add_mod_right]
      exact Nat.mod_eq_of_lt (by omega)
    rw [hpos]
  · rw [if_neg hfull]
    rw [filter_range_miss T P i h0, ← hout]
    intro hs
    have := hmax P.length (Nat.le_refl _) hs
    omega

/-- The run loop over the first `I` text positions. -/
theorem dfaLoop_spec (T P : List Nat) (h0 : 0 < P.length) (hm : P.length + 2 < UINT)
    (hn : T.length < SIZE) (hT : ∀ c ∈ T, 1 ≤ c ∧ c ≤ 127) :
    ∀ I, I ≤ T.length →
      longestAt P T P.length I
        ((List.range I).foldl (dfaStep (transitionFunction P) T P.length) (0, [])).1 ∧
      ((List.range I).foldl (dfaStep (transitionFunction P) T P.length) (0, [])).2 =
        (List.range (I + 1 - P.length)).filter fun p => (T.drop p).take P.length == P := by
  intro I
  induction I with
  | zero =>
    intro _
    refine ⟨⟨Nat.zero_le _, sufAt_zero _ _ _, fun x _ hx => hx.1⟩, ?_⟩
    have : 0 + 1 - P.length = 0 := by omega
    rw [this]
    rfl
  | succ I ih =>
    intro hI
    obtain ⟨hs, hout⟩ := ih (by omega)
    have hr : List.range (I + 1) = List.range I ++ [I] := List.range_succ I
    rw [hr, List.foldl_append]
    simp only [List.foldl_cons, List.foldl_nil]
    exact dfaStep_spec T P I _ _ h0 hm hn (by omega) hT hs hout

/-- For a text of characters in `1 .. 127` and a non-empty pattern `DFAMatch`
returns the occurrences of the pattern. -/
theorem DFAMatch_spec (T P : List Nat) (h0 : 0 < P.length) (hm : P.length + 2 < UINT)
    (hn : T.length < SIZE) (hT : ∀ c ∈ T, 1 ≤ c ∧ c ≤ 127) :
    DFAMatch T P = occurrences T P :=
  (dfaLoop_spec T P h0 hm hn hT T.length (Nat.le_refl _)).2

end StringMatching

namespace StringMatching

/-! ## The list of occurrences -/

theorem mem_occurrences (T P : List Nat) (i : Nat) :
    i ∈ occurrences T P ↔ i + P.length ≤ T.length ∧ (T.drop i).take P.length = P := by
  unfold occurrences
  rw [List.mem_filter, List.mem_range, beq_iff_eq]
  constructor
  · rintro ⟨h1, h2⟩
    refine ⟨?_, h2⟩
    have hlen : ((T.drop i).take P.length).length = P.length := by rw [h2]
    rw [List.length_take, List.length_drop] at hlen
    omega
  · rintro ⟨h1, h2⟩
    exact ⟨by omega, h2⟩

theorem occurrences_sorted (T P : List Nat) : (occurrences T P).Sorted (fun a b => a < b) := by
  unfold occurrences
  exact List.Pairwise.filter _ (List.pairwise_lt_range _)

/-- The text of `2^32` letters `a` has the pattern `a` at position 0. -/
theorem long_text_occurrence :
    0 + [97].length ≤ (List.replicate (2 ^ 32) 97).length ∧
    ((List.replicate (2 ^ 32) 97).drop 0).take [97].length = [97] := by
  constructor
  · rw [List.length_replicate]
    norm_num
  · rw [List.drop_zero, List.take_replicate]
    have : min [97].length (2 ^ 32) = 1 := by
      norm_num
    rw [this]
    rfl

/-- On the text of `2^32` letters `a` the matcher loop of `KMPMatch` runs over
`(unsigned int) textLength = 0` positions and prints nothing. -/
theorem KMPMatch_long_text (fuel : Nat) :
    KMPMatch fuel (List.replicate (2 ^ 32) 97) [97] = some [] := by
  unfold KMPMatch computePrefix
  have h1 : [97].length % UINT - 1 = 0 := by
    unfold UINT
    norm_num
  have h2 : (List.replicate (2 ^ 32) 97).length % UINT = 0 := by
    rw [List.length_replicate]
    unfold UINT
    norm_num
  rw [h1, h2]
  rfl

end StringMatching

namespace StringMatching

/-! ## The three matchers and the occurrences of the pattern -/

/-- C19, as stated, fails: on the text of 2^32 letters `a` the pattern `a`
occurs at position 0 (and at every other position), and KMPMatch, whose matcher
loop runs below `(unsigned int) textLength = 0`, reports no position. -/
theorem KMPMatch_misses_long_text :
    (0 + [97].length ≤ (List.replicate (2 ^ 32) 97).length ∧
      ((List.replicate (2 ^ 32) 97).drop 0).take [97].length = [97]) ∧
    KMPMatch 1 (List.replicate (2 ^ 32) 97) [97] = some [] :=
  ⟨long_text_occurrence, KMPMatch_long_text 1⟩

/-- C19, amended: for every text of fewer than 2^32 characters and every
non-empty pattern of fewer than 2^32 characters, KMPMatch returns (given fuel
for the passes of its fall-back loops, at most patternLength each) and the
positions it reports are exactly the indices i with
i + patternLength <= textLength and text[i .. i+patternLength) equal to the
pattern, each once and in increasing order. -/
theorem KMPMatch_reports_occurrences (fuel : Nat) (text pattern : List Nat)
    (h0 : 0 < pattern.length) (hm : pattern.length < 2 ^ 32) (hn : text.length < 2 ^ 32)
    (hfuel : pattern.length ≤ fuel) :
    ∃ out, KMPMatch fuel text pattern = some out ∧
      out.Sorted (fun a b => a < b) ∧
      ∀ i, i ∈ out ↔
        i + pattern.length ≤ text.length ∧ (text.drop i).take pattern.length = pattern :=
  ⟨occurrences text pattern, KMPMatch_spec fuel text pattern h0 hm hn hfuel,
    occurrences_sorted text pattern, mem_occurrences text pattern⟩

theorem KMPMatch_reports_occurrences_witness :
    0 < [97, 98, 97].length ∧ [97, 98, 97].length < 2 ^ 32 ∧
    [97, 98, 97, 98, 97, 98, 97].length < 2 ^ 32 ∧ [97, 98, 97].length ≤ 3 ∧
    ∃ out, KMPMatch 3 [97, 98, 97, 98, 97, 98, 97] [97, 98, 97] = some out ∧
      out.Sorted (fun a b => a < b) ∧
      ∀ i, i ∈ out ↔
        i + [97, 98, 97].length ≤ [97, 98, 97, 98, 97, 98, 97].length ∧
          (([97, 98, 97, 98, 97, 98, 97] : List Nat).drop i).take [97, 98, 97].length =
            [97, 98, 97] :=
  ⟨by decide, by decide, by decide, by decide,
    KMPMatch_reports_occurrences 3 [97, 98, 97, 98, 97, 98, 97] [97, 98, 97]
      (by decide) (by decide) (by decide) (by decide)⟩

/-- C20, as stated, fails: on the text of 2^32 letters `a` and the pattern `a`
(characters in 1..127) naiveMatch reports position 0 and KMPMatch reports no
position. -/
theorem matchers_differ_long_text :
    (∀ c ∈ List.replicate (2 ^ 32) 97, 1 ≤ c ∧ c ≤ 127) ∧
    (∀ c ∈ [97], 1 ≤ c ∧ c ≤ 127) ∧ 0 < [97].length ∧
    0 ∈ naiveMatch (List.replicate (2 ^ 32) 97) [97] ∧
    KMPMatch 1 (List.replicate (2 ^ 32) 97) [97] = some [] := by
  refine ⟨fun c hc => ?_, by decide, by decide, ?_, KMPMatch_long_text 1⟩
  · rw [List.eq_of_mem_replicate hc]
    omega
  · rw [naiveMatch_spec _ _ (by decide) (by decide), mem_occurrences]
    exact long_text_occurrence

/-- C20, amended: for every text of fewer than 2^32 characters in 1..127 and
every non-empty pattern of fewer than 2^32 - 2 such characters, naiveMatch,
DFAMatch and KMPMatch report the same list of match positions (a read of the
text past textLength in naiveMatch yielding 0, a mismatch). -/
theorem matchers_agree (fuel : Nat) (text pattern : List Nat)
    (hT : ∀ c ∈ text, 1 ≤ c ∧ c ≤ 127) (hP : ∀ c ∈ pattern, 1 ≤ c ∧ c ≤ 127)
    (h0 : 0 < pattern.length) (hm : pattern.length + 2 < 2 ^ 32) (hn : text.length < 2 ^ 32)
    (hfuel : pattern.length ≤ fuel) :
    DFAMatch text pattern = naiveMatch text pattern ∧
    KMPMatch fuel text pattern = some (naiveMatch text pattern) := by
  have hnaive := naiveMatch_spec text pattern h0 (fun c hc => by have := hP c hc; omega)
  have hdfa := DFAMatch_spec text pattern h0 hm (by unfold SIZE; omega) hT
  have hkmp := KMPMatch_spec fuel text pattern h0 (by unfold UINT; omega) hn hfuel
  rw [hnaive, hdfa, hkmp]
  exact ⟨rfl, rfl⟩

theorem matchers_agree_witness :
    (∀ c ∈ [97, 97, 98, 97, 97], 1 ≤ c ∧ c ≤ 127) ∧ (∀ c ∈ [97, 97], 1 ≤ c ∧ c ≤ 127) ∧
    0 < [97, 97].length ∧ [97, 97].length + 2 < 2 ^ 32 ∧
    [97, 97, 98, 97, 97].length < 2 ^ 32 ∧ [97, 97].length ≤ 2 ∧
    (DFAMatch [97, 97, 98, 97, 97] [97, 97] = naiveMatch [97, 97, 98, 97, 97] [97, 97] ∧
    KMPMatch 2 [97, 97, 98, 97, 97] [97, 97] = some (naiveMatch [97, 97, 98, 97, 97] [97, 97])) :=
  ⟨by decide, by decide, by decide, by decide, by decide, by decide,
    matchers_agree 2 [97, 97, 98, 97, 97] [97, 97] (by decide) (by decide) (by decide)
      (by decide) (by decide) (by decide)⟩

end StringMatching

namespace FlowNetworks

/-! ## The walk along the parent list -/

/-- From a flagged vertex the parent walk reaches the source within `rank v`
steps; it stays on flagged vertices, never repeats one, follows the parent
list and uses an edge at every step. -/
theorem parentWalk_spec (g : adjmatrix) (p : List Nat) (visited : List Bool)
    (rank : Nat → Nat) (tree : treeOK g visited p rank) :
    ∀ (fuel v : Nat), v < g.vertices → visited.getD v false = true → rank v ≤ fuel →
    ∃ l, parentWalk p fuel v = some l ∧ l.head? = some v ∧ l.getLast? = some 0 ∧
      l.length ≤ rank v + 1 ∧ l.Nodup ∧ l.Chain' (fun a b => b = p.getD a 0) ∧
      (∀ w ∈ l, w < g.vertices ∧ visited.getD w false = true ∧ rank w ≤ rank v ∧
        OnWalk p v w ∧ (w ≠ 0 → g.at (p.getD w 0) w ≠ 0)) := by
  intro fuel
  induction fuel with
  | zero =>
    intro v hv hvis hr
    by_cases h0 : v = 0
    · subst h0
      refine ⟨[0], by simp [parentWalk], rfl, rfl, by simp, by simp, by simp, ?_⟩
      intro w hw
      have : w = 0 := by simpa using hw
      subst this
      exact ⟨hv, hvis, Nat.le_refl _, OnWalk.here 0, fun h => absurd rfl h⟩
    · have := ((tree v hv hvis).2 h0).2.2.2
      omega
  | succ fuel ih =>
    intro v hv hvis hr
    by_cases h0 : v = 0
    · subst h0
      refine ⟨[0], by simp [parentWalk], rfl, rfl, by simp, by simp, by simp, ?_⟩
      intro w hw
      have : w = 0 := by simpa using hw
      subst this
      exact ⟨hv, hvis, Nat.le_refl _, OnWalk.here 0, fun h => absurd rfl h⟩
    · obtain ⟨hu, huvis, hedge, hrank⟩ := (tree v hv hvis).2 h0
      obtain ⟨l, hl, hhead, hlast, hlen, hnd, hch, hall⟩ := ih (p.getD v 0) hu huvis (by omega)
      refine ⟨v :: l, ?_, rfl, ?_, ?_, ?_, ?_, ?_⟩
      · rw [parentWalk]
        simp only [h0, if_false, hl, Option.map_some']
      · cases l with
        | nil => simp at hhead
        | cons a t =>
          rw [List.getLast?_cons_cons]
          exact hlast
      · simp only [List.length_cons]
        omega
      · rw [List.nodup_cons]
        refine ⟨fun hmem => ?_, hnd⟩
        have := (hall v hmem).2.2.1
        omega
      · cases l with
        | nil => simp at hhead
        | cons a t =>
          rw [List.chain'_cons]
          refine ⟨?_, hch⟩
          simp only [List.head?_cons, Option.some.injEq] at hhead
          exact hhead
      · intro w hw
        rcases List.mem_cons.mp hw with rfl | hmem
        · exact ⟨hv, hvis, Nat.le_refl _, OnWalk.here _, fun _ => hedge⟩
        · obtain ⟨h1, h2, h3, h4, h5⟩ := hall w hmem
          exact ⟨h1, h2, by omega, OnWalk.step h0 h4, h5⟩

/-- Every vertex the walk relation reaches is listed by `parentWalk`. -/
theorem onWalk_mem (p : List Nat) :
    ∀ (fuel v : Nat) (l : List Nat), parentWalk p fuel v = some l →
      ∀ w, OnWalk p v w → w ∈ l := by
  intro fuel
  induction fuel with
  | zero =>
    intro v l h w hw
    rw [parentWalk] at h
    by_cases h0 : v = 0
    · subst h0
      simp only [if_true, Option.some.injEq] at h
      subst h
      cases hw with
      | here => simp
      | step hne _ => exact absurd rfl hne
    · simp [h0] at h
  | succ fuel ih =>
    intro v l h w hw
    rw [parentWalk] at h
    by_cases h0 : v = 0
    · subst h0
      simp only [if_true, Option.some.injEq] at h
      subst h
      cases hw with
      | here => simp
      | step hne _ => exact absurd rfl hne
    · simp only [h0, if_false] at h
      cases hrec : parentWalk p fuel (p.getD v 0) with
      | none =>
        rw [hrec] at h
        exact absurd h (by simp)
      | some t =>
        rw [hrec] at h
        simp only [Option.map_some', Option.some.injEq] at h
        subst h
        cases hw with
        | here => simp
        | step _ htail => exact List.mem_cons_of_mem _ (ih _ t hrec w htail)

/-- The bottleneck loop returns its start value or the entry of an edge of the
walk, whichever is least. -/
theorem pathCapacityLoop_attained (g : adjmatrix) (p : List Nat) :
    ∀ (fuel v c c1 : Nat), pathCapacityLoop g p fuel v c = some c1 →
      c1 = c ∨ ∃ w, OnWalk p v w ∧ w ≠ 0 ∧ c1 = g.at (p.getD w 0) w := by
  intro fuel
  induction fuel with
  | zero =>
    intro v c c1 h
    rw [pathCapacityLoop.eq_def] at h
    by_cases h0 : v = 0
    · simp only [h0, if_true, Option.some.injEq] at h
      exact Or.inl h.symm
    · simp [h0] at h
  | succ fuel ih =>
    intro v c c1 h
    rw [pathCapacityLoop.eq_def] at h
    by_cases h0 : v = 0
    · simp only [h0, if_true, Option.some.injEq] at h
      exact Or.inl h.symm
    · simp only [h0, if_false] at h
      rcases ih _ _ _ h with heq | ⟨w, hw, hw0, hval⟩
      · by_cases hlt : g.at (p.getD v 0) v < c
        · rw [if_pos hlt] at heq
          exact Or.inr ⟨v, OnWalk.here v, h0, heq⟩
        · rw [if_neg hlt] at heq
          exact Or.inl heq
      · exact Or.inr ⟨w, OnWalk.step h0 hw, hw0, hval⟩

theorem at_lt_of_entries {g : adjmatrix} (hU : ∀ x ∈ g.matrix, x < UINT) (u v : Nat) :
    g.at u v < UINT := by
  unfold adjmatrix.at
  by_cases h : u * g.vertices + v < g.matrix.length
  · rw [List.getD_eq_getElem _ _ h]
    exact hU _ (List.getElem_mem h)
  · rw [List.getD_eq_getElem?_getD, List.getElem?_eq_none (by omega)]
    unfold UINT
    decide

end FlowNetworks

namespace FlowNetworks

/-! ## The residual graphs a run passes through -/

/-- Every residual graph the residualize/augment loop passes through keeps the
pair sums of the capacities. -/
theorem augmentTrace_total (cap g0 : adjmatrix) (p : List Nat) (visited : List Bool)
    (rank : Nat → Nat) (x : Nat) (hB : cap.matrix.sum < UINT)
    (hv0 : g0.vertices = cap.vertices) (tree : treeOK g0 visited p rank) :
    ∀ (fuel w : Nat) (g f : adjmatrix), w < cap.vertices → visited.getD w false = true →
    rank w ≤ fuel → (∀ y, OnWalk p w y → y ≠ 0 → x ≤ g0.at (p.getD y 0) y) →
    AugInv cap g0 p visited rank x w g →
    ∃ t, augmentTrace p x fuel w g f = some t ∧ ∀ m ∈ t, ResInv cap m := by
  intro fuel
  induction fuel with
  | zero =>
    intro w g f hw hvis hr _ h
    by_cases h0 : w = 0
    · subst h0
      exact ⟨[], by simp [augmentTrace], fun m hm => absurd hm (List.not_mem_nil _)⟩
    · have := ((tree w (by omega) hvis).2 h0).2.2.2
      omega
  | succ fuel ih =>
    intro w g f hw hvis hr hx h
    by_cases h0 : w = 0
    · subst h0
      exact ⟨[], by simp [augmentTrace], fun m hm => absurd hm (List.not_mem_nil _)⟩
    · obtain ⟨hu, huvis, _, hrank⟩ := (tree w (by omega) hvis).2 h0
      rw [hv0] at hu
      have hstep := augmentStep_inv cap g0 g f p visited rank x w hB hv0 tree
        (hx w (OnWalk.here w) h0) hw hvis h0 h
      obtain ⟨t, ht, hall⟩ := ih (p.getD w 0) (augmentStep p x w g f).1
        (augmentStep p x w g f).2 hu huvis (by omega)
        (fun y hy hy0 => hx y (OnWalk.step h0 hy) hy0) hstep
      refine ⟨(augmentStep p x w g f).1 :: t, ?_, ?_⟩
      · rw [augmentTrace]
        simp only [h0, if_false, ht, Option.map_some']
      · intro m hm
        rcases List.mem_cons.mp hm with rfl | hmem
        · exact hstep.res
        · exact hall m hmem

/-- One pass of the body of the outer loop, with the residual graphs of its
augmentation steps. -/
theorem ek_iteration_trace (cap : adjmatrix) (s : ekResult) (p : List Nat)
    (visited : List Bool) (inner : Nat) (hn : 2 ≤ cap.vertices) (hB : cap.matrix.sum < UINT)
    (hin : cap.vertices ≤ inner) (h : EkInv cap s) (hpost : BfsPost s.g true p visited)
    (x : Nat) (hx : pathCapacity inner s.g p = some x) :
    ∃ t, augmentTrace p x inner (s.g.vertices - 1) s.g s.f = some t ∧
      ∀ m ∈ t, ResInv cap m := by
  have hgv : s.g.vertices = cap.vertices := h.res.verts
  obtain ⟨rank, tree⟩ := hpost.tree
  have hsink : visited.getD (s.g.vertices - 1) false = true := hpost.sink.symm
  have hsl : s.g.vertices - 1 < s.g.vertices := by omega
  have hrs := rank_lt tree hsl hsink
  obtain ⟨x', hx', _, _, hxall⟩ :=
    pathCapacityLoop_total s.g p visited rank tree inner (s.g.vertices - 1) (UINT - 1)
      hsl hsink (by omega)
  have hxx : x' = x := by
    unfold pathCapacity at hx
    rw [hx'] at hx
    exact Option.some.inj hx
  subst hxx
  have hinit : AugInv cap s.g p visited rank x' (s.g.vertices - 1) s.g := by
    refine ⟨h.res, ?_, fun _ _ _ _ _ => rfl⟩
    intro v _
    rw [hgv]; ring
  exact augmentTrace_total cap s.g p visited rank x' hB hgv tree inner (s.g.vertices - 1) s.g s.f
    (by omega) hsink (by omega) hxall hinit

/-- With fuel for the remaining capacity the instrumented outer loop returns,
and every residual graph it lists keeps the pair sums of the capacities. -/
theorem edmondsKarpTrace_total (cap : adjmatrix) (inner : Nat) (hn : 2 ≤ cap.vertices)
    (hB : cap.matrix.sum < UINT) (hin : cap.vertices ≤ inner) :
    ∀ (fuel : Nat) (s : ekResult), EkInv cap s → cap.matrix.sum - s.maxFlow ≤ fuel →
    ∃ t, edmondsKarpTrace inner fuel s = some t ∧ ∀ m ∈ t, ResInv cap m := by
  intro fuel
  induction fuel with
  | zero =>
    intro s h hf
    have hgv : s.g.vertices = cap.vertices := h.res.verts
    obtain ⟨b, p, visited, hbfs, hpost⟩ :=
      breadthFirstSearch_total s.g (by omega) inner (by omega)
    cases b with
    | false =>
      refine ⟨[], ?_, fun m hm => absurd hm (List.not_mem_nil _)⟩
      rw [edmondsKarpTrace]; simp [hbfs]
    | true =>
      obtain ⟨x, g1, f1, _, _, hx1, hmod, hinv⟩ :=
        ek_iteration cap s p visited inner hn hB hin h hpost
      have := hinv.value_le
      simp only [hmod] at this
      omega
  | succ fuel ih =>
    intro s h hf
    have hgv : s.g.vertices = cap.vertices := h.res.verts
    obtain ⟨b, p, visited, hbfs, hpost⟩ :=
      breadthFirstSearch_total s.g (by omega) inner (by omega)
    cases b with
    | false =>
      refine ⟨[], ?_, fun m hm => absurd hm (List.not_mem_nil _)⟩
      rw [edmondsKarpTrace]; simp [hbfs]
    | true =>
      obtain ⟨x, g1, f1, hx, haug, hx1, hmod, hinv⟩ :=
        ek_iteration cap s p visited inner hn hB hin h hpost
      obtain ⟨t, ht, htall⟩ := ek_iteration_trace cap s p visited inner hn hB hin h hpost x hx
      obtain ⟨rest, hrest, hrall⟩ := ih _ hinv (by
        show cap.matrix.sum - (s.maxFlow + x) % UINT ≤ fuel
        rw [hmod]; omega)
      refine ⟨t ++ rest, ?_, ?_⟩
      · rw [edmondsKarpTrace]
        simp only [hbfs, hx, haug, ht, hrest, Option.map_some']
      · intro m hm
        rcases List.mem_append.mp hm with h1 | h2
        · exact htall m h1
        · exact hrall m h2

end FlowNetworks

namespace FlowNetworks

/-! ## Column 0 of the flow matrix and the flow at the two ends -/

theorem augmentLoop_vertices (p : List Nat) (x : Nat) :
    ∀ (fuel w : Nat) (g f : adjmatrix) (r : adjmatrix × adjmatrix),
      augmentLoop p x fuel w g f = some r →
      r.1.vertices = g.vertices ∧ r.2.vertices = f.vertices := by
  intro fuel
  induction fuel with
  | zero =>
    intro w g f r h
    rw [augmentLoop] at h
    by_cases h0 : w = 0
    · simp only [h0, if_true, Option.some.injEq] at h
      subst h
      exact ⟨rfl, rfl⟩
    · simp [h0] at h
  | succ fuel ih =>
    intro w g f r h
    rw [augmentLoop] at h
    by_cases h0 : w = 0
    · simp only [h0, if_true, Option.some.injEq] at h
      subst h
      exact ⟨rfl, rfl⟩
    · simp only [h0, if_false] at h
      exact ih (p.getD w 0) (augmentStep p x w g f).1 (augmentStep p x w g f).2 r h

/-- The residualize/augment loop never stores into column 0 of the flow
matrix: its stores go to `f[p[vertex]][vertex]` with `vertex != 0`. -/
theorem augmentLoop_col0 (g0 : adjmatrix) (p : List Nat) (visited : List Bool)
    (rank : Nat → Nat) (x : Nat) (tree : treeOK g0 visited p rank) :
    ∀ (fuel w : Nat) (g f : adjmatrix) (r : adjmatrix × adjmatrix),
      w < g0.vertices → visited.getD w false = true → f.vertices = g0.vertices →
      augmentLoop p x fuel w g f = some r →
      (∀ v, v < g0.vertices → f.at v 0 = 0) → ∀ v, v < g0.vertices → r.2.at v 0 = 0 := by
  intro fuel
  induction fuel with
  | zero =>
    intro w g f r hw hvis hfv h hcol
    rw [augmentLoop] at h
    by_cases h0 : w = 0
    · simp only [h0, if_true, Option.some.injEq] at h
      subst h
      exact hcol
    · simp [h0] at h
  | succ fuel ih =>
    intro w g f r hw hvis hfv h hcol
    rw [augmentLoop] at h
    by_cases h0 : w = 0
    · simp only [h0, if_true, Option.some.injEq] at h
      subst h
      exact hcol
    · simp only [h0, if_false] at h
      obtain ⟨hu, huvis, _, _⟩ := (tree w hw hvis).2 h0
      refine ih (p.getD w 0) (augmentStep p x w g f).1 (augmentStep p x w g f).2 r hu huvis
        hfv h ?_
      intro v hv
      show (f.put (p.getD w 0) w ((f.at (p.getD w 0) w + x) % UINT)).at v 0 = 0
      rw [at_put_other (by omega) (by omega) (fun hc => h0 hc.2)]
      exact hcol v hv

/-- The outer loop of `edmondsKarp` leaves column 0 of the flow matrix as it
was when that column is zero. -/
theorem edmondsKarpLoop_col0 (n inner : Nat) (hn : 1 ≤ n) :
    ∀ (fuel : Nat) (s r : ekResult), s.g.vertices = n → s.f.vertices = n →
      (∀ v, v < n → s.f.at v 0 = 0) → edmondsKarpLoop inner fuel s = some r →
      ∀ v, v < n → r.f.at v 0 = 0 := by
  intro fuel
  induction fuel with
  | zero =>
    intro s r hg hf hcol h
    rw [edmondsKarpLoop.eq_def] at h
    cases hb : breadthFirstSearch inner s.g with
    | none => simp [hb] at h
    | some bp =>
      obtain ⟨b, p⟩ := bp
      cases b with
      | false =>
        simp only [hb, Option.some.injEq] at h
        subst h
        exact hcol
      | true => simp [hb] at h
  | succ fuel ih =>
    intro s r hg hf hcol h
    rw [edmondsKarpLoop.eq_def] at h
    cases hb : breadthFirstSearch inner s.g with
    | none => simp [hb] at h
    | some bp =>
      obtain ⟨b, p⟩ := bp
      cases b with
      | false =>
        simp only [hb, Option.some.injEq] at h
        subst h
        exact hcol
      | true =>
        simp only [hb] at h
        cases hx : pathCapacity inner s.g p with
        | none => simp [hx] at h
        | some x =>
          simp only [hx] at h
          cases ha : augmentLoop p x inner (s.g.vertices - 1) s.g s.f with
          | none => simp [ha] at h
          | some gf =>
            obtain ⟨g1, f1⟩ := gf
            simp only [ha] at h
            obtain ⟨visited, hpost⟩ := breadthFirstSearch_post s.g (by omega) inner true p hb
            obtain ⟨rank, tree⟩ := hpost.tree
            have hv := augmentLoop_vertices p x inner (s.g.vertices - 1) s.g s.f (g1, f1) ha
            have hc := augmentLoop_col0 s.g p visited rank x tree inner (s.g.vertices - 1)
              s.g s.f (g1, f1) (by omega) hpost.sink.symm (by rw [hf, hg]) ha
              (by rw [hg]; exact hcol)
            rw [hg] at hc
            exact ih _ r (by rw [← hg]; exact hv.1) (by rw [← hf]; exact hv.2) hc h

/-- The net amounts entering the sink add up to the flow value. -/
theorem sum_net_into_sink {cap g : adjmatrix} (h : ResInv cap g) (mf : Int)
    (hn : 2 ≤ cap.vertices)
    (cons : ∀ v, v < cap.vertices → v ≠ 0 → v ≠ cap.vertices - 1 → excess cap g v = 0)
    (value : excess cap g 0 = mf) :
    (Finset.sum (Finset.range cap.vertices) fun v => net cap g v (cap.vertices - 1)) = mf := by
  have hS : isCut cap.vertices (fun v => decide (v ≠ cap.vertices - 1)) := by
    constructor
    · simp only [decide_eq_true_eq]
      omega
    · simp
  have h1 := sum_excess_eq_value (fun v => decide (v ≠ cap.vertices - 1)) mf hn hS cons value
  rw [sum_excess_cut h] at h1
  rw [← h1]
  apply Finset.sum_congr rfl
  intro v hv
  rw [Finset.mem_range] at hv
  by_cases hvs : v = cap.vertices - 1
  · subst hvs
    have hz : net cap g (cap.vertices - 1) (cap.vertices - 1) = 0 := by
      have := net_antisymm h (show cap.vertices - 1 < cap.vertices by omega)
        (show cap.vertices - 1 < cap.vertices by omega)
      omega
    rw [hz]
    symm
    apply Finset.sum_eq_zero
    intro u _
    simp
  · have hpt : ∀ u ∈ Finset.range cap.vertices,
        (if decide (v ≠ cap.vertices - 1) = true ∧ decide (u ≠ cap.vertices - 1) = false
          then net cap g v u else 0) =
        if u = cap.vertices - 1 then net cap g v (cap.vertices - 1) else 0 := by
      intro u _
      by_cases hu : u = cap.vertices - 1
      · subst hu
        simp [hvs]
      · simp [hu]
    rw [Finset.sum_congr rfl hpt, Finset.sum_ite_eq']
    rw [if_pos (Finset.mem_range.mpr (by omega))]

end FlowNetworks

namespace FlowNetworks

/-! ## The attempts of `generate_flow` -/

/-- Allowed writes never turn a nonzero entry into zero. -/
theorem GenWrites.nonzero {n : Nat} {a b : adjmatrix} (h : GenWrites n a b)
    (hv : a.vertices = n) (hwf : a.wellFormed) (i j : Nat) (hj : j < n)
    (ha : a.at i j ≠ 0) : b.at i j ≠ 0 := by
  induction h with
  | refl => exact ha
  | @step m' u v x hw hu hv1 hv2 hx1 hx2 ih =>
    have hvm : m'.vertices = n := by rw [hw.vertices_eq, hv]
    have hwfm := hw.wellFormed hwf
    exact at_put_ne_zero hwfm (by omega) (by omega) (by omega) (by omega) ih

/-- With fuel for the remaining attempts and for the depth of the
reachability check, the retry loop makes at least one and at most
`COP_OUT_LIMIT - z` passes, and the matrix it returns comes from the matrix at
the end of each pass by allowed writes. -/
theorem generateAttempts_spec (rand : Nat → Nat) (n depth : Nat) (hn : 2 ≤ n) (hd : n ≤ depth) :
    ∀ (fuel z : Nat) (s : genState), s.flownet.vertices = n → s.flownet.wellFormed →
    z < COP_OUT_LIMIT → COP_OUT_LIMIT ≤ z + 1 + fuel →
    ∃ s' t, generateLoop rand depth fuel z s = some s' ∧
      generateAttempts rand depth fuel z s = some t ∧
      1 ≤ t.length ∧ t.length + z ≤ COP_OUT_LIMIT ∧
      ∀ a ∈ t, a.vertices = n ∧ a.wellFormed ∧ GenWrites n a s'.flownet := by
  intro fuel
  induction fuel with
  | zero =>
    intro z s hv hwf hzl hz
    obtain ⟨s1, hs1⟩ : ∃ s1, s1 = forceEdges rand (placeEdges rand { s with e := 0 }) :=
      ⟨_, rfl⟩
    have hw : GenWrites n s.flownet s1.flownet := by
      rw [hs1]; exact attempt_writes rand n s hv
    have hv1 : s1.flownet.vertices = n := by
      rw [hw.vertices_eq, hv]
    have hwf1 := hw.wellFormed hwf
    obtain ⟨b, r, hb, _, _, _⟩ := recursiveBFS_total s1.flownet depth 0
      (List.replicate n false) (by simp [hv1]) (by omega) (getD_replicate _ _ _)
      (by simp; omega)
    rw [generateLoop.eq_def, generateAttempts.eq_def]
    simp only [← hs1, hv1, hb]
    cases b with
    | true =>
      refine ⟨s1, [s1.flownet], rfl, rfl, by simp, by simp; omega, fun a ha => ?_⟩
      have : a = s1.flownet := by simpa using ha
      subst this
      exact ⟨hv1, hwf1, GenWrites.refl⟩
    | false =>
      have hz' : ¬ (z + 1 < COP_OUT_LIMIT) := by omega
      simp only [hz', if_false]
      have hc := capacity_range (rand s1.calls)
      have hput : (adjmatrix.mk n (s1.flownet.matrix.set (n - 1)
          (rand s1.calls % MAX_EDGE_CAPACITY + 1))) =
          s1.flownet.put 0 (n - 1) (rand s1.calls % MAX_EDGE_CAPACITY + 1) := by
        simp [adjmatrix.put, hv1]
      refine ⟨_, [s1.flownet], rfl, rfl, by simp, by simp; omega, fun a ha => ?_⟩
      have : a = s1.flownet := by simpa using ha
      subst this
      refine ⟨hv1, hwf1, ?_⟩
      have h1 := GenWrites.step 0 (n - 1) (rand s1.calls % MAX_EDGE_CAPACITY + 1)
        (GenWrites.refl : GenWrites n s1.flownet s1.flownet) (by omega) (by omega) (by omega)
        hc.1 hc.2
      rw [← hput] at h1
      exact h1
  | succ fuel ih =>
    intro z s hv hwf hzl hz
    obtain ⟨s1, hs1⟩ : ∃ s1, s1 = forceEdges rand (placeEdges rand { s with e := 0 }) :=
      ⟨_, rfl⟩
    have hw : GenWrites n s.flownet s1.flownet := by
      rw [hs1]; exact attempt_writes rand n s hv
    have hv1 : s1.flownet.vertices = n := by
      rw [hw.vertices_eq, hv]
    have hwf1 := hw.wellFormed hwf
    obtain ⟨b, r, hb, _, _, _⟩ := recursiveBFS_total s1.flownet depth 0
      (List.replicate n false) (by simp [hv1]) (by omega) (getD_replicate _ _ _)
      (by simp; omega)
    rw [generateLoop.eq_def, generateAttempts.eq_def]
    simp only [← hs1, hv1, hb]
    cases b with
    | true =>
      refine ⟨s1, [s1.flownet], rfl, rfl, by simp, by simp; omega, fun a ha => ?_⟩
      have : a = s1.flownet := by simpa using ha
      subst this
      exact ⟨hv1, hwf1, GenWrites.refl⟩
    | false =>
      by_cases hz' : z + 1 < COP_OUT_LIMIT
      · simp only [hz', if_true]
        obtain ⟨s', t, hs', ht, hlen1, hlen, hall⟩ := ih (z + 1) s1 hv1 hwf1 hz' (by omega)
        obtain ⟨s'', hs'', hw', _, _⟩ := generateLoop_spec rand n depth hn hd fuel (z + 1) s1
          hv1 hwf1 (by omega)
        have hsame : s'' = s' := by
          rw [hs''] at hs'
          exact Option.some.inj hs'
        subst hsame
        refine ⟨s'', s1.flownet :: t, hs'', ?_, by simp, by simp only [List.length_cons]; omega,
          fun a ha => ?_⟩
        · rw [ht]; rfl
        · rcases List.mem_cons.mp ha with rfl | hmem
          · exact ⟨hv1, hwf1, hw'⟩
          · exact hall a hmem
      · simp only [hz', if_false]
        have hc := capacity_range (rand s1.calls)
        have hput : (adjmatrix.mk n (s1.flownet.matrix.set (n - 1)
            (rand s1.calls % MAX_EDGE_CAPACITY + 1))) =
            s1.flownet.put 0 (n - 1) (rand s1.calls % MAX_EDGE_CAPACITY + 1) := by
          simp [adjmatrix.put, hv1]
        refine ⟨_, [s1.flownet], rfl, rfl, by simp, by simp; omega, fun a ha => ?_⟩
        have : a = s1.flownet := by simpa using ha
        subst this
        refine ⟨hv1, hwf1, ?_⟩
        have h1 := GenWrites.step 0 (n - 1) (rand s1.calls % MAX_EDGE_CAPACITY + 1)
          (GenWrites.refl : GenWrites n s1.flownet s1.flownet) (by omega) (by omega) (by omega)
          hc.1 hc.2
        rw [← hput] at h1
        exact h1

end FlowNetworks

namespace EditDistance

/-! ## The word table: `addNode` and `contains` -/

theorem strcmp_eq_zero_iff (s t : List Nat) : strcmp s t = 0 ↔ s = t := by
  induction s generalizing t with
  | nil =>
    cases t with
    | nil => simp [strcmp]
    | cons b t => simp [strcmp]
  | cons a s ih =>
    cases t with
    | nil => simp [strcmp]
    | cons b t =>
      rw [strcmp]
      by_cases h1 : a < b
      · rw [if_pos h1]
        constructor
        · intro h; omega
        · intro h
          simp only [List.cons.injEq] at h
          omega
      · rw [if_neg h1]
        by_cases h2 : b < a
        · rw [if_pos h2]
          constructor
          · intro h; omega
          · intro h
            simp only [List.cons.injEq] at h
            omega
        · rw [if_neg h2, ih t]
          have : a = b := by omega
          subst this
          simp

theorem hash_lt (str : List Nat) : hash str < HASH_BUCKETS := by
  unfold hash HASH_BUCKETS
  exact Nat.mod_lt _ (by decide)

theorem mem_words_insertNode (str : List Nat) (addr : Nat) (w : List Nat) :
    ∀ t : node, w ∈ (insertNode str addr t).words ↔ w = str ∨ w ∈ t.words := by
  intro t
  induction t with
  | NULL => simp [insertNode, node.words]
  | cell a word L R ihL ihR =>
    rw [insertNode]
    by_cases h : strcmp str word < 0
    · rw [if_pos h]
      simp only [node.words, List.mem_append, ihL, List.mem_singleton]
      tauto
    · rw [if_neg h]
      simp only [node.words, List.mem_append, ihR, List.mem_singleton]
      tauto

/-- The traversal of `contains` finds only stored words. -/
theorem lookup_sound (w : List Nat) : ∀ t : node, lookup w t = true → w ∈ t.words := by
  intro t
  induction t with
  | NULL => intro h; simp [lookup] at h
  | cell a word L R ihL ihR =>
    intro h
    rw [lookup] at h
    simp only [node.words, List.mem_append, List.mem_singleton]
    by_cases h0 : strcmp w word = 0
    · exact Or.inr ((strcmp_eq_zero_iff w word).mp h0)
    · rw [if_neg h0] at h
      by_cases h1 : strcmp w word < 0
      · rw [if_pos h1] at h
        exact Or.inl (Or.inl (ihL h))
      · rw [if_neg h1] at h
        exact Or.inl (Or.inr (ihR h))

/-- The traversal of `contains` finds a word right after `addNode` stored it. -/
theorem lookup_insertNode_self (w : List Nat) (addr : Nat) :
    ∀ t : node, lookup w (insertNode w addr t) = true := by
  intro t
  induction t with
  | NULL =>
    rw [insertNode, lookup, if_pos ((strcmp_eq_zero_iff w w).mpr rfl)]
  | cell a word L R ihL ihR =>
    rw [insertNode]
    by_cases h : strcmp w word < 0
    · rw [if_pos h, lookup, if_neg (by omega), if_pos h]
      exact ihL
    · rw [if_neg h, lookup]
      by_cases h0 : strcmp w word = 0
      · rw [if_pos h0]
      · rw [if_neg h0, if_neg h]
        exact ihR

/-- A later `addNode` does not hide a word from the traversal of `contains`. -/
theorem lookup_insertNode_other (w v : List Nat) (addr : Nat) :
    ∀ t : node, lookup w t = true → lookup w (insertNode v addr t) = true := by
  intro t
  induction t with
  | NULL => intro h; simp [lookup] at h
  | cell a word L R ihL ihR =>
    intro h
    rw [lookup] at h
    rw [insertNode]
    by_cases hv : strcmp v word < 0
    · rw [if_pos hv, lookup]
      by_cases h0 : strcmp w word = 0
      · rw [if_pos h0]
      · rw [if_neg h0] at h ⊢
        by_cases h1 : strcmp w word < 0
        · rw [if_pos h1] at h ⊢
          exact ihL h
        · rw [if_neg h1] at h ⊢
          exact h
    · rw [if_neg hv, lookup]
      by_cases h0 : strcmp w word = 0
      · rw [if_pos h0]
      · rw [if_neg h0] at h ⊢
        by_cases h1 : strcmp w word < 0
        · rw [if_pos h1] at h ⊢
          exact h
        · rw [if_neg h1] at h ⊢
          exact ihR h

theorem getD_set_node (l : List node) (i p : Nat) (x : node) :
    (l.set i x).getD p node.NULL = if i = p ∧ p < l.length then x else l.getD p node.NULL := by
  by_cases h : i = p
  · subst h
    by_cases hl : i < l.length
    · simp [List.getD_eq_getElem?_getD, List.getElem?_set, hl]
    · have hnone : l[i]? = none := List.getElem?_eq_none (by omega)
      simp [List.getD_eq_getElem?_getD, List.getElem?_set, hl, hnone]
  · simp [List.getD_eq_getElem?_getD, List.getElem?_set, h]

theorem buckets_length (words : List (List Nat)) :
    (words.foldl addNode emptyTable).buckets.length = HASH_BUCKETS := by
  have : ∀ (ws : List (List Nat)) (t : table), t.buckets.length = HASH_BUCKETS →
      (ws.foldl addNode t).buckets.length = HASH_BUCKETS := by
    intro ws
    induction ws with
    | nil => intro t h; exact h
    | cons w ws ih =>
      intro t h
      rw [List.foldl_cons]
      apply ih
      simp [addNode, h]
  exact this words emptyTable (by simp [emptyTable])

/-- After any sequence of `addNode` calls, `contains` answers true exactly for
the words that were added. -/
theorem contains_foldl_addNode (w : List Nat) :
    ∀ (ws : List (List Nat)) (t : table), t.buckets.length = HASH_BUCKETS →
      (contains w (ws.foldl addNode t) = true ↔ contains w t = true ∨ w ∈ ws) := by
  intro ws
  induction ws with
  | nil => intro t _; simp
  | cons v ws ih =>
    intro t hlen
    rw [List.foldl_cons, ih (addNode t v) (by simp [addNode, hlen])]
    have hstep : contains w (addNode t v) = true ↔ contains w t = true ∨ w = v := by
      unfold contains addNode
      simp only
      rw [getD_set_node]
      by_cases hh : hash v = hash w
      · rw [if_pos ⟨hh, by rw [hlen]; exact hash_lt w⟩, hh]
        constructor
        · intro h
          have := lookup_sound w _ h
          rw [mem_words_insertNode] at this
          rcases this with h1 | h1
          · exact Or.inr h1
          · by_cases hc : lookup w (t.buckets.getD (hash w) node.NULL) = true
            · exact Or.inl hc
            · -- the word is stored, so the traversal that found it in the larger
              -- tree either met the new node or a node of the old tree
              by_cases hwv : w = v
              · exact Or.inr hwv
              · left
                have hmono : ∀ u : node, lookup w (insertNode v t.links.length u) = true →
                    lookup w u = true := by
                  intro u
                  induction u with
                  | NULL =>
                    intro hu
                    rw [insertNode, lookup] at hu
                    rw [if_neg (fun e => hwv ((strcmp_eq_zero_iff w v).mp e))] at hu
                    simp [lookup] at hu
                  | cell a word L R ihL ihR =>
                    intro hu
                    rw [insertNode] at hu
                    rw [lookup]
                    by_cases hv : strcmp v word < 0
                    · rw [if_pos hv, lookup] at hu
                      by_cases h0 : strcmp w word = 0
                      · rw [if_pos h0]
                      · rw [if_neg h0] at hu ⊢
                        by_cases h2 : strcmp w word < 0
                        · rw [if_pos h2] at hu ⊢
                          exact ihL hu
                        · rw [if_neg h2] at hu ⊢
                          exact hu
                    · rw [if_neg hv, lookup] at hu
                      by_cases h0 : strcmp w word = 0
                      · rw [if_pos h0]
                      · rw [if_neg h0] at hu ⊢
                        by_cases h2 : strcmp w word < 0
                        · rw [if_pos h2] at hu ⊢
                          exact hu
                        · rw [if_neg h2] at hu ⊢
                          exact ihR hu
                exact hmono _ h
        · rintro (h | h)
          · exact lookup_insertNode_other w v _ _ h
          · subst h
            exact lookup_insertNode_self w _ _
      · rw [if_neg (fun h => hh h.1)]
        constructor
        · intro h; exact Or.inl h
        · rintro (h | h)
          · exact h
          · subst h
            exact absurd rfl hh
    rw [hstep, List.mem_cons]
    tauto

end EditDistance

namespace EditDistance

/-! ## The values of `editDistance` are values of an `int` -/

/-- Every entry of a row is a value of an `int`. -/
theorem toInt_range (x : Int) : -(2 ^ 31) ≤ toInt x ∧ toInt x < 2 ^ 31 := by
  unfold toInt
  omega

theorem zero_range : -(2 ^ 31) ≤ (0 : Int) ∧ (0 : Int) < 2 ^ 31 := by
  constructor <;> norm_num

theorem getD_range (l : List Int) (h : ∀ x ∈ l, -(2 ^ 31) ≤ x ∧ x < 2 ^ 31) (k : Nat) :
    -(2 ^ 31) ≤ l.getD k 0 ∧ l.getD k 0 < 2 ^ 31 := by
  rw [List.getD_eq_getElem?_getD]
  by_cases hk : k < l.length
  · rw [List.getElem?_eq_getElem hk]
    exact h _ (List.getElem_mem hk)
  · rw [List.getElem?_eq_none (by omega)]
    simp

theorem set_range (l : List Int) (h : ∀ x ∈ l, -(2 ^ 31) ≤ x ∧ x < 2 ^ 31) (k : Nat) (v : Int)
    (hv : -(2 ^ 31) ≤ v ∧ v < 2 ^ 31) : ∀ x ∈ l.set k v, -(2 ^ 31) ≤ x ∧ x < 2 ^ 31 := by
  intro x hx
  rcases List.mem_or_eq_of_mem_set hx with h1 | h1
  · exact h x h1
  · rw [h1]; exact hv

theorem cellStep_range (s1 s2 : List Nat) (i : Nat) (prevRow curRow : List Int) (j : Nat)
    (hp : ∀ x ∈ prevRow, -(2 ^ 31) ≤ x ∧ x < 2 ^ 31)
    (hc : ∀ x ∈ curRow, -(2 ^ 31) ≤ x ∧ x < 2 ^ 31) :
    ∀ x ∈ cellStep s1 s2 i prevRow curRow j, -(2 ^ 31) ≤ x ∧ x < 2 ^ 31 := by
  unfold cellStep
  apply set_range _ hc
  have h1 := toInt_range (prevRow.getD (j + 1) 0 + 1)
  have h2 := toInt_range (curRow.getD j 0 + 1)
  have h3 := toInt_range (prevRow.getD j 0 + 1)
  have h4 := getD_range prevRow hp j
  show -(2 ^ 31) ≤ ite _ _ _ ∧ ite _ _ _ < 2 ^ 31
  split_ifs <;> assumption

theorem rowStep_range (s1 s2 : List Nat) (len2 : Int) (rows : List Int × List Int) (i : Nat)
    (hp : ∀ x ∈ rows.1, -(2 ^ 31) ≤ x ∧ x < 2 ^ 31)
    (hc : ∀ x ∈ rows.2, -(2 ^ 31) ≤ x ∧ x < 2 ^ 31) :
    (∀ x ∈ (rowStep s1 s2 len2 rows i).1, -(2 ^ 31) ≤ x ∧ x < 2 ^ 31) ∧
    (∀ x ∈ (rowStep s1 s2 len2 rows i).2, -(2 ^ 31) ≤ x ∧ x < 2 ^ 31) := by
  unfold rowStep
  refine ⟨?_, hp⟩
  simp only
  have : ∀ (js : List Nat) (c : List Int), (∀ x ∈ c, -(2 ^ 31) ≤ x ∧ x < 2 ^ 31) →
      ∀ x ∈ js.foldl (cellStep s1 s2 i rows.1) c, -(2 ^ 31) ≤ x ∧ x < 2 ^ 31 := by
    intro js
    induction js with
    | nil => intro c h; exact h
    | cons j js ih =>
      intro c h
      rw [List.foldl_cons]
      exact ih _ (cellStep_range s1 s2 i rows.1 c j hp h)
  exact this _ _ (set_range _ hc 0 _ (toInt_range _))

/-- The result of `editDistance` is a value of an `int`. -/
theorem editDistance_range (s1 s2 : List Nat) :
    -(2 ^ 31) ≤ editDistance s1 s2 ∧ editDistance s1 s2 < 2 ^ 31 := by
  have : ∀ (is : List Nat) (p c : List Int),
      (∀ x ∈ p, -(2 ^ 31) ≤ x ∧ x < 2 ^ 31) → (∀ x ∈ c, -(2 ^ 31) ≤ x ∧ x < 2 ^ 31) →
      ∀ x ∈ (is.foldl (rowStep s1 s2 (toInt s2.length)) (p, c)).1,
        -(2 ^ 31) ≤ x ∧ x < 2 ^ 31 := by
    intro is
    induction is with
    | nil => intro p c h _; exact h
    | cons i is ih =>
      intro p c h1 h2
      rw [List.foldl_cons]
      have hr := rowStep_range s1 s2 (toInt s2.length) (p, c) i h1 h2
      cases hq : rowStep s1 s2 (toInt s2.length) (p, c) i with
      | mk p1 c1 =>
        rw [hq] at hr
        exact ih p1 c1 hr.1 hr.2
  have hp : ∀ x ∈ (List.range (toInt s2.length + 1).toNat).map
      (fun (i : Nat) => toInt (i : Int)), -(2 ^ 31) ≤ x ∧ x < 2 ^ 31 := by
    intro x hx
    obtain ⟨k, _, hk⟩ := List.mem_map.mp hx
    rw [← hk]
    exact toInt_range _
  have hc : ∀ x ∈ List.replicate (toInt s2.length + 1).toNat (0 : Int),
      -(2 ^ 31) ≤ x ∧ x < 2 ^ 31 := by
    intro x hx
    have h0 : x = 0 := List.eq_of_mem_replicate hx
    rw [h0]
    exact zero_range
  unfold editDistance
  exact getD_range _ (this _ _ _ hp hc) _

theorem editDistance_le_INT_MAX (s1 s2 : List Nat) : editDistance s1 s2 ≤ INT_MAX := by
  have := (editDistance_range s1 s2).2
  unfold INT_MAX
  omega

end EditDistance

namespace EditDistance

/-! ## The list of the nearest words: `minEditDistanceKernel` -/

theorem getD_set_link (l : List (Option Nat)) (i p : Nat) (x : Option Nat) :
    (l.set i x).getD p none = if i = p ∧ p < l.length then x else l.getD p none := by
  by_cases h : i = p
  · subst h
    by_cases hl : i < l.length
    · simp [List.getD_eq_getElem?_getD, List.getElem?_set, hl]
    · have hnone : l[i]? = none := List.getElem?_eq_none (by omega)
      simp [List.getD_eq_getElem?_getD, List.getElem?_set, hl, hnone]
  · simp [List.getD_eq_getElem?_getD, List.getElem?_set, h]

/-- A store into the link of a node outside the list leaves the list as it is. -/
theorem linked_set (links : List (Option Nat)) (a : Nat) (v : Option Nat) :
    ∀ (l : List Nat) (head : Option Nat), a ∉ l → linked links head l →
      linked (links.set a v) head l := by
  intro l
  induction l with
  | nil => intro head _ h; exact h
  | cons b l ih =>
    intro head ha h
    rw [linked] at h ⊢
    refine ⟨h.1, ?_⟩
    have hab : a ≠ b := fun e => ha (by rw [e]; exact List.mem_cons_self _ _)
    rw [getD_set_link, if_neg (fun e => hab e.1)]
    exact ih _ (fun e => ha (List.mem_cons_of_mem _ e)) h.2

/-- The walk through the links returns the list, with fuel for its length. -/
theorem linked_linkList (links : List (Option Nat)) :
    ∀ (l : List Nat) (head : Option Nat) (fuel : Nat), linked links head l → l.length ≤ fuel →
      linkList links fuel head = some l := by
  intro l
  induction l with
  | nil =>
    intro head fuel h _
    rw [linked] at h
    rw [h]
    cases fuel <;> rfl
  | cons b l ih =>
    intro head fuel h hf
    rw [linked] at h
    rw [h.1]
    cases fuel with
    | zero => simp at hf
    | succ fuel =>
      rw [linkList, ih _ fuel h.2 (by simpa using hf)]
      rfl

/-- What the comparisons of the kernel compute on a sequence of nodes: the
least distance, and the addresses of the nodes that attain it. -/
theorem foldl_pick_spec (str : List Nat) :
    ∀ (C : List (Nat × List Nat)) (d0 : Int) (l0 : List Nat),
      (C.foldl (pick str) (d0, l0)).1 ≤ d0 ∧
      (∀ c ∈ C, (C.foldl (pick str) (d0, l0)).1 ≤ editDistance str c.2) ∧
      ((C.foldl (pick str) (d0, l0)).1 = d0 ∨
        ∃ c ∈ C, (C.foldl (pick str) (d0, l0)).1 = editDistance str c.2) ∧
      (∀ a, a ∈ (C.foldl (pick str) (d0, l0)).2 ↔
        (a ∈ l0 ∧ (C.foldl (pick str) (d0, l0)).1 = d0) ∨
          ∃ w, (a, w) ∈ C ∧ editDistance str w = (C.foldl (pick str) (d0, l0)).1) ∧
      ((l0 ++ C.map Prod.fst).Nodup → (C.foldl (pick str) (d0, l0)).2.Nodup) := by
  intro C
  induction C with
  | nil =>
    intro d0 l0
    simp only [List.foldl_nil, List.map_nil, List.append_nil]
    refine ⟨le_refl _, fun c hc => absurd hc (List.not_mem_nil _), Or.inl trivial, ?_, fun h => h⟩
    intro a
    constructor
    · intro h; exact Or.inl ⟨h, trivial⟩
    · rintro (h | ⟨w, h, _⟩)
      · exact h.1
      · exact absurd h (List.not_mem_nil _)
  | cons c C ih =>
    intro d0 l0
    rw [List.foldl_cons]
    obtain ⟨d1, l1, h1⟩ : ∃ d1 l1, pick str (d0, l0) c = (d1, l1) := ⟨_, _, rfl⟩
    rw [h1]
    obtain ⟨i1, i2, i3, i4, i5⟩ := ih d1 l1
    obtain ⟨d, l, hr⟩ : ∃ d l, C.foldl (pick str) (d1, l1) = (d, l) := ⟨_, _, rfl⟩
    rw [hr] at i1 i2 i3 i4 i5 ⊢
    simp only at i1 i2 i3 i4 i5 ⊢
    obtain ⟨ca, cw⟩ := c
    unfold pick at h1
    simp only at h1
    by_cases hlt : editDistance str cw < d0
    · rw [if_pos hlt] at h1
      simp only [Prod.mk.injEq] at h1
      obtain ⟨e1, e2⟩ := h1
      subst e1 e2
      refine ⟨by omega, ?_, ?_, ?_, ?_⟩
      · intro c hc
        rcases List.mem_cons.mp hc with h | h
        · rw [h]; exact i1
        · exact i2 c h
      · right
        rcases i3 with h | ⟨c, hc, h⟩
        · exact ⟨(ca, cw), List.mem_cons_self _ _, h⟩
        · exact ⟨c, List.mem_cons_of_mem _ hc, h⟩
      · intro a
        rw [i4 a]
        constructor
        · rintro (⟨h, hd⟩ | ⟨w, hw, hd⟩)
          · right
            rw [List.mem_singleton] at h
            exact ⟨cw, by rw [h]; exact List.mem_cons_self _ _, hd.symm⟩
          · exact Or.inr ⟨w, List.mem_cons_of_mem _ hw, hd⟩
        · rintro (⟨_, hd⟩ | ⟨w, hw, hd⟩)
          · omega
          · rcases List.mem_cons.mp hw with h | h
            · simp only [Prod.mk.injEq] at h
              left
              obtain ⟨ha, hw2⟩ := h
              subst ha
              subst hw2
              exact ⟨List.mem_singleton.mpr rfl, hd.symm⟩
            · exact Or.inr ⟨w, h, hd⟩
      · intro hnd
        apply i5
        simp only [List.map_cons] at hnd
        have hs : (ca :: C.map Prod.fst).Nodup :=
          List.Nodup.sublist (List.sublist_append_right l0 _) hnd
        simpa using hs
    · rw [if_neg hlt] at h1
      by_cases heq : editDistance str cw = d0
      · rw [if_pos heq] at h1
        simp only [Prod.mk.injEq] at h1
        obtain ⟨e1, e2⟩ := h1
        subst e1 e2
        refine ⟨i1, ?_, ?_, ?_, ?_⟩
        · intro c hc
          rcases List.mem_cons.mp hc with h | h
          · rw [h]; simp only; omega
          · exact i2 c h
        · rcases i3 with h | ⟨c, hc, h⟩
          · exact Or.inl h
          · exact Or.inr ⟨c, List.mem_cons_of_mem _ hc, h⟩
        · intro a
          rw [i4 a]
          constructor
          · rintro (⟨h, hd⟩ | ⟨w, hw, hd⟩)
            · rcases List.mem_cons.mp h with h | h
              · right
                exact ⟨cw, by rw [h]; exact List.mem_cons_self _ _, by omega⟩
              · exact Or.inl ⟨h, hd⟩
            · exact Or.inr ⟨w, List.mem_cons_of_mem _ hw, hd⟩
          · rintro (⟨h, hd⟩ | ⟨w, hw, hd⟩)
            · exact Or.inl ⟨List.mem_cons_of_mem _ h, hd⟩
            · rcases List.mem_cons.mp hw with h | h
              · simp only [Prod.mk.injEq] at h
                left
                obtain ⟨ha, hw2⟩ := h
                subst ha
                subst hw2
                exact ⟨List.mem_cons_self _ _, by omega⟩
              · exact Or.inr ⟨w, h, hd⟩
        · intro hnd
          apply i5
          simp only [List.map_cons] at hnd
          exact (List.perm_middle.nodup_iff).mp hnd
      · rw [if_neg heq] at h1
        simp only [Prod.mk.injEq] at h1
        obtain ⟨e1, e2⟩ := h1
        subst e1 e2
        refine ⟨i1, ?_, ?_, ?_, ?_⟩
        · intro c hc
          rcases List.mem_cons.mp hc with h | h
          · rw [h]; simp only; omega
          · exact i2 c h
        · rcases i3 with h | ⟨c, hc, h⟩
          · exact Or.inl h
          · exact Or.inr ⟨c, List.mem_cons_of_mem _ hc, h⟩
        · intro a
          rw [i4 a]
          constructor
          · rintro (h | ⟨w, hw, hd⟩)
            · exact Or.inl h
            · exact Or.inr ⟨w, List.mem_cons_of_mem _ hw, hd⟩
          · rintro (h | ⟨w, hw, hd⟩)
            · exact Or.inl h
            · rcases List.mem_cons.mp hw with h | h
              · simp only [Prod.mk.injEq] at h
                rw [h.2] at hd
                omega
              · exact Or.inr ⟨w, h, hd⟩
        · intro hnd
          apply i5
          simp only [List.map_cons] at hnd
          exact hnd.sublist (List.Sublist.append_left (List.sublist_cons_self _ _) _)

end EditDistance

namespace EditDistance

theorem kernel_cell (str : List Nat) (addr : Nat) (word : List Nat) (L R : node)
    (st st3 : minState)
    (h : st3 = minEditDistanceKernel str R (minEditDistanceKernel str L
      (minState.mk st.minDist st.minHead (st.links.set addr none)))) :
    minEditDistanceKernel str (node.cell addr word L R) st =
      if editDistance str word < st3.minDist then
        minState.mk (editDistance str word) (some addr) st3.links
      else if editDistance str word = st3.minDist then
        minState.mk st3.minDist (some addr) (st3.links.set addr st3.minHead)
      else st3 := by
  subst h
  rw [minEditDistanceKernel]

theorem mem_foldl_pick (str : List Nat) (C : List (Nat × List Nat)) (d0 : Int) (l0 : List Nat)
    (a : Nat) (h : a ∈ (C.foldl (pick str) (d0, l0)).2) : a ∈ l0 ∨ a ∈ C.map Prod.fst := by
  rcases ((foldl_pick_spec str C d0 l0).2.2.2.1 a).mp h with h1 | ⟨w, hw, _⟩
  · exact Or.inl h1.1
  · exact Or.inr (List.mem_map.mpr ⟨(a, w), hw, rfl⟩)

/-- The kernel on a tree, from a state whose list avoids the nodes of the tree:
only links of the tree change, and the state that results holds the values of
the comparisons made node by node. -/
theorem kernel_spec (str : List Nat) :
    ∀ (t : node) (st : minState) (l : List Nat),
      linked st.links st.minHead l → (t.cells.map Prod.fst).Nodup →
      (∀ a ∈ t.cells.map Prod.fst, a ∉ l ∧ a < st.links.length) →
      (minEditDistanceKernel str t st).links.length = st.links.length ∧
      (∀ b, b ∉ t.cells.map Prod.fst →
        (minEditDistanceKernel str t st).links.getD b none = st.links.getD b none) ∧
      (minEditDistanceKernel str t st).minDist = (t.cells.foldl (pick str) (st.minDist, l)).1 ∧
      linked (minEditDistanceKernel str t st).links (minEditDistanceKernel str t st).minHead
        (t.cells.foldl (pick str) (st.minDist, l)).2 := by
  intro t
  induction t with
  | NULL =>
    intro st l hl _ _
    rw [minEditDistanceKernel]
    exact ⟨rfl, fun _ _ => rfl, rfl, hl⟩
  | cell addr word L R ihL ihR =>
    intro st l hl hnd hfresh
    have hcells : (node.cell addr word L R).cells = L.cells ++ R.cells ++ [(addr, word)] := rfl
    rw [hcells] at hnd hfresh ⊢
    rw [List.map_append, List.map_append] at hnd hfresh ⊢
    have hsing : List.map Prod.fst [(addr, word)] = [addr] := rfl
    rw [hsing] at hnd hfresh ⊢
    rw [List.nodup_append, List.nodup_append] at hnd
    obtain ⟨⟨hndL, hndR, hLR⟩, _, hx⟩ := hnd
    have haL : addr ∉ L.cells.map Prod.fst := fun h =>
      hx (List.mem_append_left _ h) (List.mem_singleton.mpr rfl)
    have haR : addr ∉ R.cells.map Prod.fst := fun h =>
      hx (List.mem_append_right _ h) (List.mem_singleton.mpr rfl)
    have hfa := hfresh addr (List.mem_append_right _ (List.mem_singleton.mpr rfl))
    have hfL : ∀ a ∈ L.cells.map Prod.fst, a ∉ l ∧ a < st.links.length := fun a ha =>
      hfresh a (List.mem_append_left _ (List.mem_append_left _ ha))
    have hfR : ∀ a ∈ R.cells.map Prod.fst, a ∉ l ∧ a < st.links.length := fun a ha =>
      hfresh a (List.mem_append_left _ (List.mem_append_right _ ha))
    -- the reset of the link of `cur`
    obtain ⟨st1, hst1⟩ : ∃ st1, st1 = minState.mk st.minDist st.minHead (st.links.set addr none) :=
      ⟨_, rfl⟩
    have h1len : st1.links.length = st.links.length := by rw [hst1]; exact List.length_set _ _ _
    have h1d : st1.minDist = st.minDist := by rw [hst1]
    have h1l : linked st1.links st1.minHead l := by
      rw [hst1]; exact linked_set _ _ _ _ _ hfa.1 hl
    have h1a : st1.links.getD addr none = none := by
      rw [hst1]
      show (st.links.set addr none).getD addr none = none
      rw [getD_set_link, if_pos ⟨rfl, hfa.2⟩]
    -- the left subtree
    obtain ⟨st2, hst2⟩ : ∃ st2, st2 = minEditDistanceKernel str L st1 := ⟨_, rfl⟩
    obtain ⟨h2len, h2frame, h2d, h2l⟩ := ihL st1 l h1l hndL
      (fun a ha => ⟨(hfL a ha).1, by rw [h1len]; exact (hfL a ha).2⟩)
    rw [← hst2] at h2len h2frame h2d h2l
    rw [h1d] at h2d h2l
    -- the right subtree
    obtain ⟨st3, hst3⟩ : ∃ st3, st3 = minEditDistanceKernel str R st2 := ⟨_, rfl⟩
    have hR2 : ∀ a ∈ R.cells.map Prod.fst,
        a ∉ (L.cells.foldl (pick str) (st.minDist, l)).2 ∧ a < st2.links.length := by
      intro a ha
      refine ⟨fun hm => ?_, by rw [h2len, h1len]; exact (hfR a ha).2⟩
      rcases mem_foldl_pick str _ _ _ a hm with h | h
      · exact (hfR a ha).1 h
      · exact hLR h ha
    obtain ⟨h3len, h3frame, h3d, h3l⟩ := ihR st2 _ h2l hndR hR2
    rw [← hst3] at h3len h3frame h3d h3l
    rw [h2d] at h3d
    rw [h2d] at h3l
    have hfold : (L.cells ++ R.cells ++ [(addr, word)]).foldl (pick str) (st.minDist, l) =
        pick str (R.cells.foldl (pick str) (L.cells.foldl (pick str) (st.minDist, l)))
          (addr, word) := by
      rw [List.foldl_append, List.foldl_append]
      rfl
    rw [hfold]
    obtain ⟨X, hX⟩ : ∃ X, X = R.cells.foldl (pick str) (L.cells.foldl (pick str) (st.minDist, l)) :=
      ⟨_, rfl⟩
    have hXeq : R.cells.foldl (pick str)
        ((L.cells.foldl (pick str) (st.minDist, l)).1,
          (L.cells.foldl (pick str) (st.minDist, l)).2) = X := by
      rw [hX]
    rw [hXeq] at h3d h3l
    rw [← hX]
    have h3a : st3.links.getD addr none = none := by
      rw [h3frame addr haR, h2frame addr haL, h1a]
    have haX : addr ∉ X.2 := by
      intro hm
      rw [hX] at hm
      rcases mem_foldl_pick str _ _ _ addr hm with h | h
      · rcases mem_foldl_pick str _ _ _ addr h with h | h
        · exact hfa.1 h
        · exact haL h
      · exact haR h
    have hlen3 : st3.links.length = st.links.length := by rw [h3len, h2len, h1len]
    rw [kernel_cell str addr word L R st st3 (by rw [hst3, hst2, hst1])]
    unfold pick
    simp only
    rw [h3d]
    by_cases hlt : editDistance str word < X.1
    · rw [if_pos hlt, if_pos hlt]
      refine ⟨hlen3, ?_, rfl, ?_⟩
      · intro b hb
        show st3.links.getD b none = _
        have hbL : b ∉ L.cells.map Prod.fst := fun h =>
          hb (List.mem_append_left _ (List.mem_append_left _ h))
        have hbR : b ∉ R.cells.map Prod.fst := fun h =>
          hb (List.mem_append_left _ (List.mem_append_right _ h))
        have hba : addr ≠ b := fun h =>
          hb (List.mem_append_right _ (List.mem_singleton.mpr h.symm))
        rw [h3frame b hbR, h2frame b hbL, hst1]
        show (st.links.set addr none).getD b none = _
        rw [getD_set_link, if_neg (fun e => hba e.1)]
      · show linked st3.links (some addr) [addr]
        rw [linked]
        refine ⟨rfl, ?_⟩
        rw [h3a, linked]
    · rw [if_neg hlt, if_neg hlt]
      by_cases heq : editDistance str word = X.1
      · rw [if_pos heq, if_pos heq]
        refine ⟨?_, ?_, rfl, ?_⟩
        · show (st3.links.set addr st3.minHead).length = _
          rw [List.length_set, hlen3]
        · intro b hb
          show (st3.links.set addr st3.minHead).getD b none = _
          have hbL : b ∉ L.cells.map Prod.fst := fun h =>
            hb (List.mem_append_left _ (List.mem_append_left _ h))
          have hbR : b ∉ R.cells.map Prod.fst := fun h =>
            hb (List.mem_append_left _ (List.mem_append_right _ h))
          have hba : addr ≠ b := fun h =>
            hb (List.mem_append_right _ (List.mem_singleton.mpr h.symm))
          rw [getD_set_link, if_neg (fun e => hba e.1), h3frame b hbR, h2frame b hbL, hst1]
          show (st.links.set addr none).getD b none = _
          rw [getD_set_link, if_neg (fun e => hba e.1)]
        · show linked (st3.links.set addr st3.minHead) (some addr) (addr :: X.2)
          rw [linked]
          refine ⟨rfl, ?_⟩
          rw [getD_set_link, if_pos ⟨rfl, by rw [hlen3]; exact hfa.2⟩]
          exact linked_set _ _ _ _ _ haX h3l
      · rw [if_neg heq, if_neg heq]
        refine ⟨hlen3, ?_, h3d, h3l⟩
        intro b hb
        have hbL : b ∉ L.cells.map Prod.fst := fun h =>
          hb (List.mem_append_left _ (List.mem_append_left _ h))
        have hbR : b ∉ R.cells.map Prod.fst := fun h =>
          hb (List.mem_append_left _ (List.mem_append_right _ h))
        have hba : addr ≠ b := fun h =>
          hb (List.mem_append_right _ (List.mem_singleton.mpr h.symm))
        rw [h3frame b hbR, h2frame b hbL, hst1]
        show (st.links.set addr none).getD b none = _
        rw [getD_set_link, if_neg (fun e => hba e.1)]

end EditDistance

namespace EditDistance

/-- The kernel on the buckets one after the other. -/
theorem buckets_spec (str : List Nat) :
    ∀ (ts : List node) (st : minState) (l : List Nat),
      linked st.links st.minHead l → ((ts.flatMap node.cells).map Prod.fst).Nodup →
      (∀ a ∈ (ts.flatMap node.cells).map Prod.fst, a ∉ l ∧ a < st.links.length) →
      (ts.foldl (fun st n => minEditDistanceKernel str n st) st).links.length = st.links.length ∧
      (ts.foldl (fun st n => minEditDistanceKernel str n st) st).minDist =
        ((ts.flatMap node.cells).foldl (pick str) (st.minDist, l)).1 ∧
      linked (ts.foldl (fun st n => minEditDistanceKernel str n st) st).links
        (ts.foldl (fun st n => minEditDistanceKernel str n st) st).minHead
        ((ts.flatMap node.cells).foldl (pick str) (st.minDist, l)).2 := by
  intro ts
  induction ts with
  | nil =>
    intro st l hl _ _
    exact ⟨rfl, rfl, hl⟩
  | cons t ts ih =>
    intro st l hl hnd hfresh
    rw [List.flatMap_cons, List.map_append] at hnd hfresh
    rw [List.flatMap_cons, List.foldl_cons, List.foldl_append]
    rw [List.nodup_append] at hnd
    obtain ⟨hndT, hndS, hdisj⟩ := hnd
    obtain ⟨k1, _, k3, k4⟩ := kernel_spec str t st l hl hndT
      (fun a ha => hfresh a (List.mem_append_left _ ha))
    have hrest : ∀ a ∈ (ts.flatMap node.cells).map Prod.fst,
        a ∉ (t.cells.foldl (pick str) (st.minDist, l)).2 ∧
          a < (minEditDistanceKernel str t st).links.length := by
      intro a ha
      refine ⟨fun hm => ?_, by rw [k1]; exact (hfresh a (List.mem_append_right _ ha)).2⟩
      rcases mem_foldl_pick str _ _ _ a hm with h | h
      · exact (hfresh a (List.mem_append_right _ ha)).1 h
      · exact hdisj h ha
    obtain ⟨j1, j2, j3⟩ := ih (minEditDistanceKernel str t st) _ k4 hndS hrest
    rw [k3] at j2 j3
    exact ⟨by rw [j1, k1], j2, j3⟩

theorem map_range_getD (bs : List node) :
    (List.range bs.length).map (fun i => bs.getD i node.NULL) = bs := by
  apply List.ext_getElem
  · simp
  · intro i h1 h2
    simp [List.getD_eq_getElem?_getD, List.getElem?_eq_getElem h2]

/-- The loop of `minimumEditDistances` over the bucket indices visits the
buckets of the table in their order. -/
theorem minimumEditDistances_eq (str : List Nat) (t : table) (d : Int)
    (hlen : t.buckets.length = HASH_BUCKETS) :
    minimumEditDistances str t d =
      t.buckets.foldl (fun st n => minEditDistanceKernel str n st) (minState.mk d none t.links) := by
  unfold minimumEditDistances
  rw [← hlen]
  conv => rhs; rw [← map_range_getD t.buckets]
  rw [List.foldl_map]

theorem cells_insertNode (str : List Nat) (k : Nat) :
    ∀ t : node, (insertNode str k t).cells.Perm ((k, str) :: t.cells) := by
  intro t
  induction t with
  | NULL => exact List.Perm.refl _
  | cell a w L R ihL ihR =>
    rw [insertNode]
    by_cases h : strcmp str w < 0
    · rw [if_pos h]
      exact (ihL.append_right R.cells).append_right [(a, w)]
    · rw [if_neg h]
      exact ((ihR.append_left L.cells).trans List.perm_middle).append_right [(a, w)]

theorem flatMap_set_perm (c : Nat × List Nat) (x : node) :
    ∀ (bs : List node) (i : Nat), i < bs.length →
      x.cells.Perm (c :: (bs.getD i node.NULL).cells) →
      ((bs.set i x).flatMap node.cells).Perm (c :: bs.flatMap node.cells) := by
  intro bs
  induction bs with
  | nil => intro i hi; simp at hi
  | cons b bs ih =>
    intro i hi hp
    cases i with
    | zero =>
      rw [List.set_cons_zero, List.flatMap_cons, List.flatMap_cons]
      exact hp.append_right _
    | succ j =>
      rw [List.set_cons_succ, List.flatMap_cons, List.flatMap_cons]
      have hj : j < bs.length := by simpa using hi
      have := ih j hj (by simpa using hp)
      exact (this.append_left b.cells).trans List.perm_middle

theorem cells_emptyTable : emptyTable.cells = [] := by
  unfold emptyTable table.cells
  have : ∀ n : Nat, (List.replicate n node.NULL).flatMap node.cells = [] := by
    intro n
    induction n with
    | zero => rfl
    | succ n ih =>
      rw [List.replicate_succ, List.flatMap_cons, ih]
      rfl
  exact this _

/-- One `addNode` adds one node, at the next address, with the word added. -/
theorem addNode_cells (t : table) (w : List Nat) (E : List (Nat × List Nat))
    (hc : t.cells.Perm E) (hb : t.buckets.length = HASH_BUCKETS) (hl : t.links.length = E.length) :
    (addNode t w).cells.Perm (E ++ [(E.length, w)]) ∧
    (addNode t w).buckets.length = HASH_BUCKETS ∧
    (addNode t w).links.length = (E ++ [(E.length, w)]).length := by
  refine ⟨?_, by simp [addNode, hb], by simp [addNode, hl]⟩
  unfold table.cells addNode
  simp only
  have h1 := flatMap_set_perm (t.links.length, w)
    (insertNode w t.links.length (t.buckets.getD (hash w) node.NULL)) t.buckets (hash w)
    (by rw [hb]; exact hash_lt w) (cells_insertNode w _ _)
  rw [hl] at h1 ⊢
  exact h1.trans ((List.Perm.cons _ hc).trans (List.perm_append_singleton _ _).symm)

theorem foldl_addNode_cells :
    ∀ (ws : List (List Nat)) (t : table) (E : List (Nat × List Nat)),
      t.cells.Perm E → t.buckets.length = HASH_BUCKETS → t.links.length = E.length →
      (ws.foldl addNode t).cells.Perm (E ++ ws.enumFrom E.length) ∧
      (ws.foldl addNode t).buckets.length = HASH_BUCKETS ∧
      (ws.foldl addNode t).links.length = E.length + ws.length := by
  intro ws
  induction ws with
  | nil =>
    intro t E hc hb hl
    simpa using ⟨hc, hb, hl⟩
  | cons w ws ih =>
    intro t E hc hb hl
    obtain ⟨a1, a2, a3⟩ := addNode_cells t w E hc hb hl
    obtain ⟨b1, b2, b3⟩ := ih (addNode t w) _ a1 a2 a3
    rw [List.foldl_cons]
    refine ⟨?_, b2, ?_⟩
    · rw [List.enumFrom_cons]
      rw [List.append_assoc, List.length_append] at b1
      exact b1
    · rw [b3]
      simp only [List.length_append, List.length_cons, List.length_nil]
      omega

/-- The nodes of a table built from a list of words: the `k`-th word added is
held by the node at the address `k`. -/
theorem built_cells (words : List (List Nat)) :
    (words.foldl addNode emptyTable).cells.Perm words.enum ∧
    (words.foldl addNode emptyTable).buckets.length = HASH_BUCKETS ∧
    (words.foldl addNode emptyTable).links.length = words.length := by
  have h := foldl_addNode_cells words emptyTable [] (by rw [cells_emptyTable])
    (by simp [emptyTable]) (by simp [emptyTable])
  simpa [List.enum] using h

theorem built_mem (words : List (List Nat)) (a : Nat) (w : List Nat) :
    (a, w) ∈ (words.foldl addNode emptyTable).cells ↔ words[a]? = some w := by
  rw [(built_cells words).1.mem_iff, List.mk_mem_enum_iff_getElem?]

theorem built_nodup (words : List (List Nat)) :
    ((words.foldl addNode emptyTable).cells.map Prod.fst).Nodup := by
  rw [((built_cells words).1.map Prod.fst).nodup_iff, List.enum_map_fst]
  exact List.nodup_range _

theorem built_addr_lt (words : List (List Nat)) (a : Nat)
    (h : a ∈ (words.foldl addNode emptyTable).cells.map Prod.fst) : a < words.length := by
  rw [((built_cells words).1.map Prod.fst).mem_iff, List.enum_map_fst, List.mem_range] at h
  exact h

end EditDistance

namespace FlowNetworks

/-- C21 fails on the code: on the five-vertex network with the edges 0→1, 0→2,
1→4, 2→3, 3→4 `breadthFirstSearch` returns true and records the parents
p[4] = 3, p[3] = 2, p[2] = 0, a path of 3 edges from the source to the sink,
while 0→1→4 is a path of 2 edges. -/
theorem breadthFirstSearch_path_not_shortest :
    breadthFirstSearch 5 stackNet = some (true, [0, 0, 0, 2, 3]) ∧
    parentWalk [0, 0, 0, 2, 3] 5 (stackNet.vertices - 1) = some [4, 3, 2, 0] ∧
    [4, 3, 2, 0].length - 1 = 3 ∧
    (stackNet.edge 0 1 ∧ stackNet.edge 1 4) ∧ [0, 1, 4].length - 1 = 2 := by
  refine ⟨by decide, by decide, by decide, ⟨⟨by decide, by decide, by decide⟩,
    ⟨by decide, by decide, by decide⟩⟩, by decide⟩

end FlowNetworks

namespace StringMatching

/-- C30 fails on the code: for the text `aa` (textLength 2) and the pattern
`aa` the inner loop of `naiveMatch` at i = 1 finds text[1] equal to pattern[0]
and goes on to read text[2], an index not below textLength. -/
theorem naiveMatch_reads_past_end :
    naiveReads [97, 97] [97, 97] = [0, 1, 1, 2] ∧
    2 ∈ naiveReads [97, 97] [97, 97] ∧ ¬ (2 < [97, 97].length) := by
  decide

end StringMatching

namespace FlowNetworks

/-! ## The recorded path and its bottleneck -/

/-- C22: for every matrix g over n >= 2 vertices on which breadthFirstSearch
returns true with the parent list p, following the parent list from the sink
(v := n-1, then v := p[v]) reaches vertex 0 after at most n-1 steps, without
repeating a vertex, and every step uses an edge of g: g[p[v]][v] != 0 for each
vertex v of the walk other than 0. -/
theorem parent_walk_reaches_source (g : adjmatrix) (hn : 2 ≤ g.vertices) (fuel : Nat)
    (p : List Nat) (h : breadthFirstSearch fuel g = some (true, p)) :
    ∃ l, parentWalk p (g.vertices - 1) (g.vertices - 1) = some l ∧
      l.head? = some (g.vertices - 1) ∧ l.getLast? = some 0 ∧
      l.length - 1 ≤ g.vertices - 1 ∧ l.Nodup ∧
      l.Chain' (fun a b => b = p.getD a 0) ∧
      ∀ v ∈ l, v < g.vertices ∧ (v ≠ 0 → g.at (p.getD v 0) v ≠ 0) := by
  obtain ⟨visited, hpost⟩ := breadthFirstSearch_post g (by omega) fuel true p h
  obtain ⟨rank, tree⟩ := hpost.tree
  have hsink : visited.getD (g.vertices - 1) false = true := hpost.sink.symm
  have hsl : g.vertices - 1 < g.vertices := by omega
  have hr := rank_lt tree hsl hsink
  obtain ⟨l, hl, hhead, hlast, hlen, hnd, hch, hall⟩ :=
    parentWalk_spec g p visited rank tree (g.vertices - 1) (g.vertices - 1) hsl hsink (by omega)
  exact ⟨l, hl, hhead, hlast, by omega, hnd, hch, fun v hv => ⟨(hall v hv).1, (hall v hv).2.2.2.2⟩⟩

theorem parent_walk_reaches_source_witness :
    2 ≤ exampleNet.vertices ∧ breadthFirstSearch 4 exampleNet = some (true, [0, 0, 0, 2]) ∧
    ∃ l, parentWalk [0, 0, 0, 2] (exampleNet.vertices - 1) (exampleNet.vertices - 1) = some l ∧
      l.head? = some (exampleNet.vertices - 1) ∧ l.getLast? = some 0 ∧
      l.length - 1 ≤ exampleNet.vertices - 1 ∧ l.Nodup ∧
      l.Chain' (fun a b => b = ([0, 0, 0, 2] : List Nat).getD a 0) ∧
      ∀ v ∈ l, v < exampleNet.vertices ∧
        (v ≠ 0 → exampleNet.at (([0, 0, 0, 2] : List Nat).getD v 0) v ≠ 0) :=
  ⟨by decide, by decide,
    parent_walk_reaches_source exampleNet (by decide) 4 [0, 0, 0, 2] (by decide)⟩

/-- C23: for every matrix g of `unsigned int` entries over n >= 2 vertices and
the parent list p of a successful breadthFirstSearch, pathCapacity returns the
minimum of g[p[v]][v] over the edges of the recorded sink-to-source path (a
lower bound of all of them that one of them attains), and that value is at
least 1. -/
theorem pathCapacity_is_bottleneck (g : adjmatrix) (hn : 2 ≤ g.vertices)
    (hU : ∀ x ∈ g.matrix, x < 2 ^ 32) (fuel : Nat) (p : List Nat)
    (h : breadthFirstSearch fuel g = some (true, p)) :
    ∃ l c, parentWalk p (g.vertices - 1) (g.vertices - 1) = some l ∧
      pathCapacity (g.vertices - 1) g p = some c ∧ 1 ≤ c ∧
      (∀ v ∈ l, v ≠ 0 → c ≤ g.at (p.getD v 0) v) ∧
      ∃ v ∈ l, v ≠ 0 ∧ c = g.at (p.getD v 0) v := by
  obtain ⟨visited, hpost⟩ := breadthFirstSearch_post g (by omega) fuel true p h
  obtain ⟨rank, tree⟩ := hpost.tree
  have hsink : visited.getD (g.vertices - 1) false = true := hpost.sink.symm
  have hsl : g.vertices - 1 < g.vertices := by omega
  have hr := rank_lt tree hsl hsink
  obtain ⟨l, hl, hhead, _, _, _, _, hall⟩ :=
    parentWalk_spec g p visited rank tree (g.vertices - 1) (g.vertices - 1) hsl hsink (by omega)
  obtain ⟨c, hc, _, _, hcle⟩ :=
    pathCapacityLoop_total g p visited rank tree (g.vertices - 1) (g.vertices - 1) (UINT - 1)
      hsl hsink (by omega)
  have hsinkmem : g.vertices - 1 ∈ l := by
    cases l with
    | nil => simp at hhead
    | cons a t =>
      simp only [List.head?_cons, Option.some.injEq] at hhead
      rw [hhead]
      exact List.mem_cons_self _ _
  have hatt : ∃ v ∈ l, v ≠ 0 ∧ c = g.at (p.getD v 0) v := by
    rcases pathCapacityLoop_attained g p _ _ _ _ hc with heq | ⟨w, hw, hw0, hval⟩
    · refine ⟨g.vertices - 1, hsinkmem, by omega, ?_⟩
      have h1 := hcle (g.vertices - 1) (OnWalk.here _) (by omega)
      have h2 := at_lt_of_entries hU (p.getD (g.vertices - 1) 0) (g.vertices - 1)
      omega
    · exact ⟨w, onWalk_mem p _ _ l hl w hw, hw0, hval⟩
  refine ⟨l, c, hl, hc, ?_, fun v hv hv0 => hcle v (hall v hv).2.2.2.1 hv0, hatt⟩
  obtain ⟨v, hv, hv0, hval⟩ := hatt
  have := (hall v hv).2.2.2.2 hv0
  omega

theorem pathCapacity_is_bottleneck_witness :
    2 ≤ exampleNet.vertices ∧ (∀ x ∈ exampleNet.matrix, x < 2 ^ 32) ∧
    breadthFirstSearch 4 exampleNet = some (true, [0, 0, 0, 2]) ∧
    ∃ l c, parentWalk [0, 0, 0, 2] (exampleNet.vertices - 1) (exampleNet.vertices - 1) = some l ∧
      pathCapacity (exampleNet.vertices - 1) exampleNet [0, 0, 0, 2] = some c ∧ 1 ≤ c ∧
      (∀ v ∈ l, v ≠ 0 → c ≤ exampleNet.at (([0, 0, 0, 2] : List Nat).getD v 0) v) ∧
      ∃ v ∈ l, v ≠ 0 ∧ c = exampleNet.at (([0, 0, 0, 2] : List Nat).getD v 0) v :=
  ⟨by decide, by decide, by decide,
    pathCapacity_is_bottleneck exampleNet (by decide) (by decide) 4 [0, 0, 0, 2] (by decide)⟩

/-! ## Resizing in the solver's reading loop -/

/-- C25, as stated, fails: with the entry 7 at position (0, 1) of the 5 x 5
matrix and an edge statement with source 65536, the new cell count
65536 * 65536 is 0 as an `unsigned int`; the array the loop continues with has
no cell, and position (0, 1) no longer holds 7. -/
theorem growMatrix_overflow :
    65536 > ((zeroMatrix 5).put 0 1 7).vertices ∧
    newVertices ((zeroMatrix 5).put 0 1 7).vertices 65536 1 = max 65536 1 ∧
    ((zeroMatrix 5).put 0 1 7).at 0 1 = 7 ∧
    (growMatrix ((zeroMatrix 5).put 0 1 7) 65536).matrix.length = 0 ∧
    (growMatrix ((zeroMatrix 5).put 0 1 7) 65536).at 0 1 = 0 := by
  decide

/-- C25, amended: when the solver's reading loop meets an edge (src, dst, cap)
with src or dst larger than the current vertex count k and max(src, dst) below
2^16, the matrix it stores the edge into has size max(src, dst), holds at
every position (i, j) with i, j < k the value the old matrix held at (i, j),
and is zero at every other position. -/
theorem parseEdge_resize (flownet : adjmatrix) (src dst cap : Nat)
    (hbig : src > flownet.vertices ∨ dst > flownet.vertices) (hU : max src dst < 2 ^ 16) :
    ∃ grown : adjmatrix,
      parseEdge flownet (src, dst, cap) =
        grown.put ((src + UINT - 1) % UINT) ((dst + UINT - 1) % UINT) cap ∧
      grown.vertices = max src dst ∧
      grown.matrix.length = max src dst * max src dst ∧
      ∀ i j, i < max src dst → j < max src dst →
        grown.at i j = if i < flownet.vertices ∧ j < flownet.vertices then flownet.at i j else 0 := by
  have hnv := newVertices_eq_max flownet.vertices src dst hbig
  have hsq : max src dst * max src dst < UINT := by
    have h1 : max src dst ≤ 2 ^ 16 - 1 := by omega
    have := Nat.mul_le_mul h1 h1
    unfold UINT
    omega
  obtain ⟨hwf, hat⟩ := growMatrix_at flownet (max src dst) (by omega) hsq
  refine ⟨growMatrix flownet (max src dst), ?_, rfl, hwf, hat⟩
  unfold parseEdge
  simp only
  rw [if_pos hbig, hnv]

theorem parseEdge_resize_witness :
    (7 > ((zeroMatrix 5).put 0 1 7).vertices ∨ 2 > ((zeroMatrix 5).put 0 1 7).vertices) ∧
    max 7 2 < 2 ^ 16 ∧
    ∃ grown : adjmatrix,
      parseEdge ((zeroMatrix 5).put 0 1 7) (7, 2, 3) =
        grown.put ((7 + UINT - 1) % UINT) ((2 + UINT - 1) % UINT) 3 ∧
      grown.vertices = max 7 2 ∧
      grown.matrix.length = max 7 2 * max 7 2 ∧
      ∀ i j, i < max 7 2 → j < max 7 2 →
        grown.at i j =
          if i < ((zeroMatrix 5).put 0 1 7).vertices ∧ j < ((zeroMatrix 5).put 0 1 7).vertices
          then ((zeroMatrix 5).put 0 1 7).at i j else 0 :=
  ⟨by decide, by decide, parseEdge_resize ((zeroMatrix 5).put 0 1 7) 7 2 3 (by decide) (by decide)⟩

end FlowNetworks

namespace FlowNetworks

/-! ## Pair sums of the residual graph, flow at the source and at the sink -/

/-- C24: for capacities summing to less than 2^32 over n >= 2 vertices,
edmondsKarp returns, every residual graph it passes through (one after each
augmentation step) has, for every pair of vertices u, v, the sum
residual[u][v] + residual[v][u] of the original capacities, so every step
preserves the sum, and on termination
residual[u][v] + residual[v][u] = cap[u][v] + cap[v][u]. -/
theorem edmondsKarp_pair_sums (g f : adjmatrix) (hn : 2 ≤ g.vertices) (hwf : g.wellFormed)
    (hB : g.matrix.sum < 2 ^ 32) (fuel : Nat) (hf : g.matrix.sum + g.vertices ≤ fuel) :
    ∃ r t, edmondsKarp fuel g f = some r ∧
      edmondsKarpTrace fuel fuel { maxFlow := 0, g := g, f := f, iterations := 0 } = some t ∧
      (∀ m ∈ t, ∀ u v, u < g.vertices → v < g.vertices →
        m.at u v + m.at v u = g.at u v + g.at v u) ∧
      ∀ u v, u < g.vertices → v < g.vertices →
        r.g.at u v + r.g.at v u = g.at u v + g.at v u := by
  obtain ⟨r, hr, hinv, _⟩ := edmondsKarp_total g f hn hwf hB fuel hf
  obtain ⟨t, ht, hall⟩ := edmondsKarpTrace_total g fuel hn hB (by omega) fuel
    { maxFlow := 0, g := g, f := f, iterations := 0 } (ekInit_inv g f hwf)
    (by show g.matrix.sum - 0 ≤ fuel; omega)
  exact ⟨r, t, hr, ht, fun m hm => (hall m hm).pair, hinv.res.pair⟩

theorem edmondsKarp_pair_sums_witness :
    2 ≤ exampleNet.vertices ∧
    exampleNet.matrix.length = exampleNet.vertices * exampleNet.vertices ∧ exampleNet.matrix.sum < 2 ^ 32 ∧
    exampleNet.matrix.sum + exampleNet.vertices ≤ 14 ∧
    ∃ r t, edmondsKarp 14 exampleNet (zeroMatrix 4) = some r ∧
      edmondsKarpTrace 14 14
        { maxFlow := 0, g := exampleNet, f := zeroMatrix 4, iterations := 0 } = some t ∧
      (∀ m ∈ t, ∀ u v, u < exampleNet.vertices → v < exampleNet.vertices →
        m.at u v + m.at v u = exampleNet.at u v + exampleNet.at v u) ∧
      ∀ u v, u < exampleNet.vertices → v < exampleNet.vertices →
        r.g.at u v + r.g.at v u = exampleNet.at u v + exampleNet.at v u :=
  ⟨by decide, by decide, by decide, by decide,
    edmondsKarp_pair_sums exampleNet (zeroMatrix 4) (by decide)
      (by unfold adjmatrix.wellFormed; decide) (by decide) 14 (by decide)⟩

/-- C28: for every capacity matrix over n >= 2 vertices with capacities
summing to less than 2^32 and an all-zero flow matrix, edmondsKarp returns, the
value it returns equals the sum over v of flow[0][v], every flow[v][0] is zero,
and the value equals the sum over u of flow[u][n-1] minus the sum over w of
flow[n-1][w]. -/
theorem edmondsKarp_flow_at_ends (g : adjmatrix) (hn : 2 ≤ g.vertices) (hwf : g.wellFormed)
    (hB : g.matrix.sum < 2 ^ 32) (fuel : Nat) (hf : g.matrix.sum + g.vertices ≤ fuel) :
    ∃ r, edmondsKarp fuel g (zeroMatrix g.vertices) = some r ∧
      r.maxFlow = (Finset.sum (Finset.range g.vertices) fun v => r.f.at 0 v) ∧
      (∀ v, v < g.vertices → r.f.at v 0 = 0) ∧
      (r.maxFlow : Int) =
        (Finset.sum (Finset.range g.vertices) fun u => (r.f.at u (g.vertices - 1) : Int)) -
        (Finset.sum (Finset.range g.vertices) fun w => (r.f.at (g.vertices - 1) w : Int)) := by
  obtain ⟨r, hr, hinv, _⟩ := edmondsKarp_total g (zeroMatrix g.vertices) hn hwf hB fuel hf
  have hflow := edmondsKarp_flow_post g hn hwf hB fuel r hr
  have hcol : ∀ v, v < g.vertices → r.f.at v 0 = 0 := by
    have hr' := hr
    unfold edmondsKarp at hr'
    exact edmondsKarpLoop_col0 g.vertices fuel (by omega) fuel _ r rfl rfl
      (fun v _ => zeroMatrix_at _ _ _) hr'
  refine ⟨r, hr, ?_, hcol, ?_⟩
  · have hval := hinv.value
    unfold excess at hval
    have hpt : ∀ u ∈ Finset.range g.vertices, net g r.g 0 u = (r.f.at 0 u : Int) := by
      intro u hu
      rw [Finset.mem_range] at hu
      rw [← hflow.netEq 0 u (by omega) hu, hcol u hu]
      simp
    rw [Finset.sum_congr rfl hpt] at hval
    have : ((Finset.sum (Finset.range g.vertices) fun v => r.f.at 0 v : Nat) : Int) =
        (r.maxFlow : Int) := by
      rw [← hval]
      push_cast
      rfl
    exact_mod_cast this.symm
  · have hsum := sum_net_into_sink hinv.res (r.maxFlow : Int) hn hinv.cons hinv.value
    rw [← hsum, ← Finset.sum_sub_distrib]
    apply Finset.sum_congr rfl
    intro v hv
    rw [Finset.mem_range] at hv
    exact (hflow.netEq v (g.vertices - 1) hv (by omega)).symm

theorem edmondsKarp_flow_at_ends_witness :
    2 ≤ crossNet.vertices ∧
    crossNet.matrix.length = crossNet.vertices * crossNet.vertices ∧ crossNet.matrix.sum < 2 ^ 32 ∧
    crossNet.matrix.sum + crossNet.vertices ≤ 18 ∧
    ∃ r, edmondsKarp 18 crossNet (zeroMatrix crossNet.vertices) = some r ∧
      r.maxFlow = (Finset.sum (Finset.range crossNet.vertices) fun v => r.f.at 0 v) ∧
      (∀ v, v < crossNet.vertices → r.f.at v 0 = 0) ∧
      (r.maxFlow : Int) =
        (Finset.sum (Finset.range crossNet.vertices)
          fun u => (r.f.at u (crossNet.vertices - 1) : Int)) -
        (Finset.sum (Finset.range crossNet.vertices)
          fun w => (r.f.at (crossNet.vertices - 1) w : Int)) :=
  ⟨by decide, by decide, by decide, by decide,
    edmondsKarp_flow_at_ends crossNet (by decide) (by unfold adjmatrix.wellFormed; decide)
      (by decide) 18 (by decide)⟩

end FlowNetworks

namespace FlowNetworks

/-! ## Edges survive the retries of the generator -/

/-- C29: for every vertex count n in [5,15] and every sequence of values of
rand(), generate_flow on the all-zero n x n matrix makes at least one and at
most COP_OUT_LIMIT = 5 passes of its loop body, and every position (i, j) that
is nonzero at the end of a pass (of a failed attempt in particular) is nonzero
in the matrix generate_flow finally leaves. -/
theorem generate_flow_keeps_edges (rand : Nat → Nat) (n fuel : Nat)
    (hn : 5 ≤ n ∧ n ≤ 15) (hf : n + COP_OUT_LIMIT ≤ fuel) :
    COP_OUT_LIMIT = 5 ∧
    ∃ m t, generate_flow rand fuel (zeroMatrix n) = some m ∧
      generateAttempts rand fuel fuel 0 { flownet := zeroMatrix n, calls := 0, e := 0 } = some t ∧
      1 ≤ t.length ∧ t.length ≤ COP_OUT_LIMIT ∧
      ∀ a ∈ t, ∀ i j, i < n → j < n → a.at i j ≠ 0 → m.at i j ≠ 0 := by
  obtain ⟨s', t, hs', ht, hlen1, hlen, hall⟩ := generateAttempts_spec rand n fuel (by omega)
    (by omega) fuel 0 { flownet := zeroMatrix n, calls := 0, e := 0 } rfl
    (zeroMatrix_wellFormed n) (by decide) (by omega)
  refine ⟨rfl, s'.flownet, t, ?_, ht, hlen1, by omega, fun a ha i j _ hj hne => ?_⟩
  · unfold generate_flow
    rw [hs']
    rfl
  · obtain ⟨hv, hwf, hw⟩ := hall a ha
    exact hw.nonzero hv hwf i j hj hne

/-- Instance of C29 for five vertices and `rand()` returning 41 at every
call: all five passes fail to connect the source to the sink, so four attempts
are retried, and the edges of each of them are in the final matrix. -/
theorem generate_flow_keeps_edges_witness :
    (5 ≤ 5 ∧ 5 ≤ 15) ∧ 5 + COP_OUT_LIMIT ≤ 10 ∧
    (generateAttempts (fun _ => 41) 10 10 0
      { flownet := zeroMatrix 5, calls := 0, e := 0 }).map List.length = some 5 ∧
    (COP_OUT_LIMIT = 5 ∧
    ∃ m t, generate_flow (fun _ => 41) 10 (zeroMatrix 5) = some m ∧
      generateAttempts (fun _ => 41) 10 10 0
        { flownet := zeroMatrix 5, calls := 0, e := 0 } = some t ∧
      1 ≤ t.length ∧ t.length ≤ COP_OUT_LIMIT ∧
      ∀ a ∈ t, ∀ i j, i < 5 → j < 5 → a.at i j ≠ 0 → m.at i j ≠ 0) :=
  ⟨by decide, by decide, by decide!,
    generate_flow_keeps_edges (fun _ => 41) 5 10 (by decide) (by decide)⟩

end FlowNetworks

namespace EditDistance

/-- Claim C26. In the hash table built from the empty table by any finite
sequence of `addNode` calls, `contains(w, table)` is true exactly when `w` is
one of the words that were added. -/
theorem contains_iff_added (words : List (List Nat)) (w : List Nat) :
    contains w (words.foldl addNode emptyTable) = true ↔ w ∈ words := by
  rw [contains_foldl_addNode w words emptyTable (by simp [emptyTable])]
  have hempty : contains w emptyTable = false := by
    unfold contains emptyTable
    simp only
    have hN : (List.replicate HASH_BUCKETS node.NULL).getD (hash w) node.NULL = node.NULL := by
      rw [List.getD_eq_getElem?_getD, List.getElem?_replicate]
      split_ifs <;> rfl
    rw [hN]
    rfl
  rw [hempty]
  simp

/-- Claim C27. On a table built from a non-empty list of words by `addNode`
calls, `minimumEditDistances(s, table, minDist)` with `*minDist = INT_MAX`
leaves in `*minDist` the least `editDistance(s, w)` over the stored words; the
nodes of the table have distinct addresses and hold the words added; and the
walk from the returned head through the `N` links ends in `NULL`, meets no
node twice, and meets exactly the stored nodes whose word is at that least
distance. -/
theorem minimumEditDistances_nearest (words : List (List Nat)) (s : List Nat)
    (hne : words ≠ []) :
    (∃ w ∈ words,
      (minimumEditDistances s (words.foldl addNode emptyTable) INT_MAX).minDist =
        editDistance s w) ∧
    (∀ w ∈ words,
      (minimumEditDistances s (words.foldl addNode emptyTable) INT_MAX).minDist ≤
        editDistance s w) ∧
    ((words.foldl addNode emptyTable).cells.map Prod.fst).Nodup ∧
    (∀ w, w ∈ words ↔ ∃ a, (a, w) ∈ (words.foldl addNode emptyTable).cells) ∧
    ∃ l, linkList (minimumEditDistances s (words.foldl addNode emptyTable) INT_MAX).links
        words.length
        (minimumEditDistances s (words.foldl addNode emptyTable) INT_MAX).minHead = some l ∧
      l.Nodup ∧
      ∀ a, a ∈ l ↔ ∃ w, (a, w) ∈ (words.foldl addNode emptyTable).cells ∧
        editDistance s w =
          (minimumEditDistances s (words.foldl addNode emptyTable) INT_MAX).minDist := by
  obtain ⟨t, ht⟩ : ∃ t, t = words.foldl addNode emptyTable := ⟨_, rfl⟩
  have hmem : ∀ a w, (a, w) ∈ t.cells ↔ words[a]? = some w := by
    rw [ht]; exact built_mem words
  have hnd : (t.cells.map Prod.fst).Nodup := by rw [ht]; exact built_nodup words
  have hlt : ∀ a ∈ t.cells.map Prod.fst, a < words.length := by
    rw [ht]; exact built_addr_lt words
  have hb : t.buckets.length = HASH_BUCKETS := by rw [ht]; exact (built_cells words).2.1
  have hl : t.links.length = words.length := by rw [ht]; exact (built_cells words).2.2
  have hwords : ∀ w, w ∈ words ↔ ∃ a, (a, w) ∈ t.cells := by
    intro w
    rw [List.mem_iff_getElem?]
    exact exists_congr fun a => (hmem a w).symm
  rw [← ht, minimumEditDistances_eq s t INT_MAX hb]
  obtain ⟨_, k2, k3⟩ := buckets_spec s t.buckets (minState.mk INT_MAX none t.links) []
    (by show linked t.links none []; rw [linked]) hnd
    (fun a ha => ⟨List.not_mem_nil a, by show a < t.links.length; rw [hl]; exact hlt a ha⟩)
  obtain ⟨st, hst⟩ : ∃ st, st = t.buckets.foldl (fun st n => minEditDistanceKernel s n st)
    (minState.mk INT_MAX none t.links) := ⟨_, rfl⟩
  rw [← hst] at k2 k3 ⊢
  obtain ⟨p1, p2, p3, p4, p5⟩ := foldl_pick_spec s (t.buckets.flatMap node.cells) INT_MAX []
  have hcells : t.cells = t.buckets.flatMap node.cells := rfl
  rw [hcells] at hnd hlt hwords ⊢
  have k2' : st.minDist = ((t.buckets.flatMap node.cells).foldl (pick s) (INT_MAX, [])).1 := k2
  have k3' : linked st.links st.minHead
      ((t.buckets.flatMap node.cells).foldl (pick s) (INT_MAX, [])).2 := k3
  rw [← k2'] at p1 p2 p3 p4
  have hlow : ∀ w ∈ words, st.minDist ≤ editDistance s w := by
    intro w hw
    obtain ⟨a, ha⟩ := (hwords w).mp hw
    exact p2 (a, w) ha
  refine ⟨?_, hlow, hnd, hwords, _, ?_, p5 (by simpa using hnd), ?_⟩
  · rcases p3 with h | ⟨c, hc, h⟩
    · obtain ⟨w, hw⟩ := List.exists_mem_of_ne_nil words hne
      exact ⟨w, hw, le_antisymm (hlow w hw) (by rw [h]; exact editDistance_le_INT_MAX s w)⟩
    · exact ⟨c.2, (hwords c.2).mpr ⟨c.1, hc⟩, h⟩
  · apply linked_linkList _ _ _ _ k3'
    have hsub : ∀ a ∈ ((t.buckets.flatMap node.cells).foldl (pick s) (INT_MAX, [])).2,
        a ∈ List.range words.length := by
      intro a ha
      rcases mem_foldl_pick s _ _ _ a ha with h | h
      · exact absurd h (List.not_mem_nil a)
      · exact List.mem_range.mpr (hlt a h)
    have := (List.subperm_of_subset (p5 (by simpa using hnd)) hsub).length_le
    simpa using this
  · intro a
    rw [p4 a]
    constructor
    · rintro (⟨h, _⟩ | h)
      · exact absurd h (List.not_mem_nil a)
      · exact h
    · intro h
      exact Or.inr h

/-- Instance of claim C27 for the words "ab", "ac", "b" and the string "a". -/
theorem minimumEditDistances_nearest_witness :
    ([[97, 98], [97, 99], [98]] : List (List Nat)) ≠ [] ∧
    (∃ w ∈ ([[97, 98], [97, 99], [98]] : List (List Nat)),
      (minimumEditDistances [97] ([[97, 98], [97, 99], [98]].foldl addNode emptyTable)
        INT_MAX).minDist = editDistance [97] w) ∧
    ∃ l, linkList
        (minimumEditDistances [97] ([[97, 98], [97, 99], [98]].foldl addNode emptyTable)
          INT_MAX).links 3
        (minimumEditDistances [97] ([[97, 98], [97, 99], [98]].foldl addNode emptyTable)
          INT_MAX).minHead = some l ∧
      l.Nodup ∧
      ∀ a, a ∈ l ↔ ∃ w, (a, w) ∈ ([[97, 98], [97, 99], [98]].foldl addNode emptyTable).cells ∧
        editDistance [97] w =
          (minimumEditDistances [97] ([[97, 98], [97, 99], [98]].foldl addNode emptyTable)
            INT_MAX).minDist :=
  ⟨by decide,
    (minimumEditDistances_nearest [[97, 98], [97, 99], [98]] [97] (by decide)).1,
    (minimumEditDistances_nearest [[97, 98], [97, 99], [98]] [97] (by decide)).2.2.2.2⟩

end EditDistance
